import Mathlib

/-!
# LMAX-style disruptor: cursor-advance engine, cursors and reader/writer pair

Shallow embedding of `src/lmax_disruptor/include/disruptor.hpp` and
`disruptor.ipp`.

Conventions of the embedding.

* `size_t` values are natural numbers; the arithmetic the source performs on
  them (`+` and `-` in the two `Reserve` functions) is embedded with explicit
  reduction modulo `2 ^ 64` (`size_add`, `size_sub`).  The cursor-advance
  engines only compare and copy sequence numbers, so no reduction occurs there.
* `std::array<Reservation, LIM>` is a list; the freshly constructed table is
  `List.replicate LIM {}`.
* `disruptor.ipp` defines `NDEBUG`, so `Print` expands to nothing.  Whether
  `assert` is active depends on the build (`NDEBUG` is defined after
  `<cassert>` is included).  The functions of the embedding follow the build in
  which `assert` is compiled out; the asserted conditions are kept as separate
  Boolean definitions (`*_assert`), so that a theorem can say that they hold.
* An atomic operation is one step.  `compare_exchange_weak` is embedded without
  spurious failure (a spurious failure only repeats the enclosing loop).
* A loop that waits for another thread is embedded twice: as a single pass
  whose observations are arguments, and as a sequential run with fuel, where
  `none` means that the loop is still spinning when the fuel is used up.
-/

namespace disruptor

/-! ## Machine arithmetic -/

/-- Number of values of `size_t` on the reference platform. -/
def SIZE_MOD : Nat := 2 ^ 64

/-- Addition of `size_t` values. -/
def size_add (a b : Nat) : Nat := (a + b) % SIZE_MOD

/-- Subtraction of `size_t` values (wraps below zero). -/
def size_sub (a b : Nat) : Nat := (a + SIZE_MOD - b % SIZE_MOD) % SIZE_MOD

/-! ## Data model -/

/-- Source `enum PublishPolicy{BUFFERED = 0, BLOCK}`. -/
inductive PublishPolicy where
  | BUFFERED
  | BLOCK
  deriving DecidableEq, Repr

/-- Source `struct ReservationInfo`: default `{0, 0, true}`. -/
structure ReservationInfo where
  pos_begin : Nat := 0
  pos_end : Nat := 0
  err : Bool := true
  deriving DecidableEq, Repr

/-- Source `enum detail::PublishUpdateStatus{SUCCESS, ERROR, NO_SPACE}`. -/
inductive PublishUpdateStatus where
  | SUCCESS
  | ERROR
  | NO_SPACE
  deriving DecidableEq, Repr

/-- Source `struct detail::Reservation`: the default constructor gives
`{0, 0, false}`, the two-argument constructor sets `is_initialised`. -/
structure Reservation where
  pos_begin : Nat := 0
  pos_end : Nat := 0
  is_initialised : Bool := false
  deriving DecidableEq, Repr

/-- Source `Reservation(size_t begin, size_t end)`. -/
def Reservation.mk2 (b e : Nat) : Reservation :=
  { pos_begin := b, pos_end := e, is_initialised := true }

/-- Source `CursorUpdateHelper<BUFFERED>::LIM`. -/
def LIM : Nat := 20

/-- State of `CursorUpdateHelper<PublishPolicy::BUFFERED>`: the table
`unprocessed_reservations_` and the atomic `cursor_`.  (`type_` is only
printed; `sync_flag_` is the lock under which `UpdateCursor` runs as one
step.) -/
structure BufferedHelper where
  unprocessed_reservations_ : List Reservation := List.replicate LIM {}
  cursor_ : Nat := 0
  deriving DecidableEq, Repr

/-- State of `CursorUpdateHelper<PublishPolicy::BLOCK>`: the atomic
`cursor_`. -/
structure BlockHelper where
  cursor_ : Nat := 0
  deriving DecidableEq, Repr

/-! ## Buffered cursor-advance engine -/

/-- One call of `std::find_if` with the merging lambda of
`CursorUpdateHelper<BUFFERED>::UpdateCursor` (disruptor.ipp 87-97): the first
entry that is initialised and begins at `target` is marked uninitialised and
its `pos_end` becomes the new target; `none` when `find_if` reaches `end()`. -/
def mergeScan (target : Nat) : List Reservation → Option (Nat × List Reservation)
  | [] => none
  | r :: rs =>
    if r.is_initialised && r.pos_begin == target then
      some (r.pos_end, { r with is_initialised := false } :: rs)
    else
      match mergeScan target rs with
      | none => none
      | some (t, rs') => some (t, r :: rs')

/-- The `while (find_if(...) != end());` loop (disruptor.ipp 87-98). Returns
the table and the final `target`. -/
def mergeLoop : Nat → List Reservation → Nat → List Reservation × Nat
  | 0, tbl, target => (tbl, target)
  | fuel + 1, tbl, target =>
    match mergeScan target tbl with
    | none => (tbl, target)
    | some (t, tbl') => mergeLoop fuel tbl' t

/-- The `else` branch (disruptor.ipp 112-128): `find_if` for the first
uninitialised entry, which is overwritten with `{pos_begin, pos_end}`;
`none` when the iterator is `end()`. -/
def storeFirstFree (pos_begin pos_end : Nat) : List Reservation → Option (List Reservation)
  | [] => none
  | r :: rs =>
    if !r.is_initialised then
      some (Reservation.mk2 pos_begin pos_end :: rs)
    else
      match storeFirstFree pos_begin pos_end rs with
      | none => none
      | some rs' => some (r :: rs')

/-- Source `CursorUpdateHelper<BUFFERED>::UpdateCursor` (disruptor.ipp
62-132), run as one step under `sync_flag_`.  The merge loop gets one unit of
fuel per table entry plus one for the final scan; `mergeLoop_fuel` shows that
this is enough. -/
def BufferedHelper.UpdateCursor (s : BufferedHelper) (pos_begin pos_end : Nat) :
    PublishUpdateStatus × BufferedHelper :=
  let c := s.cursor_
  if pos_end ≤ c then
    (PublishUpdateStatus.ERROR, s)
  else if pos_begin = c then
    let m := mergeLoop (s.unprocessed_reservations_.length + 1)
      s.unprocessed_reservations_ pos_end
    (PublishUpdateStatus.SUCCESS, { unprocessed_reservations_ := m.1, cursor_ := m.2 })
  else
    match storeFirstFree pos_begin pos_end s.unprocessed_reservations_ with
    | some tbl => (PublishUpdateStatus.SUCCESS, { s with unprocessed_reservations_ := tbl })
    | none => (PublishUpdateStatus.NO_SPACE, s)

/-- Source `CursorUpdateHelper<BUFFERED>::cursor`. -/
def BufferedHelper.cursor (s : BufferedHelper) : Nat := s.cursor_

/-- Source `CursorUpdateHelper<BUFFERED>::Reset`: `cursor_ = 0` and
`std::fill` of the table with `Reservation{}`. -/
def BufferedHelper.Reset (s : BufferedHelper) : BufferedHelper :=
  { unprocessed_reservations_ := s.unprocessed_reservations_.map (fun _ => {}),
    cursor_ := 0 }

/-- The conditions asserted in `UpdateCursor` (disruptor.ipp 66 and 100):
`pos_begin < pos_end`, and in the merge branch `target > cursor_`. -/
def BufferedHelper.UpdateCursor_assert (s : BufferedHelper) (pos_begin pos_end : Nat) : Bool :=
  decide (pos_begin < pos_end) &&
    (if s.cursor_ < pos_end ∧ pos_begin = s.cursor_ then
      decide (s.cursor_ < (s.UpdateCursor pos_begin pos_end).2.cursor_)
    else true)

/-- A sequence of `UpdateCursor` calls, each one atomic, applied in list
order; returns the statuses in call order and the final state. -/
def BufferedHelper.UpdateCursorAll (s : BufferedHelper) :
    List (Nat × Nat) → List PublishUpdateStatus × BufferedHelper
  | [] => ([], s)
  | (b, e) :: rest =>
    let r := s.UpdateCursor b e
    let rs := BufferedHelper.UpdateCursorAll r.2 rest
    (r.1 :: rs.1, rs.2)

/-- The asserted conditions hold in every call of the run `UpdateCursorAll`. -/
def BufferedHelper.UpdateCursorAll_assert (s : BufferedHelper) : List (Nat × Nat) → Bool
  | [] => true
  | (b, e) :: rest =>
    s.UpdateCursor_assert b e &&
      BufferedHelper.UpdateCursorAll_assert (s.UpdateCursor b e).2 rest

/-- Number of initialised entries of the pending table. -/
def countInit (tbl : List Reservation) : Nat :=
  (tbl.filter (fun r => r.is_initialised)).length

/-- The initialised entries of the pending table as a multiset of ranges. -/
def pendingEntries (tbl : List Reservation) : Multiset (Nat × Nat) :=
  ((tbl.filter (fun r => r.is_initialised)).map
    (fun r => (r.pos_begin, r.pos_end)) : List (Nat × Nat))

/-! ## Block cursor-advance engine -/

/-- Source `std::atomic<size_t>::compare_exchange_weak(expected, desired)` on
a cell holding `cell`: returns the success flag and the new content of the
cell.  (On failure the source reloads `expected` itself, so the value written
back into `expected` is not needed.) -/
def compare_exchange (cell expected desired : Nat) : Bool × Nat :=
  if cell = expected then (true, desired) else (false, cell)

/-- One evaluation of the loop condition of `CursorUpdateHelper<BLOCK>::UpdateCursor`
(disruptor.ipp 138): `some` with the new state when the compare-and-swap
succeeds and the call returns `SUCCESS`, `none` when it fails and the loop
repeats. -/
def BlockHelper.UpdateCursorPass (s : BlockHelper) (pos_begin pos_end : Nat) :
    Option BlockHelper :=
  let r := compare_exchange s.cursor_ pos_begin pos_end
  if r.1 then some { cursor_ := r.2 } else none

/-- Source `CursorUpdateHelper<BLOCK>::UpdateCursor` (disruptor.ipp 135-142) run by a
single thread; `none`: still spinning after `fuel` passes. -/
def BlockHelper.UpdateCursor : Nat → BlockHelper → Nat → Nat →
    Option (PublishUpdateStatus × BlockHelper)
  | 0, _, _, _ => none
  | fuel + 1, s, pos_begin, pos_end =>
    match s.UpdateCursorPass pos_begin pos_end with
    | some s' => some (PublishUpdateStatus.SUCCESS, s')
    | none => BlockHelper.UpdateCursor fuel s pos_begin pos_end

/-- Source `CursorUpdateHelper<BLOCK>::cursor`. -/
def BlockHelper.cursor (s : BlockHelper) : Nat := s.cursor_

/-- Source `CursorUpdateHelper<BLOCK>::Reset`. -/
def BlockHelper.Reset (_s : BlockHelper) : BlockHelper := { cursor_ := 0 }

/-! ## Ring buffer -/

/-- Source `class Sequence<Elem>`: one slot record. -/
structure Sequence (Elem : Type) where
  data_ : Elem
  is_eof_ : Bool
  deriving DecidableEq, Repr

/-- The default member initialisers of `Sequence`: `data_{}` and
`is_eof_{false}`. -/
def Sequence.init {Elem : Type} [Inhabited Elem] : Sequence Elem :=
  { data_ := default, is_eof_ := false }

/-- Source `Sequence::is_eof`. -/
def Sequence.is_eof {Elem : Type} (s : Sequence Elem) : Bool := s.is_eof_

/-- Source `Sequence::set_eof`. -/
def Sequence.set_eof {Elem : Type} (s : Sequence Elem) (eof : Bool) : Sequence Elem :=
  { s with is_eof_ := eof }

/-- Source `Sequence::data` (read access). -/
def Sequence.data {Elem : Type} (s : Sequence Elem) : Elem := s.data_

/-- The `static_assert` of `RingBuffer`: `N != 0 && ((N & (N - 1)) == 0)`. -/
def RingBuffer.static_assert (N : Nat) : Bool := N != 0 && ((N &&& (N - 1)) == 0)

/-- Source `class RingBuffer<Elem, N>`: the array `buffer_` of `N` slot records. -/
structure RingBuffer (Elem : Type) (N : Nat) where
  buffer_ : List (Sequence Elem)
  deriving DecidableEq, Repr

/-- The default constructor of `RingBuffer`: `N` default slot records. -/
def RingBuffer.init {Elem : Type} [Inhabited Elem] (N : Nat) : RingBuffer Elem N :=
  { buffer_ := List.replicate N Sequence.init }

/-- Source `RingBuffer::GetBufferIDx`: `sequence & (N-1)`. -/
def RingBuffer.GetBufferIDx (N : Nat) (sequence : Nat) : Nat := sequence &&& (N - 1)

/-- Source `RingBuffer::size`. -/
def RingBuffer.size {Elem : Type} {N : Nat} (_b : RingBuffer Elem N) : Nat := N

/-- Source `RingBuffer::at` (read access): `buffer_[GetBufferIDx(pos)]`. -/
def RingBuffer.at {Elem : Type} [Inhabited Elem] {N : Nat} (b : RingBuffer Elem N)
    (pos : Nat) : Sequence Elem :=
  b.buffer_.getD (RingBuffer.GetBufferIDx N pos) Sequence.init

/-- Assignment through the reference returned by `RingBuffer::at`. -/
def RingBuffer.set_at {Elem : Type} {N : Nat} (b : RingBuffer Elem N)
    (pos : Nat) (v : Sequence Elem) : RingBuffer Elem N :=
  { buffer_ := b.buffer_.set (RingBuffer.GetBufferIDx N pos) v }

/-- Source `RingBuffer::iterator`: `attached` is false for a value-initialised
iterator (null `begin_`) and true for one made by `GetIterator`, whose
`begin_` is `buffer_.begin()`. -/
structure RingIterator where
  attached : Bool := false
  own_pos_ : Nat := 0
  deriving DecidableEq, Repr

/-- Source `RingBuffer::GetIterator`. -/
def RingBuffer.GetIterator {Elem : Type} {N : Nat} (_b : RingBuffer Elem N) (pos : Nat) :
    RingIterator :=
  { attached := true, own_pos_ := RingBuffer.GetBufferIDx N pos }

/-- Source `iterator::operator++`: `own_pos_ = GetBufferIDx(++own_pos_)`. -/
def RingIterator.next (N : Nat) (it : RingIterator) : RingIterator :=
  { it with own_pos_ := RingBuffer.GetBufferIDx N (size_add it.own_pos_ 1) }

/-- Source `iterator::operator*`. -/
def RingIterator.deref {Elem : Type} [Inhabited Elem] {N : Nat} (b : RingBuffer Elem N)
    (it : RingIterator) : Sequence Elem :=
  b.buffer_.getD it.own_pos_ Sequence.init

/-! ## Cursors -/

/-- The engine `CursorUpdateHelper<P>` of a cursor, tagged by its policy. -/
inductive CursorUpdateHelper where
  | BUFFERED (h : BufferedHelper)
  | BLOCK (h : BlockHelper)
  deriving DecidableEq, Repr

/-- The default-constructed engine of policy `P`. -/
def CursorUpdateHelper.init : PublishPolicy → CursorUpdateHelper
  | PublishPolicy.BUFFERED => CursorUpdateHelper.BUFFERED {}
  | PublishPolicy.BLOCK => CursorUpdateHelper.BLOCK {}

/-- Source `CursorUpdateHelper<P>::cursor`. -/
def CursorUpdateHelper.cursor : CursorUpdateHelper → Nat
  | CursorUpdateHelper.BUFFERED h => h.cursor
  | CursorUpdateHelper.BLOCK h => h.cursor

/-- Source `CursorUpdateHelper<P>::Reset`. -/
def CursorUpdateHelper.Reset : CursorUpdateHelper → CursorUpdateHelper
  | CursorUpdateHelper.BUFFERED h => CursorUpdateHelper.BUFFERED h.Reset
  | CursorUpdateHelper.BLOCK h => CursorUpdateHelper.BLOCK h.Reset

/-- Source `CursorUpdateHelper<P>::UpdateCursor` run by a single thread; `none`: the
Block engine is still spinning after `fuel` passes. -/
def CursorUpdateHelper.UpdateCursor (fuel : Nat) :
    CursorUpdateHelper → Nat → Nat → Option (PublishUpdateStatus × CursorUpdateHelper)
  | CursorUpdateHelper.BUFFERED h, pos_begin, pos_end =>
    let r := h.UpdateCursor pos_begin pos_end
    some (r.1, CursorUpdateHelper.BUFFERED r.2)
  | CursorUpdateHelper.BLOCK h, pos_begin, pos_end =>
    match BlockHelper.UpdateCursor fuel h pos_begin pos_end with
    | some (st, h') => some (st, CursorUpdateHelper.BLOCK h')
    | none => none

/-- Source `class Cursor<Derived, Elem, P>` without the shared ring (which is kept in
`ReaderWriter`) and without the printed `type_`. -/
structure Cursor where
  cursor_updater_ : CursorUpdateHelper
  claim_sequence_ : Nat := 0
  deriving DecidableEq, Repr

/-- The constructor of `Cursor` for policy `P`. -/
def Cursor.init (P : PublishPolicy) : Cursor :=
  { cursor_updater_ := CursorUpdateHelper.init P, claim_sequence_ := 0 }

/-- Source `Cursor::GetCursor`. -/
def Cursor.GetCursor (c : Cursor) : Nat := c.cursor_updater_.cursor

/-- Source `Cursor::Reset`. -/
def Cursor.Reset (c : Cursor) : Cursor :=
  { cursor_updater_ := c.cursor_updater_.Reset, claim_sequence_ := 0 }

/-- Source `Cursor::Publish` (disruptor.ipp 203-215) run by a single thread: repeats
`UpdateCursor` while it returns `NO_SPACE`; `none`: still looping after `fuel`
rounds. -/
def Cursor.Publish : Nat → Cursor → Nat → Nat → Option Cursor
  | 0, _, _, _ => none
  | fuel + 1, c, pos_begin, pos_end =>
    match c.cursor_updater_.UpdateCursor (fuel + 1) pos_begin pos_end with
    | none => none
    | some (PublishUpdateStatus.NO_SPACE, u) =>
      Cursor.Publish fuel { c with cursor_updater_ := u } pos_begin pos_end
    | some (_, u) => some { c with cursor_updater_ := u }

/-- Outcome of one pass through a `Reserve` loop. Only `reserved` stores into
`claim_sequence_`. -/
inductive PassResult where
  | ret_error (info : ReservationInfo)
  | spin
  | cas_failed
  | reserved (info : ReservationInfo) (claim_sequence_ : Nat)
  deriving DecidableEq, Repr

/-- Content of `claim_sequence_` after a pass that found `cell` in it: only a
successful compare-and-swap stores a new value. -/
def PassResult.claim_after : PassResult → Nat → Nat
  | PassResult.reserved _ c, _ => c
  | _, cell => cell

/-- The variables the lambdas of the two `Reserve` functions assign, and the
value the lambda returns (`wait`). -/
structure Availability where
  expected : Nat
  new_sequence : Nat
  err : Bool
  wait : Bool
  deriving DecidableEq, Repr

/-- The lambda `wait_for_available_space` of `WriteCursor::Reserve`
(disruptor.ipp 156-173), given the two values it loads.  On the error path
`new_sequence` is not assigned by the source and not used afterwards. -/
def WriteCursor.wait_for_available_space (N claim_sequence read_cursor_seq no_of_slots : Nat) :
    Availability :=
  let expected := claim_sequence
  if expected < read_cursor_seq then
    { expected := expected, new_sequence := 0, err := true, wait := true }
  else
    let claim_capacity := size_sub N (size_sub expected read_cursor_seq)
    { expected := expected,
      new_sequence := size_add expected (min claim_capacity no_of_slots),
      err := false,
      wait := claim_capacity == 0 }

/-- One pass of `WriteCursor::Reserve` (disruptor.ipp 176-189): the lambda is
evaluated on the loaded claim `claim_at_load` and read cursor
`read_cursor_seq`; unless it asks to wait, the compare-and-swap is tried on
the cell, which then holds `claim_at_cas`. -/
def WriteCursor.ReservePass (N claim_at_load read_cursor_seq no_of_slots claim_at_cas : Nat) :
    PassResult :=
  let w := WriteCursor.wait_for_available_space N claim_at_load read_cursor_seq no_of_slots
  if w.wait then
    if w.err then PassResult.ret_error { pos_begin := 0, pos_end := 0, err := true }
    else PassResult.spin
  else
    let r := compare_exchange claim_at_cas w.expected w.new_sequence
    if r.1 then
      PassResult.reserved { pos_begin := w.expected, pos_end := w.new_sequence, err := false } r.2
    else PassResult.cas_failed

/-- The condition asserted at the end of both `Reserve` functions:
`new_sequence > expected`. -/
def Reserve_assert (info : ReservationInfo) : Bool := decide (info.pos_begin < info.pos_end)

/-- Source `WriteCursor::Reserve` run by a single thread against the read cursor
`read_cursor`; `none`: still spinning after `fuel` passes. -/
def WriteCursor.Reserve : Nat → Nat → Cursor → Cursor → Nat → Option (ReservationInfo × Cursor)
  | 0, _, _, _, _ => none
  | fuel + 1, N, wc, read_cursor, no_of_slots =>
    match WriteCursor.ReservePass N wc.claim_sequence_ read_cursor.GetCursor no_of_slots
        wc.claim_sequence_ with
    | PassResult.ret_error info => some (info, wc)
    | PassResult.spin => WriteCursor.Reserve fuel N wc read_cursor no_of_slots
    | PassResult.cas_failed => WriteCursor.Reserve fuel N wc read_cursor no_of_slots
    | PassResult.reserved info c => some (info, { wc with claim_sequence_ := c })

/-- The lambda `is_no_available_data` of `ReadCursor::Reserve`
(disruptor.ipp 228-237), given the two values it loads. -/
def ReadCursor.is_no_available_data (claim_sequence write_cursor_seq no_of_slots : Nat) :
    Availability :=
  let expected := claim_sequence
  let claim_capacity := size_sub write_cursor_seq expected
  { expected := expected,
    new_sequence := size_add expected (min claim_capacity no_of_slots),
    err := false,
    wait := claim_capacity == 0 }

/-- The condition asserted inside `is_no_available_data`:
`write_cursor_seq >= expected`. -/
def ReadCursor.is_no_available_data_assert (claim_sequence write_cursor_seq : Nat) : Bool :=
  decide (claim_sequence ≤ write_cursor_seq)

/-- One pass of `ReadCursor::Reserve` (disruptor.ipp 240-251): no data gives
the error reservation at once, otherwise the compare-and-swap is tried on the
cell, which then holds `claim_at_cas`. -/
def ReadCursor.ReservePass (claim_at_load write_cursor_seq no_of_slots claim_at_cas : Nat) :
    PassResult :=
  let w := ReadCursor.is_no_available_data claim_at_load write_cursor_seq no_of_slots
  if w.wait then
    PassResult.ret_error { pos_begin := 0, pos_end := 0, err := true }
  else
    let r := compare_exchange claim_at_cas w.expected w.new_sequence
    if r.1 then
      PassResult.reserved { pos_begin := w.expected, pos_end := w.new_sequence, err := false } r.2
    else PassResult.cas_failed

/-- Source `ReadCursor::Reserve` run by a single thread against the write cursor
`write_cursor`; `none`: still looping after `fuel` passes. -/
def ReadCursor.Reserve : Nat → Cursor → Cursor → Nat → Option (ReservationInfo × Cursor)
  | 0, _, _, _ => none
  | fuel + 1, rc, write_cursor, no_of_slots =>
    match ReadCursor.ReservePass rc.claim_sequence_ write_cursor.GetCursor no_of_slots
        rc.claim_sequence_ with
    | PassResult.ret_error info => some (info, rc)
    | PassResult.spin => ReadCursor.Reserve fuel rc write_cursor no_of_slots
    | PassResult.cas_failed => ReadCursor.Reserve fuel rc write_cursor no_of_slots
    | PassResult.reserved info c => some (info, { rc with claim_sequence_ := c })

/-- Source `WriteCursor::Write` (disruptor.ipp 193-201) on the shared ring: the
payload is assigned, and the flag is set only when `is_eof` is true. -/
def WriteCursor.Write {Elem : Type} [Inhabited Elem] {N : Nat} (b : RingBuffer Elem N)
    (slot : Nat) (data : Elem) (is_eof : Bool) : RingBuffer Elem N :=
  let b1 := b.set_at slot { (b.at slot) with data_ := data }
  if is_eof then b1.set_at slot ((b1.at slot).set_eof is_eof) else b1

/-- Source `class ReadResult`: the iterator pair, `err`, and the range kept for
`Release`; `read_cursor_` records whether the back-reference is set. -/
structure ReadResult where
  begin_iter : RingIterator := {}
  end_iter : RingIterator := {}
  err : Bool := true
  start_ : Nat := 0
  end_ : Nat := 0
  read_cursor_ : Bool := false
  deriving DecidableEq, Repr

/-- Source `ReadCursor::Read` (disruptor.ipp 255-267). -/
def ReadCursor.Read {Elem : Type} {N : Nat} (b : RingBuffer Elem N)
    (slot_begin slot_end : Nat) : ReadResult :=
  { begin_iter := b.GetIterator slot_begin,
    end_iter := b.GetIterator slot_end,
    err := false,
    start_ := slot_begin,
    end_ := slot_end,
    read_cursor_ := true }

/-! ## Reader/writer pair -/

/-- Source `class ReaderWriter<Elem, _WP, _RP>` together with the ring its two
cursors share.  The cursors are built on `RingBuffer<Elem>`, whose capacity
is the default `N = 512`; the embedding keeps `N` general. -/
structure ReaderWriter (Elem : Type) (N : Nat) where
  buffer_ : RingBuffer Elem N
  write_cursor_ : Cursor
  read_cursor_ : Cursor
  deriving DecidableEq, Repr

/-- Source `MakeSingleDisruptor<Elem, _WP, _RP>`: a fresh ring and a fresh pair of
cursors. -/
def MakeSingleDisruptor (Elem : Type) [Inhabited Elem] (N : Nat)
    (WP RP : PublishPolicy) : ReaderWriter Elem N :=
  { buffer_ := RingBuffer.init N,
    write_cursor_ := Cursor.init WP,
    read_cursor_ := Cursor.init RP }

/-- Source `ReaderWriter::Write` (disruptor.ipp 281-294) run by a single thread;
`none`: a loop inside is still spinning after `fuel` passes. -/
def ReaderWriter.Write {Elem : Type} [Inhabited Elem] {N : Nat} (fuel : Nat)
    (rw : ReaderWriter Elem N) (data : Elem) (is_eof : Bool) :
    Option (Bool × ReaderWriter Elem N) :=
  match WriteCursor.Reserve fuel N rw.write_cursor_ rw.read_cursor_ 1 with
  | none => none
  | some (reservation, wc) =>
    if reservation.err then
      some (true, { rw with write_cursor_ := wc })
    else
      let b := WriteCursor.Write rw.buffer_ reservation.pos_begin data is_eof
      match Cursor.Publish fuel wc reservation.pos_begin reservation.pos_end with
      | none => none
      | some wc' => some (false, { rw with buffer_ := b, write_cursor_ := wc' })

/-- Source `ReaderWriter::Read` (disruptor.ipp 296-307) run by a single thread. -/
def ReaderWriter.Read {Elem : Type} {N : Nat} (fuel : Nat)
    (rw : ReaderWriter Elem N) (num : Nat) : Option (ReadResult × ReaderWriter Elem N) :=
  match ReadCursor.Reserve fuel rw.read_cursor_ rw.write_cursor_ num with
  | none => none
  | some (reservation, rc) =>
    if reservation.err then
      some ({}, { rw with read_cursor_ := rc })
    else
      some (ReadCursor.Read rw.buffer_ reservation.pos_begin reservation.pos_end,
        { rw with read_cursor_ := rc })

/-- Source `ReadResult::Release` run by a single thread: publishes `[start_, end_)`
on the read cursor when the back-reference is set. -/
def ReadResult.Release {Elem : Type} {N : Nat} (fuel : Nat) (r : ReadResult)
    (rw : ReaderWriter Elem N) : Option (ReaderWriter Elem N) :=
  if r.read_cursor_ then
    match Cursor.Publish fuel rw.read_cursor_ r.start_ r.end_ with
    | none => none
    | some rc => some { rw with read_cursor_ := rc }
  else some rw

/-- Source `ReaderWriter::Reset`. -/
def ReaderWriter.Reset {Elem : Type} {N : Nat} (rw : ReaderWriter Elem N) :
    ReaderWriter Elem N :=
  { rw with read_cursor_ := rw.read_cursor_.Reset, write_cursor_ := rw.write_cursor_.Reset }

/-- Source `ReaderWriter::GetWriteCursor`. -/
def ReaderWriter.GetWriteCursor {Elem : Type} {N : Nat} (rw : ReaderWriter Elem N) : Nat :=
  rw.write_cursor_.GetCursor

/-- A sequence of `ReaderWriter::Write` calls by a single thread, in list
order; returns the flags returned by the calls and the final state. -/
def ReaderWriter.WriteAll {Elem : Type} [Inhabited Elem] {N : Nat} (fuel : Nat) :
    ReaderWriter Elem N → List (Elem × Bool) → Option (List Bool × ReaderWriter Elem N)
  | rw, [] => some ([], rw)
  | rw, (v, f) :: rest =>
    match ReaderWriter.Write fuel rw v f with
    | none => none
    | some (e, rw1) =>
      match ReaderWriter.WriteAll fuel rw1 rest with
      | none => none
      | some (es, rw2) => some (e :: es, rw2)

/-! ## States of a single-threaded run of writes -/

/-- The slot record that holds payload `x.1` with end-of-stream flag `x.2`. -/
def slotOf {Elem : Type} (x : Elem × Bool) : Sequence Elem :=
  { data_ := x.1, is_eof_ := x.2 }

/-- The engine of policy `P` with an untouched pending table and the cursor at
`i`. -/
def engineAt : PublishPolicy → Nat → CursorUpdateHelper
  | PublishPolicy.BUFFERED, i => CursorUpdateHelper.BUFFERED { cursor_ := i }
  | PublishPolicy.BLOCK, i => CursorUpdateHelper.BLOCK { cursor_ := i }

/-- The pair in which the values `pre` occupy the first slots of the ring in
order, both parts of the write cursor stand at `pre.length`, and the read
cursor is untouched. -/
def writtenState {Elem : Type} [Inhabited Elem] (N : Nat) (WP RP : PublishPolicy)
    (pre : List (Elem × Bool)) : ReaderWriter Elem N :=
  { buffer_ := { buffer_ := pre.map slotOf ++ List.replicate (N - pre.length) Sequence.init },
    write_cursor_ := { cursor_updater_ := engineAt WP pre.length, claim_sequence_ := pre.length },
    read_cursor_ := Cursor.init RP }

end disruptor

namespace disruptor

/-! ## Runs of passes by several threads -/

/-- What one pass of a `Reserve` loop has loaded before it reaches its
compare-and-swap: the claim, the opposing cursor, and the requested count. -/
structure ReserveStep where
  claim_at_load : Nat
  other_cursor_seq : Nat
  no_of_slots : Nat
  deriving DecidableEq, Repr

/-- Passes of a `Reserve` loop by any threads, each compare-and-swap one
atomic step on the shared `claim_sequence_` (which holds `claim`), in list
order; `pass` is the pass of the role, given what it loaded and the content
of the cell at its compare-and-swap. Returns the reservations granted, in the
order of their compare-and-swaps, and the final content of
`claim_sequence_`. -/
def ReserveRun (pass : ReserveStep → Nat → PassResult) :
    Nat → List ReserveStep → List ReservationInfo × Nat
  | claim, [] => ([], claim)
  | claim, st :: rest =>
    match pass st claim with
    | PassResult.reserved info c =>
      (info :: (ReserveRun pass c rest).1, (ReserveRun pass c rest).2)
    | _ => ReserveRun pass claim rest

/-- The two roles that reserve: the write cursor of a ring of capacity `N`,
and the read cursor. -/
inductive Role where
  | writer (N : Nat)
  | reader
  deriving DecidableEq, Repr

/-- The pass of a role: `WriteCursor::Reserve` or `ReadCursor::Reserve`. -/
def Role.pass : Role → ReserveStep → Nat → PassResult
  | Role.writer N, st, c =>
    WriteCursor.ReservePass N st.claim_at_load st.other_cursor_seq st.no_of_slots c
  | Role.reader, st, c =>
    ReadCursor.ReservePass st.claim_at_load st.other_cursor_seq st.no_of_slots c

/-- Passes of the `Reserve` of one role by any threads. -/
def Role.ReserveRun (role : Role) (claim : Nat) (steps : List ReserveStep) :
    List ReservationInfo × Nat :=
  disruptor.ReserveRun role.pass claim steps

/-- Consecutive granted ranges, the first one beginning at `start`: every
`pos_begin` is the `pos_end` before it. -/
def contiguousFrom : Nat → List ReservationInfo → Prop
  | _, [] => True
  | start, info :: rest => info.pos_begin = start ∧ contiguousFrom info.pos_end rest

/-- Publishers under the Block strategy, publisher `i` holding the range
`(p i, p (i+1))`: `schedule` lists whose compare-and-swap is tried next, each
try one pass of `UpdateCursor`. A publisher whose call has returned (`done`)
tries no more. Returns the completions in order, each with the cursor it
left, and the final state. -/
def BlockHelper.PublishRun (p : Nat → Nat) :
    BlockHelper → List Nat → List Nat → List (Nat × Nat) × BlockHelper
  | s, _, [] => ([], s)
  | s, done, i :: rest =>
    if i ∈ done then BlockHelper.PublishRun p s done rest
    else
      match s.UpdateCursorPass (p i) (p (i + 1)) with
      | some s' =>
        ((i, s'.cursor_) :: (BlockHelper.PublishRun p s' (i :: done) rest).1,
          (BlockHelper.PublishRun p s' (i :: done) rest).2)
      | none => BlockHelper.PublishRun p s done rest

/-- Every initialised entry of the pending table is a range with
`pos_begin < pos_end` (the condition asserted on entry of `UpdateCursor`,
under which alone an entry is stored). -/
def tableValid (tbl : List Reservation) : Prop :=
  ∀ r ∈ tbl, r.is_initialised = true → r.pos_begin < r.pos_end

/-- The policy an engine was built for. -/
def CursorUpdateHelper.policy : CursorUpdateHelper → PublishPolicy
  | CursorUpdateHelper.BUFFERED _ => PublishPolicy.BUFFERED
  | CursorUpdateHelper.BLOCK _ => PublishPolicy.BLOCK

end disruptor

namespace disruptor

/-! ## Reservations granted to one role -/

/-- What a pass of a role guarantees when it stores a claim: it had loaded
the content of the cell, and it grants `m` slots from there, at most the
requested count and at least one when at least one was requested. -/
def PassGrants (pass : ReserveStep → Nat → PassResult) : Prop :=
  ∀ (st : ReserveStep) (cell : Nat) (info : ReservationInfo) (c2 : Nat),
    pass st cell = PassResult.reserved info c2 →
    st.claim_at_load = cell ∧
    ∃ m, m ≤ st.no_of_slots ∧ (1 ≤ st.no_of_slots → 1 ≤ m) ∧
      info = { pos_begin := cell, pos_end := size_add cell m, err := false } ∧
      c2 = size_add cell m

end disruptor

namespace disruptor

/-- The pending table of a Buffered engine has its `LIM` entries (the size of
the `std::array`); a Block engine has no table. -/
def CursorUpdateHelper.table_size_ok : CursorUpdateHelper → Prop
  | CursorUpdateHelper.BUFFERED h => h.unprocessed_reservations_.length = LIM
  | CursorUpdateHelper.BLOCK _ => True

end disruptor

namespace disruptor

/-- A used Buffered/Buffered pair on 512 slots: write claim 9 with the write
cursor at 7 and the range `[8, 9)` pending, read claim and read cursor at 2. -/
def usedPair : ReaderWriter Nat 512 :=
  ReaderWriter.mk (RingBuffer.init 512)
    (Cursor.mk (CursorUpdateHelper.BUFFERED
      ((BufferedHelper.mk (List.replicate LIM {}) 7).UpdateCursor 8 9).2) 9)
    (Cursor.mk (CursorUpdateHelper.BUFFERED (BufferedHelper.mk (List.replicate LIM {}) 2)) 2)

end disruptor

namespace disruptor

/-- The reader's loop `for (iter = begin; iter != end; ++iter)` over an
iterator pair (disruptor_tests.cpp 173-176): the indices of the slots it
dereferences, in order; `none`: still looping after `fuel` comparisons.
Iterators of one ring compare equal exactly when their positions are
equal. -/
def RingIterator.walk (N : Nat) : Nat → RingIterator → RingIterator → Option (List Nat)
  | 0, _, _ => none
  | fuel + 1, it, last =>
    if it = last then some []
    else
      match RingIterator.walk N fuel (it.next N) last with
      | none => none
      | some l => some (it.own_pos_ :: l)

end disruptor

/-! ## Rendezvous barrier (`barrier.hpp`) -/

namespace barrier

/-- The value of type `int` (32 bits, two's complement) that represents the
integer `x`. -/
def int_wrap (x : Int) : Int := (x + 2147483648) % 4294967296 - 2147483648

/-- Source `class Barrier<count>`: the atomics `go_signal_` and `current_`. -/
structure Barrier where
  go_signal_ : Int
  current_ : Int
  deriving DecidableEq, Repr

/-- The constructor of `Barrier<count>`: `go_signal_(0), current_(count)`. -/
def Barrier.init (count : Nat) : Barrier :=
  { go_signal_ := 0, current_ := count }

/-- What one call of `Wait` obtains: its post-decrement value `current_seq`,
and whether it took the branch of the last arriver (in which the callback
runs). -/
structure Arrival where
  current_seq : Int
  last : Bool
  deriving DecidableEq, Repr

/-- The arrival part of `Barrier::Wait` (barrier.hpp 19-27), one atomic step:
`fetch_sub` on `current_` and the decrement of the value it returned; then,
when that equals `go_signal_`, the branch of the last arriver, which stores
`2*count + go_signal_` into `current_` and adds `count` to `go_signal_`. -/
def Barrier.Arrive (count : Nat) (b : Barrier) : Arrival × Barrier :=
  let current_seq := int_wrap (b.current_ - 1)
  let b1 : Barrier := { b with current_ := int_wrap (b.current_ - 1) }
  if current_seq = b1.go_signal_ then
    ({ current_seq := current_seq, last := true },
      { go_signal_ := int_wrap (b1.go_signal_ + count),
        current_ := int_wrap (2 * count + b1.go_signal_) })
  else
    ({ current_seq := current_seq, last := false }, b1)

/-- The condition of the loop in which a caller that is not the last arriver
waits (barrier.hpp 31-32). The condition reads `go_signal_` twice: `load1` is
what the explicit `load` returns, `load2` what the conversion of `go_signal_`
in `current_seq - go_signal_` returns (not evaluated when the first conjunct
is false). -/
def Barrier.spin_condition (count : Nat) (load1 load2 current_seq : Int) : Bool :=
  decide (load1 < current_seq) && decide (int_wrap (current_seq - load2) < count)

/-- The waiting loop of `Barrier::Wait` (barrier.hpp 31-35) for a caller with
post-decrement value `current_seq`, given the pairs of values its successive
evaluations of the condition load from `go_signal_`: the number of times the
condition was true before the loop was left, `none` when the loop is still
running after all the listed evaluations. -/
def Barrier.WaitLoop (count : Nat) (current_seq : Int) : List (Int × Int) → Option Nat
  | [] => none
  | (load1, load2) :: rest =>
    if Barrier.spin_condition count load1 load2 current_seq then
      match Barrier.WaitLoop count current_seq rest with
      | none => none
      | some n => some (n + 1)
    else some 0

/-- The first `n` arrivals at the barrier, in the order of their
`fetch_sub`. -/
def Barrier.ArriveAll (count : Nat) : Nat → Barrier → List Arrival × Barrier
  | 0, b => ([], b)
  | n + 1, b =>
    ((b.Arrive count).1 :: (Barrier.ArriveAll count n (b.Arrive count).2).1,
      (Barrier.ArriveAll count n (b.Arrive count).2).2)

/-- The state at the start of a generation: `current_` is `go_signal_ + count`
(as an `int`), and `go_signal_` is an `int`. -/
def Barrier.generation_start (count : Nat) (b : Barrier) : Prop :=
  -2147483648 ≤ b.go_signal_ ∧ b.go_signal_ < 2147483648 ∧
    b.current_ = int_wrap (b.go_signal_ + count)

end barrier

namespace disruptor

/-! ## The merge and the parking of a report, in the words of the specification -/

/-- The index of the first initialised table entry (in table order) whose
`pos_begin` equals `target`. -/
def spec_first_match (target : Nat) (tbl : List Reservation) : Option Nat :=
  tbl.findIdx? (fun r => r.is_initialised && r.pos_begin == target)

/-- The chain of the specification: starting with `target`, repeatedly take
the first initialised entry whose `pos_begin` equals the target, make its
`pos_end` the target and mark it uninitialised, and look again from the start
of the table, until no entry matches (at most `fuel` entries are taken).
Returns the table, the final target, and the indices of the entries taken, in
the order in which they were taken. -/
def spec_merge_chain : Nat → List Reservation → Nat → List Reservation × Nat × List Nat
  | 0, tbl, target => (tbl, target, [])
  | fuel + 1, tbl, target =>
    match spec_first_match target tbl with
    | none => (tbl, target, [])
    | some i =>
      let r := tbl.getD i {}
      let rest := spec_merge_chain fuel (tbl.set i { r with is_initialised := false }) r.pos_end
      (rest.1, rest.2.1, i :: rest.2.2)

/-- The lowest index of an uninitialised table entry. -/
def spec_first_free (tbl : List Reservation) : Option Nat :=
  tbl.findIdx? (fun r => !r.is_initialised)

/-- A Buffered engine with cursor 0 whose table holds `(4, 6)` in entry 0 and
`(2, 4)` in entry 1. -/
def mergeExample : BufferedHelper :=
  BufferedHelper.mk
    (Reservation.mk2 4 6 :: Reservation.mk2 2 4 :: List.replicate (LIM - 2) {}) 0

/-- A Buffered engine with cursor 0 whose `LIM` table entries are all
initialised: entry `i` holds `(2 * i + 10, 2 * i + 11)`. -/
def fullExample : BufferedHelper :=
  BufferedHelper.mk ((List.range LIM).map (fun i => Reservation.mk2 (2 * i + 10) (2 * i + 11))) 0

end disruptor

namespace disruptor

/-- No two initialised entries of the pending table have the same
`pos_begin`. -/
def tableUnique (tbl : List Reservation) : Prop :=
  tbl.Pairwise (fun r1 r2 =>
    ¬ (r1.is_initialised = true ∧ r2.is_initialised = true ∧ r1.pos_begin = r2.pos_begin))

end disruptor

namespace disruptor

/-! ## Reservations and publishes on one cursor -/

/-- One attempt of `UpdateCursor` as an atomic step: for the Buffered engine
the whole call (it runs under `sync_flag_`), for the Block engine one
compare-and-swap, `none` when it fails and the caller goes on spinning. -/
def CursorUpdateHelper.UpdateCursorPass :
    CursorUpdateHelper → Nat → Nat → Option (PublishUpdateStatus × CursorUpdateHelper)
  | CursorUpdateHelper.BUFFERED h, pos_begin, pos_end =>
    some ((h.UpdateCursor pos_begin pos_end).1,
      CursorUpdateHelper.BUFFERED (h.UpdateCursor pos_begin pos_end).2)
  | CursorUpdateHelper.BLOCK h, pos_begin, pos_end =>
    match h.UpdateCursorPass pos_begin pos_end with
    | some h2 => some (PublishUpdateStatus.SUCCESS, CursorUpdateHelper.BLOCK h2)
    | none => none

/-- A cursor together with the ranges its `Reserve` has returned and whose
`Publish` has not returned yet. -/
structure CursorState where
  cursor : Cursor
  outstanding : List (Nat × Nat)
  deriving DecidableEq, Repr

/-- A step on a cursor: a pass of `Reserve` by some thread, or an attempt of
the `UpdateCursor` inside `Publish(pos_begin, pos_end)` by the thread that
holds that range. -/
inductive CursorStep where
  | reserve (st : ReserveStep)
  | publish (pos_begin pos_end : Nat)
  deriving DecidableEq, Repr

/-- The effect of a step; `none` when the step is a publish of a range that
is not outstanding. A pass of `Reserve` that grants a range stores the claim
and makes the range outstanding; any other pass changes nothing. An attempt
to publish that returns `SUCCESS` or `ERROR` ends `Publish`, and the range is
no longer outstanding; after `NO_SPACE`, or a failed compare-and-swap of the
Block engine, the publisher will try again. -/
def CursorState.step (role : Role) (s : CursorState) : CursorStep → Option CursorState
  | CursorStep.reserve st =>
    match role.pass st s.cursor.claim_sequence_ with
    | PassResult.reserved info c =>
      some { cursor := { s.cursor with claim_sequence_ := c },
             outstanding := (info.pos_begin, info.pos_end) :: s.outstanding }
    | _ => some s
  | CursorStep.publish pos_begin pos_end =>
    if (pos_begin, pos_end) ∈ s.outstanding then
      match s.cursor.cursor_updater_.UpdateCursorPass pos_begin pos_end with
      | none => some s
      | some (PublishUpdateStatus.NO_SPACE, u) =>
        some { cursor := { s.cursor with cursor_updater_ := u }, outstanding := s.outstanding }
      | some (_, u) =>
        some { cursor := { s.cursor with cursor_updater_ := u },
               outstanding := s.outstanding.erase (pos_begin, pos_end) }
    else none

/-- A sequence of steps, in list order. -/
def CursorState.run (role : Role) : CursorState → List CursorStep → Option CursorState
  | s, [] => some s
  | s, x :: rest =>
    match s.step role x with
    | none => none
    | some s2 => CursorState.run role s2 rest

/-- The cursor of the engine and the `pos_end` of every entry of its pending
table are at most `bound`. -/
def CursorUpdateHelper.bounded : CursorUpdateHelper → Nat → Prop
  | CursorUpdateHelper.BUFFERED h, bound =>
    h.cursor_ ≤ bound ∧ ∀ x ∈ pendingEntries h.unprocessed_reservations_, x.2 ≤ bound
  | CursorUpdateHelper.BLOCK h, bound => h.cursor_ ≤ bound

/-- All ranges the cursor still knows of end at or below the claim: the
visible cursor and the entries of the pending table, and the outstanding
ranges. -/
def CursorState.bounded (s : CursorState) : Prop :=
  s.cursor.cursor_updater_.bounded s.cursor.claim_sequence_ ∧
    ∀ x ∈ s.outstanding, x.2 ≤ s.cursor.claim_sequence_

end disruptor

namespace disruptor

/-- Two writers on a ring of 8 slots: the first reserves `[0, 1)`, the second
`[1, 3)`; the second publishes first, then the first. -/
def runExample : List CursorStep :=
  [CursorStep.reserve { claim_at_load := 0, other_cursor_seq := 0, no_of_slots := 1 },
   CursorStep.reserve { claim_at_load := 1, other_cursor_seq := 0, no_of_slots := 2 },
   CursorStep.publish 1 3,
   CursorStep.publish 0 1]

/-- The state in which the run of the example ends on a Buffered cursor:
claim 3, visible cursor 3, entry 0 of the table used and released, nothing
outstanding. -/
def runExampleEnd : CursorState :=
  CursorState.mk
    (Cursor.mk
      (CursorUpdateHelper.BUFFERED
        (BufferedHelper.mk
          ((List.replicate LIM {}).set 0 (Reservation.mk 1 3 false)) 3))
      3)
    []

end disruptor

namespace disruptor

/-- A sequence of `WriteCursor::Write` calls on the ring, in list order; each
item is `(slot, data, is_eof)`. -/
def WriteCursor.WriteList {Elem : Type} [Inhabited Elem] {N : Nat} (b : RingBuffer Elem N) :
    List (Nat × Elem × Bool) → RingBuffer Elem N
  | [] => b
  | (slot, data, is_eof) :: rest =>
    WriteCursor.WriteList (WriteCursor.Write b slot data is_eof) rest

end disruptor

namespace barrier

/-- The constructor of `barrier::ScopedBarrier` (barrier.hpp 49-56) run while
no other thread touches the flag: the compare-and-swap `false -> true` is
repeated until it succeeds. Returns the flag as the constructor leaves it;
`none`: still spinning after `fuel` attempts. -/
def ScopedBarrier.ctor : Nat → Bool → Option Bool
  | 0, _ => none
  | fuel + 1, sync_flag =>
    if sync_flag = false then some true else ScopedBarrier.ctor fuel sync_flag

/-- The destructor of `barrier::ScopedBarrier`: `sync_flag_.store(false)`. -/
def ScopedBarrier.dtor (_sync_flag : Bool) : Bool := false

end barrier

namespace disruptor

/-- The `while (find_if(...) != end());` loop (disruptor.ipp 87-98) with the
scans counted: `none` when the loop is still running after `fuel` scans,
otherwise the table, the final `target`, and the number of scans that found
a match (the scan that ends the loop found none). -/
def mergeLoopRun : Nat → List Reservation → Nat → Option (List Reservation × Nat × Nat)
  | 0, _, _ => none
  | fuel + 1, tbl, target =>
    match mergeScan target tbl with
    | none => some (tbl, target, 0)
    | some (t, tbl2) =>
      match mergeLoopRun fuel tbl2 t with
      | none => none
      | some (tbl3, t3, n) => some (tbl3, t3, n + 1)

/-- Source `CursorUpdateHelper<BUFFERED>::UpdateCursor` (disruptor.ipp
62-132) with its lock and its loop spelled out: the `ScopedBarrier` takes
`sync_flag_`, the body runs, and every `return` releases the flag. Returns the
status, the state and the flag; `none` when the constructor of the
`ScopedBarrier` or the merge loop is still running after `fuel` rounds. -/
def BufferedHelper.UpdateCursorRun (fuel : Nat) (sync_flag : Bool) (s : BufferedHelper)
    (pos_begin pos_end : Nat) : Option (PublishUpdateStatus × BufferedHelper × Bool) :=
  match barrier.ScopedBarrier.ctor fuel sync_flag with
  | none => none
  | some held =>
    let c := s.cursor_
    if pos_end ≤ c then
      some (PublishUpdateStatus.ERROR, s, barrier.ScopedBarrier.dtor held)
    else if pos_begin = c then
      match mergeLoopRun fuel s.unprocessed_reservations_ pos_end with
      | none => none
      | some (tbl, target, _) =>
        some (PublishUpdateStatus.SUCCESS,
          { unprocessed_reservations_ := tbl, cursor_ := target },
          barrier.ScopedBarrier.dtor held)
    else
      match storeFirstFree pos_begin pos_end s.unprocessed_reservations_ with
      | some tbl =>
        some (PublishUpdateStatus.SUCCESS, { s with unprocessed_reservations_ := tbl },
          barrier.ScopedBarrier.dtor held)
      | none => some (PublishUpdateStatus.NO_SPACE, s, barrier.ScopedBarrier.dtor held)

end disruptor

namespace disruptor

end disruptor

/-! # Theorems -/

namespace disruptor

/-! ## The pending table: scans -/

theorem pendingEntries_nil : pendingEntries [] = 0 := rfl

theorem pendingEntries_cons_init (r : Reservation) (rs : List Reservation)
    (h : r.is_initialised = true) :
    pendingEntries (r :: rs) = (r.pos_begin, r.pos_end) ::ₘ pendingEntries rs := by
  simp [pendingEntries, h]

theorem pendingEntries_cons_uninit (r : Reservation) (rs : List Reservation)
    (h : r.is_initialised = false) :
    pendingEntries (r :: rs) = pendingEntries rs := by
  simp [pendingEntries, h]

theorem card_pendingEntries (tbl : List Reservation) :
    Multiset.card (pendingEntries tbl) = countInit tbl := by
  simp [pendingEntries, countInit]

theorem countInit_le_length (tbl : List Reservation) : countInit tbl ≤ tbl.length := by
  unfold countInit
  exact List.length_filter_le _ _

theorem pendingEntries_eq_zero_iff (tbl : List Reservation) :
    pendingEntries tbl = 0 ↔ ∀ r ∈ tbl, r.is_initialised = false := by
  induction tbl with
  | nil => simp [pendingEntries]
  | cons r rs ih =>
    cases h : r.is_initialised with
    | true => simp [pendingEntries_cons_init r rs h, h]
    | false => simp [pendingEntries_cons_uninit r rs h, h, ih]

theorem mergeScan_none (t : Nat) (tbl : List Reservation) (h : mergeScan t tbl = none) :
    ∀ x ∈ pendingEntries tbl, x.1 ≠ t := by
  induction tbl with
  | nil => simp [pendingEntries]
  | cons r rs ih =>
    unfold mergeScan at h
    split at h
    · exact absurd h (by simp)
    · rename_i hc
      cases hm : mergeScan t rs with
      | some v => rw [hm] at h; exact absurd h (by simp)
      | none =>
        have ih1 := ih hm
        cases hi : r.is_initialised with
        | false => rw [pendingEntries_cons_uninit r rs hi]; exact ih1
        | true =>
          rw [pendingEntries_cons_init r rs hi]
          intro x hx
          rcases Multiset.mem_cons.mp hx with rfl | hx
          · simpa [hi] using hc
          · exact ih1 x hx

theorem mergeScan_none_of (t : Nat) (tbl : List Reservation)
    (h : ∀ x ∈ pendingEntries tbl, x.1 ≠ t) : mergeScan t tbl = none := by
  induction tbl with
  | nil => rfl
  | cons r rs ih =>
    unfold mergeScan
    cases hi : r.is_initialised with
    | false =>
      rw [pendingEntries_cons_uninit r rs hi] at h
      simp [ih h]
    | true =>
      rw [pendingEntries_cons_init r rs hi] at h
      have h1 : r.pos_begin ≠ t := h (r.pos_begin, r.pos_end) (Multiset.mem_cons_self _ _)
      have h2 := ih (fun x hx => h x (Multiset.mem_cons_of_mem hx))
      simp [h1, h2]

theorem mergeScan_some (t : Nat) (tbl : List Reservation) (t2 : Nat) (tbl2 : List Reservation)
    (h : mergeScan t tbl = some (t2, tbl2)) :
    pendingEntries tbl = (t, t2) ::ₘ pendingEntries tbl2 ∧ tbl2.length = tbl.length := by
  induction tbl generalizing tbl2 with
  | nil => simp [mergeScan] at h
  | cons r rs ih =>
    unfold mergeScan at h
    split at h
    · rename_i hc
      simp only [Bool.and_eq_true, beq_iff_eq] at hc
      simp only [Option.some.injEq, Prod.mk.injEq] at h
      obtain ⟨h1, h2⟩ := h
      subst h1 h2
      rw [pendingEntries_cons_init r rs hc.1, pendingEntries_cons_uninit _ rs rfl, hc.2]
      simp
    · rename_i hc
      cases hm : mergeScan t rs with
      | none => rw [hm] at h; exact absurd h (by simp)
      | some v =>
        obtain ⟨t3, rs3⟩ := v
        rw [hm] at h
        simp only [Option.some.injEq, Prod.mk.injEq] at h
        obtain ⟨h1, h2⟩ := h
        subst h1 h2
        obtain ⟨ih1, ih2⟩ := ih rs3 hm
        cases hi : r.is_initialised with
        | false =>
          rw [pendingEntries_cons_uninit r rs hi, pendingEntries_cons_uninit r rs3 hi]
          exact ⟨ih1, by simp [ih2]⟩
        | true =>
          rw [pendingEntries_cons_init r rs hi, pendingEntries_cons_init r rs3 hi, ih1]
          exact ⟨Multiset.cons_swap _ _ _, by simp [ih2]⟩

theorem storeFirstFree_some (b e : Nat) (tbl tbl2 : List Reservation)
    (h : storeFirstFree b e tbl = some tbl2) :
    pendingEntries tbl2 = (b, e) ::ₘ pendingEntries tbl ∧ tbl2.length = tbl.length := by
  induction tbl generalizing tbl2 with
  | nil => simp [storeFirstFree] at h
  | cons r rs ih =>
    unfold storeFirstFree at h
    split at h
    · rename_i hc
      simp only [Bool.not_eq_true', Option.some.injEq] at hc h
      subst h
      rw [pendingEntries_cons_uninit r rs hc, pendingEntries_cons_init _ rs rfl]
      simp [Reservation.mk2]
    · rename_i hc
      simp only [Bool.not_eq_true', Bool.not_eq_false] at hc
      cases hm : storeFirstFree b e rs with
      | none => rw [hm] at h; exact absurd h (by simp)
      | some rs3 =>
        rw [hm] at h
        simp only [Option.some.injEq] at h
        subst h
        obtain ⟨ih1, ih2⟩ := ih rs3 hm
        rw [pendingEntries_cons_init r rs hc, pendingEntries_cons_init r rs3 hc, ih1]
        exact ⟨Multiset.cons_swap _ _ _, by simp [ih2]⟩

theorem storeFirstFree_none (b e : Nat) (tbl : List Reservation)
    (h : storeFirstFree b e tbl = none) : countInit tbl = tbl.length := by
  induction tbl with
  | nil => rfl
  | cons r rs ih =>
    unfold storeFirstFree at h
    split at h
    · exact absurd h (by simp)
    · rename_i hc
      simp only [Bool.not_eq_true', Bool.not_eq_false] at hc
      cases hm : storeFirstFree b e rs with
      | some v => rw [hm] at h; exact absurd h (by simp)
      | none =>
        have := ih hm
        simp [countInit, hc] at this ⊢
        exact this

theorem storeFirstFree_isSome (b e : Nat) (tbl : List Reservation)
    (h : countInit tbl < tbl.length) : ∃ tbl2, storeFirstFree b e tbl = some tbl2 := by
  cases hm : storeFirstFree b e tbl with
  | some v => exact ⟨v, rfl⟩
  | none => have := storeFirstFree_none b e tbl hm; omega

/-! ## The merge loop -/

theorem mergeScan_countInit (t : Nat) (tbl : List Reservation) (t2 : Nat)
    (tbl2 : List Reservation) (h : mergeScan t tbl = some (t2, tbl2)) :
    countInit tbl = countInit tbl2 + 1 := by
  have h1 := (mergeScan_some t tbl t2 tbl2 h).1
  rw [← card_pendingEntries, ← card_pendingEntries, h1]
  simp

/-- With more fuel than initialised entries the merge loop stops because a
scan found no match, not because the fuel ran out. -/
theorem mergeLoop_fuel (fuel : Nat) (tbl : List Reservation) (t : Nat)
    (h : countInit tbl < fuel) :
    mergeScan (mergeLoop fuel tbl t).2 (mergeLoop fuel tbl t).1 = none := by
  induction fuel generalizing tbl t with
  | zero => omega
  | succ fuel ih =>
    unfold mergeLoop
    cases hm : mergeScan t tbl with
    | none => simpa using hm
    | some v =>
      obtain ⟨t2, tbl2⟩ := v
      have := mergeScan_countInit t tbl t2 tbl2 hm
      exact ih tbl2 t2 (by omega)

/-- Any two amounts of fuel above the number of initialised entries give the
same result. -/
theorem mergeLoop_fuel_indep (fuel fuel2 : Nat) (tbl : List Reservation) (t : Nat)
    (h : countInit tbl < fuel) (h2 : countInit tbl < fuel2) :
    mergeLoop fuel tbl t = mergeLoop fuel2 tbl t := by
  induction fuel generalizing tbl t fuel2 with
  | zero => omega
  | succ fuel ih =>
    cases fuel2 with
    | zero => omega
    | succ fuel2 =>
      unfold mergeLoop
      cases hm : mergeScan t tbl with
      | none => rfl
      | some v =>
        obtain ⟨t2, tbl2⟩ := v
        have := mergeScan_countInit t tbl t2 tbl2 hm
        exact ih fuel2 tbl2 t2 (by omega) (by omega)

theorem mergeLoop_length (fuel : Nat) (tbl : List Reservation) (t : Nat) :
    (mergeLoop fuel tbl t).1.length = tbl.length := by
  induction fuel generalizing tbl t with
  | zero => rfl
  | succ fuel ih =>
    unfold mergeLoop
    cases hm : mergeScan t tbl with
    | none => rfl
    | some v =>
      obtain ⟨t2, tbl2⟩ := v
      simp only
      rw [ih tbl2 t2, (mergeScan_some t tbl t2 tbl2 hm).2]

theorem mergeLoop_of_scan_none (fuel : Nat) (tbl : List Reservation) (t : Nat)
    (h : mergeScan t tbl = none) : mergeLoop fuel tbl t = (tbl, t) := by
  cases fuel with
  | zero => rfl
  | succ fuel => simp [mergeLoop, h]

theorem mergeScan_none_of_uninit (t : Nat) (tbl : List Reservation)
    (h : ∀ r ∈ tbl, r.is_initialised = false) : mergeScan t tbl = none := by
  apply mergeScan_none_of
  rw [(pendingEntries_eq_zero_iff tbl).mpr h]
  simp

/-- A mergeable report on a table without initialised entries moves the cursor
to `pos_end` and leaves the table as it is. -/
theorem UpdateCursor_merge_empty (s : BufferedHelper) (e : Nat)
    (h : ∀ r ∈ s.unprocessed_reservations_, r.is_initialised = false)
    (he : s.cursor_ < e) :
    s.UpdateCursor s.cursor_ e =
      (PublishUpdateStatus.SUCCESS,
        { unprocessed_reservations_ := s.unprocessed_reservations_, cursor_ := e }) := by
  unfold BufferedHelper.UpdateCursor
  simp only [Nat.not_le.mpr he, if_false, if_true]
  rw [mergeLoop_of_scan_none _ _ _ (mergeScan_none_of_uninit e _ h)]

theorem strict_of_step (n : Nat) (p : Nat → Nat) (hp : ∀ i, i < n → p i < p (i + 1)) :
    ∀ i j, i < j → j ≤ n → p i < p j := by
  intro i j hij
  induction j with
  | zero => omega
  | succ j ih =>
    intro hj
    rcases Nat.lt_succ_iff_lt_or_eq.mp hij with h | h
    · exact lt_trans (ih h (by omega)) (hp j (by omega))
    · subst h; exact hp i (by omega)

theorem UpdateCursorAll_sequential (p : Nat → Nat) (m : Nat) :
    ∀ (j : Nat) (s : BufferedHelper),
      (∀ r ∈ s.unprocessed_reservations_, r.is_initialised = false) →
      s.cursor_ = p j → (∀ i, j ≤ i → i < j + m → p i < p (i + 1)) →
      s.UpdateCursorAll ((List.range' j m).map fun i => (p i, p (i + 1))) =
        (List.replicate m PublishUpdateStatus.SUCCESS,
          { unprocessed_reservations_ := s.unprocessed_reservations_, cursor_ := p (j + m) }) := by
  induction m with
  | zero =>
    intro j s _ hc _
    simp [BufferedHelper.UpdateCursorAll, ← hc]
  | succ m ih =>
    intro j s hs hc hp
    have hstep := UpdateCursor_merge_empty s (p (j + 1)) hs (by rw [hc]; exact hp j (by omega) (by omega))
    rw [hc] at hstep
    simp only [List.range', List.map_cons, BufferedHelper.UpdateCursorAll, hstep]
    rw [ih (j + 1) { unprocessed_reservations_ := s.unprocessed_reservations_, cursor_ := p (j + 1) }
      hs rfl (fun i h1 h2 => hp i (by omega) (by omega))]
    simp [List.replicate_succ, Nat.add_assoc, Nat.add_comm 1 m]

/-! ## Contiguous reports applied in any order -/

theorem map_val_of_mem (f : Nat → Nat × Nat) (P : Finset Nat) (m : Nat) (hm : m ∈ P) :
    P.val.map f = f m ::ₘ (P.erase m).val.map f := by
  conv_lhs => rw [← Finset.insert_erase hm]
  rw [Finset.insert_val_of_not_mem (Finset.not_mem_erase m P), Multiset.map_cons]

theorem mergeLoop_chain (n : Nat) (p : Nat → Nat)
    (hmono : ∀ i j, i < j → j ≤ n → p i < p j) :
    ∀ (fuel : Nat) (tbl : List Reservation) (m : Nat) (P : Finset Nat),
      P.card < fuel →
      pendingEntries tbl = P.val.map (fun i => (p i, p (i + 1))) →
      (∀ i ∈ P, i < n) → m ≤ n →
      ∃ m2, m ≤ m2 ∧ m2 ≤ n ∧ (∀ i, m ≤ i → i < m2 → i ∈ P) ∧ m2 ∉ P ∧
        (mergeLoop fuel tbl (p m)).2 = p m2 ∧
        pendingEntries (mergeLoop fuel tbl (p m)).1 =
          (P.filter (fun i => ¬ (m ≤ i ∧ i < m2))).val.map (fun i => (p i, p (i + 1))) := by
  intro fuel
  induction fuel with
  | zero => intro tbl m P h; omega
  | succ fuel ih =>
    intro tbl m P hcard hP hPn hm
    unfold mergeLoop
    cases hs : mergeScan (p m) tbl with
    | none =>
      refine ⟨m, le_refl m, hm, fun i h1 h2 => by omega, ?_, rfl, ?_⟩
      · intro hmem
        have h1 := mergeScan_none (p m) tbl hs (p m, p (m + 1))
          (by rw [hP]; exact Multiset.mem_map_of_mem _ hmem)
        exact h1 rfl
      · have hf : P.filter (fun i => ¬ (m ≤ i ∧ i < m)) = P :=
          Finset.filter_true_of_mem (fun i _ => by omega)
        simp only [hf]
        exact hP
    | some v =>
      obtain ⟨t2, tbl2⟩ := v
      obtain ⟨h1, _⟩ := mergeScan_some (p m) tbl t2 tbl2 hs
      have hmem : (p m, t2) ∈ P.val.map (fun i => (p i, p (i + 1))) := by
        rw [← hP, h1]; exact Multiset.mem_cons_self _ _
      obtain ⟨i, hiP, hi⟩ := Multiset.mem_map.mp hmem
      simp only [Prod.mk.injEq] at hi
      have hin : i < n := hPn i hiP
      have him : i = m := by
        rcases Nat.lt_trichotomy i m with h | h | h
        · have := hmono i m h hm; omega
        · exact h
        · have := hmono m i h (by omega); omega
      subst him
      have ht2 : t2 = p (i + 1) := hi.2.symm
      subst ht2
      have hP2 : pendingEntries tbl2 = (P.erase i).val.map (fun i => (p i, p (i + 1))) := by
        have h2 := map_val_of_mem (fun i => (p i, p (i + 1))) P i hiP
        rw [← hP, h1] at h2
        exact (Multiset.cons_inj_right _).mp h2
      have hc2 : (P.erase i).card < fuel := by
        rw [Finset.card_erase_of_mem hiP]
        have : 0 < P.card := Finset.card_pos.mpr ⟨i, hiP⟩
        omega
      obtain ⟨m2, a1, a2, a3, a4, a5, a6⟩ := ih tbl2 (i + 1) (P.erase i) hc2 hP2
        (fun x hx => hPn x (Finset.mem_of_mem_erase hx)) (by omega)
      refine ⟨m2, by omega, a2, ?_, ?_, a5, ?_⟩
      · intro x h1 h2
        rcases Nat.eq_or_lt_of_le h1 with h | h
        · subst h; exact hiP
        · exact Finset.mem_of_mem_erase (a3 x (by omega) h2)
      · intro h
        exact a4 (Finset.mem_erase.mpr ⟨by omega, h⟩)
      · simp only at a6 ⊢
        rw [a6]
        congr 2
        ext x
        simp only [Finset.mem_filter, Finset.mem_erase]
        constructor
        · rintro ⟨⟨h1, h2⟩, h3⟩
          exact ⟨h2, by omega⟩
        · rintro ⟨h1, h2⟩
          exact ⟨⟨by omega, h1⟩, by omega⟩

theorem UpdateCursorAll_cons (s : BufferedHelper) (b e : Nat) (rest : List (Nat × Nat)) :
    s.UpdateCursorAll ((b, e) :: rest) =
      ((s.UpdateCursor b e).1 :: ((s.UpdateCursor b e).2.UpdateCursorAll rest).1,
        ((s.UpdateCursor b e).2.UpdateCursorAll rest).2) := rfl

theorem UpdateCursorAll_any_order (n : Nat) (p : Nat → Nat) (hn : n ≤ LIM)
    (hmono : ∀ i j, i < j → j ≤ n → p i < p j) :
    ∀ (rest : List Nat) (s : BufferedHelper) (j : Nat),
      j ≤ n → s.cursor_ = p j → s.unprocessed_reservations_.length = LIM →
      rest.Nodup → (∀ i ∈ rest, j ≤ i ∧ i < n) → (j < n → j ∈ rest) →
      pendingEntries s.unprocessed_reservations_ =
        ((Finset.range n).filter (fun i => j < i ∧ i ∉ rest)).val.map
          (fun i => (p i, p (i + 1))) →
      (s.UpdateCursorAll (rest.map fun i => (p i, p (i + 1)))).1 =
          List.replicate rest.length PublishUpdateStatus.SUCCESS ∧
        (s.UpdateCursorAll (rest.map fun i => (p i, p (i + 1)))).2.cursor_ = p n ∧
        pendingEntries
          (s.UpdateCursorAll (rest.map fun i => (p i, p (i + 1)))).2.unprocessed_reservations_ = 0 := by
  intro rest
  induction rest with
  | nil =>
    intro s j hj hc _ _ _ hjn hP
    have hjn2 : j = n := by
      by_contra h
      have := hjn (by omega)
      simp at this
    subst hjn2
    refine ⟨rfl, hc, ?_⟩
    simp only [List.map_nil, BufferedHelper.UpdateCursorAll]
    rw [hP]
    have : (Finset.range j).filter (fun i => j < i ∧ i ∉ ([] : List Nat)) = ∅ := by
      apply Finset.filter_false_of_mem
      intro i hi
      have := Finset.mem_range.mp hi
      omega
    rw [this]
    rfl
  | cons i rest ih =>
    intro s j hj hc hlen hnd hrange hjn hP
    obtain ⟨hji, hin⟩ := hrange i (List.mem_cons_self _ _)
    have hinot : i ∉ rest := (List.nodup_cons.mp hnd).1
    have hnd2 : rest.Nodup := (List.nodup_cons.mp hnd).2
    have hcardP : ((Finset.range n).filter (fun x => j < x ∧ x ∉ i :: rest)).card < n := by
      have hsub : (Finset.range n).filter (fun x => j < x ∧ x ∉ i :: rest) ⊆
          (Finset.range n).erase i := by
        intro x hx
        simp only [Finset.mem_filter, Finset.mem_range, List.mem_cons, not_or] at hx
        exact Finset.mem_erase.mpr ⟨hx.2.2.1, Finset.mem_range.mpr hx.1⟩
      have h1 := Finset.card_le_card hsub
      rw [Finset.card_erase_of_mem (Finset.mem_range.mpr hin), Finset.card_range] at h1
      omega
    simp only [List.map_cons, UpdateCursorAll_cons, List.length_cons, List.replicate_succ]
    rcases Nat.eq_or_lt_of_le hji with hij | hij
    · -- the report that begins at the cursor: merge
      subst hij
      have hlt : p j < p (j + 1) := hmono j (j + 1) (by omega) (by omega)
      obtain ⟨m2, a1, a2, a3, a4, a5, a6⟩ := mergeLoop_chain n p hmono
        (s.unprocessed_reservations_.length + 1) s.unprocessed_reservations_ (j + 1) _
        (by rw [hlen]; omega) hP
        (fun x hx => Finset.mem_range.mp (Finset.mem_of_mem_filter x hx)) (by omega)
      have hU : s.UpdateCursor (p j) (p (j + 1)) = (PublishUpdateStatus.SUCCESS,
          { unprocessed_reservations_ := (mergeLoop (s.unprocessed_reservations_.length + 1)
              s.unprocessed_reservations_ (p (j + 1))).1,
            cursor_ := (mergeLoop (s.unprocessed_reservations_.length + 1)
              s.unprocessed_reservations_ (p (j + 1))).2 }) := by
        unfold BufferedHelper.UpdateCursor
        simp only [hc, Nat.not_le.mpr hlt, if_false, if_true]
      rw [hU]
      have hm2 : m2 < n → m2 ∈ rest := by
        intro h
        by_contra hnot
        apply a4
        simp only [Finset.mem_filter, Finset.mem_range, List.mem_cons, not_or]
        exact ⟨h, by omega, by omega, hnot⟩
      have hrest : ∀ x ∈ rest, m2 ≤ x ∧ x < n := by
        intro x hx
        obtain ⟨h1, h2⟩ := hrange x (List.mem_cons_of_mem _ hx)
        refine ⟨?_, h2⟩
        by_contra hlt2
        have hxj : x ≠ j := fun h => hinot (h ▸ hx)
        have := a3 x (by omega) (by omega)
        simp only [Finset.mem_filter, Finset.mem_range, List.mem_cons, not_or] at this
        exact this.2.2.2 hx
      obtain ⟨b1, b2, b3⟩ := ih
        { unprocessed_reservations_ := (mergeLoop (s.unprocessed_reservations_.length + 1)
              s.unprocessed_reservations_ (p (j + 1))).1,
          cursor_ := (mergeLoop (s.unprocessed_reservations_.length + 1)
              s.unprocessed_reservations_ (p (j + 1))).2 }
        m2 a2 a5 (by rw [mergeLoop_length]; exact hlen) hnd2
        hrest hm2 (by
          rw [a6]
          congr 2
          ext x
          simp only [Finset.mem_filter, Finset.mem_range, List.mem_cons, not_or]
          constructor
          · rintro ⟨⟨h1, h2, h3, h4⟩, h5⟩
            refine ⟨h1, ?_, h4⟩
            rcases Nat.lt_or_ge x m2 with h | h
            · omega
            · rcases Nat.eq_or_lt_of_le h with h6 | h6
              · subst h6; exact absurd (hm2 h1) h4
              · exact h6
          · rintro ⟨h1, h2, h3⟩
            exact ⟨⟨h1, by omega, by omega, h3⟩, by omega⟩)
      exact ⟨by rw [b1], b2, b3⟩
    · -- a report beyond the cursor: parked
      have hlt : p j < p i := hmono j i hij (by omega)
      have hlt2 : p i < p (i + 1) := hmono i (i + 1) (by omega) (by omega)
      have hfree : countInit s.unprocessed_reservations_ < s.unprocessed_reservations_.length := by
        rw [← card_pendingEntries, hP, Multiset.card_map, hlen]
        exact lt_of_lt_of_le hcardP hn
      obtain ⟨tbl2, htbl2⟩ := storeFirstFree_isSome (p i) (p (i + 1)) _ hfree
      obtain ⟨c1, c2⟩ := storeFirstFree_some _ _ _ _ htbl2
      have hU : s.UpdateCursor (p i) (p (i + 1)) = (PublishUpdateStatus.SUCCESS,
          { s with unprocessed_reservations_ := tbl2 }) := by
        unfold BufferedHelper.UpdateCursor
        have h1 : ¬ (p (i + 1) ≤ s.cursor_) := by rw [hc]; omega
        have h2 : ¬ (p i = s.cursor_) := by rw [hc]; omega
        simp only [h1, h2, if_false, htbl2]
      rw [hU]
      have hjrest : j < n → j ∈ rest := by
        intro h
        rcases List.mem_cons.mp (hjn h) with h3 | h3
        · omega
        · exact h3
      obtain ⟨b1, b2, b3⟩ := ih { s with unprocessed_reservations_ := tbl2 } j hj hc
        (by simp only; rw [c2, hlen]) hnd2
        (fun x hx => hrange x (List.mem_cons_of_mem _ hx)) hjrest (by
          simp only
          rw [c1, hP]
          have hmem : i ∈ (Finset.range n).filter (fun x => j < x ∧ x ∉ rest) := by
            simp only [Finset.mem_filter, Finset.mem_range]
            exact ⟨hin, hij, hinot⟩
          rw [map_val_of_mem _ _ i hmem]
          congr 3
          ext x
          simp only [Finset.mem_filter, Finset.mem_range, List.mem_cons, not_or,
            Finset.mem_erase]
          constructor
          · rintro ⟨h1, h2, h3, h4⟩
            exact ⟨h3, h1, h2, h4⟩
          · rintro ⟨h1, h2, h3, h4⟩
            exact ⟨h2, h3, h1, h4⟩)
      exact ⟨by rw [b1], b2, b3⟩

theorem Reset_uninit (s : BufferedHelper) :
    ∀ r ∈ s.Reset.unprocessed_reservations_, r.is_initialised = false := by
  intro r hr
  simp only [BufferedHelper.Reset, List.mem_map] at hr
  obtain ⟨_, _, rfl⟩ := hr
  rfl

theorem fresh_uninit :
    ∀ r ∈ ({} : BufferedHelper).unprocessed_reservations_, r.is_initialised = false := by
  intro r hr
  rw [List.eq_of_mem_replicate hr]

/-! ## The asserted conditions along a run -/

theorem mergeLoop_valid (fuel : Nat) (tbl : List Reservation) (t : Nat)
    (h : ∀ x ∈ pendingEntries tbl, x.1 < x.2) :
    t ≤ (mergeLoop fuel tbl t).2 ∧
      ∀ x ∈ pendingEntries (mergeLoop fuel tbl t).1, x.1 < x.2 := by
  induction fuel generalizing tbl t with
  | zero => exact ⟨le_refl t, h⟩
  | succ fuel ih =>
    unfold mergeLoop
    cases hm : mergeScan t tbl with
    | none => exact ⟨le_refl t, h⟩
    | some v =>
      obtain ⟨t2, tbl2⟩ := v
      obtain ⟨h1, _⟩ := mergeScan_some t tbl t2 tbl2 hm
      have ht : t < t2 := h (t, t2) (by rw [h1]; exact Multiset.mem_cons_self _ _)
      obtain ⟨a1, a2⟩ := ih tbl2 t2
        (fun x hx => h x (by rw [h1]; exact Multiset.mem_cons_of_mem hx))
      exact ⟨by simp only; omega, a2⟩

/-- A report with `pos_begin < pos_end`, on a table whose initialised entries
all have `pos_begin < pos_end`, meets both asserted conditions of
`UpdateCursor`, and the table keeps that property. -/
theorem UpdateCursor_valid (s : BufferedHelper) (b e : Nat) (hbe : b < e)
    (h : ∀ x ∈ pendingEntries s.unprocessed_reservations_, x.1 < x.2) :
    s.UpdateCursor_assert b e = true ∧
      ∀ x ∈ pendingEntries (s.UpdateCursor b e).2.unprocessed_reservations_, x.1 < x.2 := by
  obtain ⟨a1, a2⟩ := mergeLoop_valid (s.unprocessed_reservations_.length + 1)
    s.unprocessed_reservations_ e h
  constructor
  · unfold BufferedHelper.UpdateCursor_assert
    rw [Bool.and_eq_true]
    refine ⟨decide_eq_true hbe, ?_⟩
    split
    · rename_i hc
      have h1 : ¬ (e ≤ s.cursor_) := by omega
      have h4 : s.cursor_ < (mergeLoop (s.unprocessed_reservations_.length + 1)
        s.unprocessed_reservations_ e).2 := by omega
      unfold BufferedHelper.UpdateCursor
      simp only [h1, hc.2, if_false, if_true]
      exact decide_eq_true h4
    · rfl
  · unfold BufferedHelper.UpdateCursor
    by_cases h1 : e ≤ s.cursor_
    · simp only [h1, if_true]
      exact h
    · by_cases h2 : b = s.cursor_
      · simp only [h1, h2, if_false, if_true]
        exact a2
      · simp only [h1, h2, if_false]
        cases hst : storeFirstFree b e s.unprocessed_reservations_ with
        | none => exact h
        | some tbl2 =>
          simp only
          rw [(storeFirstFree_some b e _ tbl2 hst).1]
          intro x hx
          rcases Multiset.mem_cons.mp hx with rfl | hx
          · exact hbe
          · exact h x hx

theorem UpdateCursorAll_assert_of_valid (reports : List (Nat × Nat)) :
    ∀ s : BufferedHelper,
      (∀ x ∈ pendingEntries s.unprocessed_reservations_, x.1 < x.2) →
      (∀ x ∈ reports, x.1 < x.2) → s.UpdateCursorAll_assert reports = true := by
  induction reports with
  | nil => intro s _ _; rfl
  | cons x rest ih =>
    intro s hs hr
    obtain ⟨b, e⟩ := x
    obtain ⟨a1, a2⟩ := UpdateCursor_valid s b e (hr (b, e) (List.mem_cons_self _ _)) hs
    simp only [BufferedHelper.UpdateCursorAll_assert, a1, Bool.true_and]
    exact ih _ a2 (fun y hy => hr y (List.mem_cons_of_mem _ hy))

theorem pendingEntries_valid_of_uninit (tbl : List Reservation)
    (h : ∀ r ∈ tbl, r.is_initialised = false) : ∀ x ∈ pendingEntries tbl, x.1 < x.2 := by
  rw [(pendingEntries_eq_zero_iff tbl).mpr h]
  intro x hx
  exact absurd hx (Multiset.not_mem_zero x)

/-! ## Claims -/

/-- C1 (Buffered eventual advance). Start from a freshly constructed Buffered
engine, or from one that was just Reset. Let `1 ≤ n ≤ LIM`, let
`0 = p 0 < p 1 < ... < p n`, and let `order` be any permutation of the report
indices `0, ..., n-1`, report `i` being the range `(p i, p (i+1))`. Applying
the reports one at a time in that order through `UpdateCursor`, all `n` calls
return, none returns `ERROR` or `NO_SPACE`, the final cursor is `p n`, and no
entry of the pending table is initialised at the end. The conditions asserted
in `UpdateCursor` hold in every call, so the same is true of a build in which
`assert` is active. -/
theorem buffered_eventual_advance (n : Nat) (p : Nat → Nat) (order : List Nat)
    (s0 : BufferedHelper)
    (hs0 : s0 = {} ∨
      ∃ s : BufferedHelper, s.unprocessed_reservations_.length = LIM ∧ s0 = s.Reset)
    (hn1 : 1 ≤ n) (hn : n ≤ LIM) (h0 : p 0 = 0) (hp : ∀ i, i < n → p i < p (i + 1))
    (hperm : order.Perm (List.range n)) :
    (s0.UpdateCursorAll (order.map fun i => (p i, p (i + 1)))).1.length = n ∧
    (∀ st ∈ (s0.UpdateCursorAll (order.map fun i => (p i, p (i + 1)))).1,
      st ≠ PublishUpdateStatus.ERROR ∧ st ≠ PublishUpdateStatus.NO_SPACE) ∧
    (s0.UpdateCursorAll (order.map fun i => (p i, p (i + 1)))).2.cursor = p n ∧
    (∀ r ∈ (s0.UpdateCursorAll (order.map fun i => (p i, p (i + 1)))).2.unprocessed_reservations_,
      r.is_initialised = false) ∧
    s0.UpdateCursorAll_assert (order.map fun i => (p i, p (i + 1))) = true := by
  have hmono := strict_of_step n p hp
  have hc0 : s0.cursor_ = p 0 := by
    rcases hs0 with h | ⟨s, _, h⟩
    · subst h; exact h0.symm
    · subst h; exact h0.symm
  have hlen : s0.unprocessed_reservations_.length = LIM := by
    rcases hs0 with h | ⟨s, hs, h⟩ <;> subst h
    · simp
    · simp [BufferedHelper.Reset, hs]
  have hun : ∀ r ∈ s0.unprocessed_reservations_, r.is_initialised = false := by
    rcases hs0 with h | ⟨s, _, h⟩ <;> subst h
    · exact fresh_uninit
    · exact Reset_uninit s
  have hmem : ∀ i, i ∈ order ↔ i < n := fun i => by
    rw [hperm.mem_iff, List.mem_range]
  have hP : pendingEntries s0.unprocessed_reservations_ =
      ((Finset.range n).filter (fun i => 0 < i ∧ i ∉ order)).val.map
        (fun i => (p i, p (i + 1))) := by
    rw [(pendingEntries_eq_zero_iff _).mpr hun]
    have : (Finset.range n).filter (fun i => 0 < i ∧ i ∉ order) = ∅ := by
      apply Finset.filter_false_of_mem
      intro i hi h
      exact h.2 ((hmem i).mpr (Finset.mem_range.mp hi))
    rw [this]
    rfl
  obtain ⟨b1, b2, b3⟩ := UpdateCursorAll_any_order n p hn hmono order s0 0 (by omega) hc0 hlen
    (hperm.nodup_iff.mpr (List.nodup_range n))
    (fun i hi => ⟨by omega, (hmem i).mp hi⟩) (fun h => (hmem 0).mpr h) hP
  refine ⟨?_, ?_, b2, (pendingEntries_eq_zero_iff _).mp b3, ?_⟩
  · rw [b1, List.length_replicate, hperm.length_eq, List.length_range]
  · intro st hst
    rw [b1] at hst
    rw [List.eq_of_mem_replicate hst]
    exact ⟨by decide, by decide⟩
  · apply UpdateCursorAll_assert_of_valid _ s0 (pendingEntries_valid_of_uninit _ hun)
    intro x hx
    obtain ⟨i, hi, rfl⟩ := List.mem_map.mp hx
    exact hp i ((hmem i).mp hi)

/-- Witness of C1 (the test `TEST BUFFERED CURSOR HELPER IN PARALLEL`): the
twenty unit reports `(i, i+1)` applied in reverse order end with cursor 20. -/
theorem buffered_eventual_advance_witness :
    (({} : BufferedHelper).UpdateCursorAll
        ((List.range 20).reverse.map fun i => (i, i + 1))).1.length = 20 ∧
    (∀ st ∈ (({} : BufferedHelper).UpdateCursorAll
        ((List.range 20).reverse.map fun i => (i, i + 1))).1,
      st ≠ PublishUpdateStatus.ERROR ∧ st ≠ PublishUpdateStatus.NO_SPACE) ∧
    (({} : BufferedHelper).UpdateCursorAll
        ((List.range 20).reverse.map fun i => (i, i + 1))).2.cursor = 20 ∧
    (∀ r ∈ (({} : BufferedHelper).UpdateCursorAll
        ((List.range 20).reverse.map fun i => (i, i + 1))).2.unprocessed_reservations_,
      r.is_initialised = false) ∧
    ({} : BufferedHelper).UpdateCursorAll_assert
      ((List.range 20).reverse.map fun i => (i, i + 1)) = true :=
  buffered_eventual_advance 20 (fun i => i) (List.range 20).reverse {} (Or.inl rfl)
    (by decide) (by decide) rfl (fun i _ => Nat.lt_succ_self i) (List.reverse_perm _)

/-- C2 (sequential buffered publishing). From a freshly constructed Buffered
engine, for every `n` (in particular `n ≥ 1`) and `0 = p 0 < p 1 < ... < p n`, the calls
`UpdateCursor (p i) (p (i+1))` made in order for `i = 0, ..., n-1` all return
`SUCCESS`; after every one of them (after each prefix of `k ≤ n` calls) the
pending table is still the freshly constructed one, so nothing was ever
stored in it; and the final cursor is `p n`. The conditions asserted in
`UpdateCursor` hold in every call. -/
theorem sequential_buffered_publishing (n : Nat) (p : Nat → Nat)
    (h0 : p 0 = 0) (hp : ∀ i, i < n → p i < p (i + 1)) :
    (({} : BufferedHelper).UpdateCursorAll
        ((List.range n).map fun i => (p i, p (i + 1)))).1 =
      List.replicate n PublishUpdateStatus.SUCCESS ∧
    (∀ k, k ≤ n →
      (({} : BufferedHelper).UpdateCursorAll
        (((List.range n).map fun i => (p i, p (i + 1))).take k)).2.unprocessed_reservations_ =
      List.replicate LIM {}) ∧
    (({} : BufferedHelper).UpdateCursorAll
        ((List.range n).map fun i => (p i, p (i + 1)))).2.cursor = p n ∧
    ({} : BufferedHelper).UpdateCursorAll_assert
      ((List.range n).map fun i => (p i, p (i + 1))) = true := by
  have key : ∀ k, k ≤ n →
      ({} : BufferedHelper).UpdateCursorAll ((List.range k).map fun i => (p i, p (i + 1))) =
        (List.replicate k PublishUpdateStatus.SUCCESS,
          { unprocessed_reservations_ := List.replicate LIM {}, cursor_ := p k }) := by
    intro k hk
    have := UpdateCursorAll_sequential p k 0 {} fresh_uninit h0.symm
      (fun i _ h2 => hp i (by omega))
    rw [List.range_eq_range', this]
    simp
  refine ⟨by rw [key n (le_refl n)], ?_, by rw [key n (le_refl n)]; rfl, ?_⟩
  · intro k hk
    rw [← List.map_take, List.take_range, Nat.min_eq_left hk, key k hk]
  · apply UpdateCursorAll_assert_of_valid _ {} (pendingEntries_valid_of_uninit _ fresh_uninit)
    intro x hx
    obtain ⟨i, hi, rfl⟩ := List.mem_map.mp hx
    exact hp i (List.mem_range.mp hi)

/-- Witness of C2 (the test `TEST BUFFERED CURSOR HELPER SEQUENTIALLY`):
`UpdateCursor (i-1) i` for `i = 1, ..., 19` in order gives cursor 19. -/
theorem sequential_buffered_publishing_witness :
    (({} : BufferedHelper).UpdateCursorAll
        ((List.range 19).map fun i => (i, i + 1))).1 =
      List.replicate 19 PublishUpdateStatus.SUCCESS ∧
    (∀ k, k ≤ 19 →
      (({} : BufferedHelper).UpdateCursorAll
        (((List.range 19).map fun i => (i, i + 1)).take k)).2.unprocessed_reservations_ =
      List.replicate LIM {}) ∧
    (({} : BufferedHelper).UpdateCursorAll
        ((List.range 19).map fun i => (i, i + 1))).2.cursor = 19 ∧
    ({} : BufferedHelper).UpdateCursorAll_assert
      ((List.range 19).map fun i => (i, i + 1)) = true :=
  sequential_buffered_publishing 19 (fun i => i) rfl (fun i _ => Nat.lt_succ_self i)

/-! ## Reservation passes -/

theorem size_sub_of_le (a b : Nat) (ha : a < SIZE_MOD) (h : b ≤ a) : size_sub a b = a - b := by
  unfold size_sub SIZE_MOD at *
  omega

theorem size_sub_self (a : Nat) : size_sub a a = 0 := by
  unfold size_sub SIZE_MOD
  omega

theorem size_add_of_lt (a b : Nat) (h : a + b < SIZE_MOD) : size_add a b = a + b := by
  unfold size_add SIZE_MOD at *
  omega

theorem size_sub_size_add (e m : Nat) (he : e < SIZE_MOD) (hm : m < SIZE_MOD) :
    size_sub (size_add e m) e = m := by
  unfold size_sub size_add SIZE_MOD at *
  omega

theorem compare_exchange_self (e d : Nat) : compare_exchange e e d = (true, d) := by
  simp [compare_exchange]

/-- With room in the ring the pass of `WriteCursor::Reserve` whose
compare-and-swap finds the loaded claim reserves `min (N - (e - r)) k` slots
from `e`. -/
theorem WriteCursor_ReservePass_granted (N e r k : Nat) (hN : N < SIZE_MOD)
    (he : e < SIZE_MOD) (hre : r ≤ e) (hgap : e - r < N) :
    WriteCursor.ReservePass N e r k e =
      PassResult.reserved
        { pos_begin := e, pos_end := size_add e (min (N - (e - r)) k), err := false }
        (size_add e (min (N - (e - r)) k)) := by
  have h1 : size_sub e r = e - r := size_sub_of_le e r he hre
  have h2 : size_sub N (e - r) = N - (e - r) := size_sub_of_le N (e - r) hN (by omega)
  have h3 : ¬ (N - (e - r) = 0) := by omega
  simp [WriteCursor.ReservePass, WriteCursor.wait_for_available_space, Nat.not_lt.mpr hre,
    h1, h2, h3, compare_exchange_self]

/-- With a full ring the pass of `WriteCursor::Reserve` asks to spin. -/
theorem WriteCursor_ReservePass_full (N e r k c : Nat)
    (he : e < SIZE_MOD) (hre : r ≤ e) (hgap : e - r = N) :
    WriteCursor.ReservePass N e r k c = PassResult.spin := by
  have h1 : size_sub e r = e - r := size_sub_of_le e r he hre
  have h2 : size_sub N (e - r) = 0 := by rw [hgap]; exact size_sub_self N
  simp [WriteCursor.ReservePass, WriteCursor.wait_for_available_space, Nat.not_lt.mpr hre,
    h1, h2]

/-- A single thread never leaves the waiting loop of `WriteCursor::Reserve`
when the ring is full. -/
theorem WriteCursor_Reserve_full (fuel N : Nat) (wc rc : Cursor) (k : Nat)
    (he : wc.claim_sequence_ < SIZE_MOD) (hre : rc.GetCursor ≤ wc.claim_sequence_)
    (hgap : wc.claim_sequence_ - rc.GetCursor = N) :
    WriteCursor.Reserve fuel N wc rc k = none := by
  induction fuel with
  | zero => rfl
  | succ fuel ih =>
    unfold WriteCursor.Reserve
    rw [WriteCursor_ReservePass_full N _ _ k _ he hre hgap]
    exact ih

theorem WriteCursor_ReservePass_overrun (N e r k c : Nat) (h : e < r) :
    WriteCursor.ReservePass N e r k c =
      PassResult.ret_error { pos_begin := 0, pos_end := 0, err := true } := by
  simp [WriteCursor.ReservePass, WriteCursor.wait_for_available_space, h]

theorem ReadCursor_ReservePass_granted (e w k : Nat) (hw : w < SIZE_MOD) (hew : e < w) :
    ReadCursor.ReservePass e w k e =
      PassResult.reserved
        { pos_begin := e, pos_end := e + min (w - e) k, err := false }
        (e + min (w - e) k) := by
  have h1 : size_sub w e = w - e := size_sub_of_le w e hw (by omega)
  have h3 : ¬ (w - e = 0) := by omega
  have h4 : size_add e (min (w - e) k) = e + min (w - e) k :=
    size_add_of_lt _ _ (by have := Nat.min_le_left (w - e) k; omega)
  simp [ReadCursor.ReservePass, ReadCursor.is_no_available_data, h1, h3, h4,
    compare_exchange_self]

theorem ReadCursor_ReservePass_empty (e k c : Nat) :
    ReadCursor.ReservePass e e k c =
      PassResult.ret_error { pos_begin := 0, pos_end := 0, err := true } := by
  simp [ReadCursor.ReservePass, ReadCursor.is_no_available_data, size_sub_self]

/-- C5 (write reservation postcondition). A pass of `WriteCursor::Reserve`
observes the write claim `e` and the read-visible cursor `r`, with `r ≤ e`
and `e - r < N`, and is asked for `k ≥ 1` slots. When its compare-and-swap
succeeds (the cell still holds `e`), the result is
`(pos_begin = e, pos_end = e + min (N - (e - r)) k, err = false)` in `size_t`
arithmetic, the write claim becomes `pos_end`, and
`1 ≤ pos_end - pos_begin ≤ k` in `size_t` arithmetic. Whenever
`r + N < 2 ^ 64` the sum does not wrap, so the same holds in ordinary
arithmetic. -/
theorem write_reservation_postcondition (N e r k c : Nat)
    (hN : N < SIZE_MOD) (he : e < SIZE_MOD)
    (hre : r ≤ e) (hgap : e - r < N) (hk : 1 ≤ k) (hcas : c = e) :
    (compare_exchange c e (size_add e (min (N - (e - r)) k))).1 = true ∧
    WriteCursor.ReservePass N e r k c =
      PassResult.reserved
        { pos_begin := e, pos_end := size_add e (min (N - (e - r)) k), err := false }
        (size_add e (min (N - (e - r)) k)) ∧
    (WriteCursor.ReservePass N e r k c).claim_after c = size_add e (min (N - (e - r)) k) ∧
    1 ≤ size_sub (size_add e (min (N - (e - r)) k)) e ∧
    size_sub (size_add e (min (N - (e - r)) k)) e ≤ k ∧
    (r + N < SIZE_MOD →
      size_add e (min (N - (e - r)) k) = e + min (N - (e - r)) k ∧
      1 ≤ e + min (N - (e - r)) k - e ∧ e + min (N - (e - r)) k - e ≤ k) := by
  subst hcas
  have hg := WriteCursor_ReservePass_granted N c r k hN he hre hgap
  have hm1 : 1 ≤ min (N - (c - r)) k := Nat.le_min.mpr ⟨by omega, hk⟩
  have hm2 : min (N - (c - r)) k ≤ k := Nat.min_le_right _ _
  have hm3 : min (N - (c - r)) k ≤ N - (c - r) := Nat.min_le_left _ _
  have hs := size_sub_size_add c (min (N - (c - r)) k) he (by omega)
  refine ⟨by rw [compare_exchange_self], hg, by rw [hg]; rfl, by omega, by omega, ?_⟩
  intro hw
  refine ⟨size_add_of_lt _ _ (by omega), by omega, by omega⟩

/-- Witness of C5: capacity 512, claim 510, read-visible cursor 0, five slots
requested: the two remaining slots `[510, 512)` are granted. -/
theorem write_reservation_postcondition_witness :
    WriteCursor.ReservePass 512 510 0 5 510 =
      PassResult.reserved { pos_begin := 510, pos_end := 512, err := false } 512 :=
  (write_reservation_postcondition 512 510 0 5 510 (by decide) (by decide)
    (by decide) (by decide) (by decide) rfl).2.1

theorem WriteCursor_ReservePass_cas_failed (N e r k c : Nat) (hN : N < SIZE_MOD)
    (he : e < SIZE_MOD) (hre : r ≤ e) (hgap : e - r < N) (hc : c ≠ e) :
    WriteCursor.ReservePass N e r k c = PassResult.cas_failed := by
  have h1 : size_sub e r = e - r := size_sub_of_le e r he hre
  have h2 : size_sub N (e - r) = N - (e - r) := size_sub_of_le N (e - r) hN (by omega)
  have h3 : ¬ (N - (e - r) = 0) := by omega
  simp [WriteCursor.ReservePass, WriteCursor.wait_for_available_space, Nat.not_lt.mpr hre,
    h1, h2, h3, compare_exchange, hc]

theorem size_sub_size_add_le (N e r m : Nat) (hN : N < SIZE_MOD) (he : e < SIZE_MOD)
    (hre : r ≤ e) (hm : m ≤ N - (e - r)) (hgap : e - r ≤ N) :
    size_sub (size_add e m) r ≤ N := by
  unfold size_sub size_add SIZE_MOD at *
  omega

/-- C6 (bounded gap is preserved by write reservation). In a state with
`read.visible = r ≤ e = write.claim` and `e - r ≤ N`, for every requested
count `k`: the claim left by a `WriteCursor::Reserve` pass is within `N` of
`r` (in `size_t` arithmetic, and in ordinary arithmetic whenever
`r + N < 2 ^ 64`); whatever interleaving makes a pass store a claim, that
claim is within `N` of `r`; and when the gap is exactly `N` the pass is a
spin that grants nothing and leaves the claim unchanged, so that a single
thread never completes the reservation. -/
theorem bounded_gap_preserved (N e r k : Nat)
    (hN : N < SIZE_MOD) (he : e < SIZE_MOD) (hre : r ≤ e) (hgap : e - r ≤ N) :
    size_sub ((WriteCursor.ReservePass N e r k e).claim_after e) r ≤ N ∧
    (r + N < SIZE_MOD →
      r ≤ (WriteCursor.ReservePass N e r k e).claim_after e ∧
      (WriteCursor.ReservePass N e r k e).claim_after e - r ≤ N) ∧
    (∀ c info claim2, WriteCursor.ReservePass N e r k c = PassResult.reserved info claim2 →
      size_sub claim2 r ≤ N) ∧
    (e - r = N →
      (∀ c, WriteCursor.ReservePass N e r k c = PassResult.spin ∧
        (WriteCursor.ReservePass N e r k c).claim_after c = c) ∧
      ∀ (fuel : Nat) (wc rc : Cursor), wc.claim_sequence_ = e → rc.GetCursor = r →
        WriteCursor.Reserve fuel N wc rc k = none) := by
  have hm3 : min (N - (e - r)) k ≤ N - (e - r) := Nat.min_le_left _ _
  have hfull : e - r = N → ∀ c, WriteCursor.ReservePass N e r k c = PassResult.spin :=
    fun h c => WriteCursor_ReservePass_full N e r k c he hre h
  have hstore : ∀ c info claim2,
      WriteCursor.ReservePass N e r k c = PassResult.reserved info claim2 →
      size_sub claim2 r ≤ N := by
    intro c info claim2 h
    rcases Nat.eq_or_lt_of_le hgap with hg | hg
    · rw [hfull hg c] at h; exact absurd h (by simp)
    · by_cases hc : c = e
      · subst hc
        rw [WriteCursor_ReservePass_granted N c r k hN he hre hg] at h
        simp only [PassResult.reserved.injEq] at h
        rw [← h.2]
        exact size_sub_size_add_le N c r _ hN he hre hm3 hgap
      · rw [WriteCursor_ReservePass_cas_failed N e r k c hN he hre hg hc] at h
        exact absurd h (by simp)
  refine ⟨?_, ?_, hstore, ?_⟩
  · rcases Nat.eq_or_lt_of_le hgap with hg | hg
    · rw [hfull hg e]
      simp only [PassResult.claim_after]
      rw [size_sub_of_le e r he hre]
      exact hgap
    · rw [WriteCursor_ReservePass_granted N e r k hN he hre hg]
      exact size_sub_size_add_le N e r _ hN he hre hm3 hgap
  · intro hw
    rcases Nat.eq_or_lt_of_le hgap with hg | hg
    · rw [hfull hg e]
      simp only [PassResult.claim_after]
      exact ⟨hre, hgap⟩
    · rw [WriteCursor_ReservePass_granted N e r k hN he hre hg]
      simp only [PassResult.claim_after]
      rw [size_add_of_lt _ _ (by omega)]
      omega
  · intro hg
    refine ⟨fun c => ⟨hfull hg c, by rw [hfull hg c]; rfl⟩, ?_⟩
    intro fuel wc rc h1 h2
    exact WriteCursor_Reserve_full fuel N wc rc k (by rw [h1]; exact he)
      (by rw [h1, h2]; exact hre) (by rw [h1, h2]; exact hg)

/-- Witness of C6 (scenario S5): with `N = 512` and the read-visible cursor at
0, a claim of 512 makes the next single-slot reservation spin: the pass
grants nothing and a single thread never completes it. -/
theorem bounded_gap_preserved_witness :
    WriteCursor.ReservePass 512 512 0 1 512 = PassResult.spin ∧
    ∀ fuel : Nat,
      WriteCursor.Reserve fuel 512
        { cursor_updater_ := CursorUpdateHelper.init PublishPolicy.BLOCK, claim_sequence_ := 512 }
        (Cursor.init PublishPolicy.BUFFERED) 1 = none :=
  ⟨((bounded_gap_preserved 512 512 0 1 (by decide) (by decide) (by decide)
      (by decide)).2.2.2 rfl).1 512 |>.1,
    fun fuel => ((bounded_gap_preserved 512 512 0 1 (by decide) (by decide) (by decide)
      (by decide)).2.2.2 rfl).2 fuel _ _ rfl rfl⟩

/-- The first 512 single-slot reservations of scenario S5 (`N = 512`, the
read-visible cursor fixed at 0): the `i`-th one returns `[i, i+1)` and raises
the claim to `i + 1 ≤ 512`. -/
theorem ring_capacity_respected (i : Nat) (hi : i < 512) :
    WriteCursor.ReservePass 512 i 0 1 i =
      PassResult.reserved { pos_begin := i, pos_end := i + 1, err := false } (i + 1) := by
  have h := WriteCursor_ReservePass_granted 512 i 0 1 (by decide)
    (by unfold SIZE_MOD; omega) (Nat.zero_le i) (by omega)
  have hm : min (512 - (i - 0)) 1 = 1 := by omega
  rw [hm, size_add_of_lt _ _ (by unfold SIZE_MOD; omega)] at h
  exact h

/-- C7 (overrun is surfaced, not waited on). When `WriteCursor::Reserve`
observes a write claim `e` strictly below the read-visible cursor `r`, then
for every requested count `k` the pass returns `(0, 0, err = true)` without
storing into the claim, and the call returns that reservation on its first
pass, leaving the write cursor as it was. -/
theorem overrun_is_surfaced (N e r k : Nat) (h : e < r) :
    (∀ c, WriteCursor.ReservePass N e r k c =
        PassResult.ret_error { pos_begin := 0, pos_end := 0, err := true } ∧
      (WriteCursor.ReservePass N e r k c).claim_after c = c) ∧
    ∀ (fuel : Nat) (wc rc : Cursor), wc.claim_sequence_ = e → rc.GetCursor = r →
      WriteCursor.Reserve (fuel + 1) N wc rc k =
        some ({ pos_begin := 0, pos_end := 0, err := true }, wc) := by
  refine ⟨fun c => ⟨WriteCursor_ReservePass_overrun N e r k c h, ?_⟩, ?_⟩
  · rw [WriteCursor_ReservePass_overrun N e r k c h]; rfl
  · intro fuel wc rc h1 h2
    unfold WriteCursor.Reserve
    rw [h1, h2, WriteCursor_ReservePass_overrun N e r k e h]

/-- Witness of C7: write claim 3 below read-visible cursor 5, `N = 512`. -/
theorem overrun_is_surfaced_witness :
    WriteCursor.ReservePass 512 3 5 1 3 =
      PassResult.ret_error { pos_begin := 0, pos_end := 0, err := true } :=
  ((overrun_is_surfaced 512 3 5 1 (by decide)).1 3).1

/-- C8 (read reservation postcondition and no read-ahead). A pass of
`ReadCursor::Reserve` observes the read claim `e` and the write-visible cursor
`w > e` and is asked for `k ≥ 1` slots. When its compare-and-swap succeeds
(the cell still holds `e`), the result is
`(pos_begin = e, pos_end = e + min (w - e) k, err = false)`, the read claim
becomes `pos_end`, `pos_end - pos_begin ≤ k`, the range is not empty, and
`pos_end ≤ w`. -/
theorem read_reservation_postcondition (e w k c : Nat)
    (hw : w < SIZE_MOD) (hew : e < w) (hk : 1 ≤ k) (hcas : c = e) :
    (compare_exchange c e (e + min (w - e) k)).1 = true ∧
    ReadCursor.ReservePass e w k c =
      PassResult.reserved
        { pos_begin := e, pos_end := e + min (w - e) k, err := false }
        (e + min (w - e) k) ∧
    (ReadCursor.ReservePass e w k c).claim_after c = e + min (w - e) k ∧
    e + min (w - e) k - e ≤ k ∧
    e < e + min (w - e) k ∧
    e + min (w - e) k ≤ w := by
  subst hcas
  have hg := ReadCursor_ReservePass_granted c w k hw hew
  have hm1 : 1 ≤ min (w - c) k := Nat.le_min.mpr ⟨by omega, hk⟩
  have hm2 : min (w - c) k ≤ k := Nat.min_le_right _ _
  have hm3 : min (w - c) k ≤ w - c := Nat.min_le_left _ _
  refine ⟨by rw [compare_exchange_self], hg, by rw [hg]; rfl, by omega, by omega, by omega⟩

/-- Witness of C8: read claim 3, write-visible cursor 5, 128 slots requested:
the two published slots `[3, 5)` are granted. -/
theorem read_reservation_postcondition_witness :
    ReadCursor.ReservePass 3 5 128 3 =
      PassResult.reserved { pos_begin := 3, pos_end := 5, err := false } 5 :=
  (read_reservation_postcondition 3 5 128 3 (by decide) (by decide) (by decide) rfl).2.1

theorem ReadCursor_Reserve_empty (fuel : Nat) (rc wc : Cursor) (k : Nat)
    (h : wc.GetCursor = rc.claim_sequence_) :
    ReadCursor.Reserve (fuel + 1) rc wc k =
      some ({ pos_begin := 0, pos_end := 0, err := true }, rc) := by
  unfold ReadCursor.Reserve
  rw [h, ReadCursor_ReservePass_empty]

/-- C9 (readers are non-blocking on empty). When the write-visible cursor
equals the read claim `e`, for every requested count `k` the pass of
`ReadCursor::Reserve` returns `(0, 0, err = true)` without storing into the
read claim, the call returns it on the first pass leaving the read cursor as
it was, and `ReaderWriter::Read` returns the default `ReadResult`, whose
`err` is true, leaving the pair as it was. -/
theorem readers_nonblocking_on_empty (e k : Nat) :
    (∀ c, ReadCursor.ReservePass e e k c =
        PassResult.ret_error { pos_begin := 0, pos_end := 0, err := true } ∧
      (ReadCursor.ReservePass e e k c).claim_after c = c) ∧
    (∀ (fuel : Nat) (rc wc : Cursor), rc.claim_sequence_ = e → wc.GetCursor = e →
      ReadCursor.Reserve (fuel + 1) rc wc k =
        some ({ pos_begin := 0, pos_end := 0, err := true }, rc)) ∧
    (∀ (Elem : Type) (N fuel : Nat) (rw : ReaderWriter Elem N),
      rw.read_cursor_.claim_sequence_ = e → rw.write_cursor_.GetCursor = e →
      ∃ res, ReaderWriter.Read (fuel + 1) rw k = some (res, rw) ∧ res.err = true) := by
  refine ⟨fun c => ⟨ReadCursor_ReservePass_empty e k c, ?_⟩, ?_, ?_⟩
  · rw [ReadCursor_ReservePass_empty e k c]; rfl
  · intro fuel rc wc h1 h2
    exact ReadCursor_Reserve_empty fuel rc wc k (by rw [h1, h2])
  · intro Elem N fuel rw h1 h2
    refine ⟨{}, ?_, rfl⟩
    unfold ReaderWriter.Read
    rw [ReadCursor_Reserve_empty fuel _ _ k (by rw [h1, h2])]
    rfl

/-- Witness of C9: a freshly made disruptor has nothing to read. -/
theorem readers_nonblocking_on_empty_witness :
    ∃ res, ReaderWriter.Read 1
        (MakeSingleDisruptor Nat 512 PublishPolicy.BLOCK PublishPolicy.BUFFERED) 128 =
      some (res, MakeSingleDisruptor Nat 512 PublishPolicy.BLOCK PublishPolicy.BUFFERED) ∧
      res.err = true :=
  (readers_nonblocking_on_empty 0 128).2.2 Nat 512 0 _ rfl rfl

/-! ## A single-threaded run of writes followed by a read -/

theorem writtenState_nil (Elem : Type) [Inhabited Elem] (N : Nat) (WP RP : PublishPolicy) :
    MakeSingleDisruptor Elem N WP RP = writtenState N WP RP [] := by
  cases WP <;> simp [MakeSingleDisruptor, writtenState, RingBuffer.init, Cursor.init,
    CursorUpdateHelper.init, engineAt]

theorem engineAt_cursor (P : PublishPolicy) (i : Nat) : (engineAt P i).cursor = i := by
  cases P <;> rfl

theorem engineAt_UpdateCursor (P : PublishPolicy) (fuel i : Nat) :
    (engineAt P i).UpdateCursor (fuel + 1) i (i + 1) =
      some (PublishUpdateStatus.SUCCESS, engineAt P (i + 1)) := by
  cases P with
  | BUFFERED =>
    have h := UpdateCursor_merge_empty { cursor_ := i } (i + 1) fresh_uninit (Nat.lt_succ_self i)
    simp only [engineAt, CursorUpdateHelper.UpdateCursor]
    rw [h]
  | BLOCK =>
    simp [engineAt, CursorUpdateHelper.UpdateCursor, BlockHelper.UpdateCursor,
      BlockHelper.UpdateCursorPass, compare_exchange]

theorem Publish_engineAt (P : PublishPolicy) (fuel i c : Nat) :
    Cursor.Publish (fuel + 1) { cursor_updater_ := engineAt P i, claim_sequence_ := c }
        i (i + 1) =
      some { cursor_updater_ := engineAt P (i + 1), claim_sequence_ := c } := by
  unfold Cursor.Publish
  simp only [engineAt_UpdateCursor]

theorem init_GetCursor (P : PublishPolicy) : (Cursor.init P).GetCursor = 0 := by
  cases P <;> rfl

theorem Reserve_engineAt (WP RP : PublishPolicy) (fuel N i : Nat) (hN : N < SIZE_MOD)
    (hi : i < N) :
    WriteCursor.Reserve (fuel + 1) N { cursor_updater_ := engineAt WP i, claim_sequence_ := i }
        (Cursor.init RP) 1 =
      some ({ pos_begin := i, pos_end := i + 1, err := false },
        { cursor_updater_ := engineAt WP i, claim_sequence_ := i + 1 }) := by
  unfold WriteCursor.Reserve
  have h := WriteCursor_ReservePass_granted N i 0 1 hN (by omega) (Nat.zero_le i) (by omega)
  have hm : min (N - (i - 0)) 1 = 1 := by omega
  rw [hm, size_add_of_lt _ _ (by omega)] at h
  simp only [init_GetCursor, h]

theorem pow_two_of_and_pred (N : Nat) : N ≠ 0 → N &&& (N - 1) = 0 → ∃ k, N = 2 ^ k := by
  induction N using Nat.strong_induction_on with
  | _ N ih =>
    intro h1 h2
    by_cases hN1 : N = 1
    · exact ⟨0, by simpa using hN1⟩
    · have hdiv : (N &&& (N - 1)) / 2 = N / 2 &&& (N - 1) / 2 := Nat.and_div_two
      rw [h2] at hdiv
      have hodd : N % 2 = 0 := by
        by_contra hne
        have : (N - 1) / 2 = N / 2 := by omega
        rw [this, Nat.and_self] at hdiv
        omega
      have hhalf : (N - 1) / 2 = N / 2 - 1 := by omega
      rw [hhalf] at hdiv
      obtain ⟨j, hj⟩ := ih (N / 2) (by omega) (by omega) hdiv.symm
      exact ⟨j + 1, by rw [Nat.pow_succ, ← hj]; omega⟩

/-- The capacities accepted by the `static_assert` of `RingBuffer` are exactly
the powers of two. -/
theorem static_assert_iff (N : Nat) : RingBuffer.static_assert N = true ↔ ∃ k, N = 2 ^ k := by
  constructor
  · intro h
    simp only [RingBuffer.static_assert, Bool.and_eq_true, bne_iff_ne, ne_eq, beq_iff_eq] at h
    exact pow_two_of_and_pred N h.1 h.2
  · rintro ⟨k, rfl⟩
    simp [RingBuffer.static_assert, Nat.and_pow_two_sub_one_eq_mod]

theorem GetBufferIDx_of_lt (k i : Nat) (hi : i < 2 ^ k) : RingBuffer.GetBufferIDx (2 ^ k) i = i := by
  unfold RingBuffer.GetBufferIDx
  rw [Nat.and_pow_two_sub_one_eq_mod, Nat.mod_eq_of_lt hi]

theorem getD_append_cons {α : Type} (l1 : List α) (x : α) (l2 : List α) (d : α) (n : Nat)
    (hn : n = l1.length) : (l1 ++ x :: l2).getD n d = x := by
  subst hn
  induction l1 with
  | nil => rfl
  | cons a l1 ih => simpa using ih

theorem set_append_cons {α : Type} (l1 : List α) (x y : α) (l2 : List α) (n : Nat)
    (hn : n = l1.length) : (l1 ++ x :: l2).set n y = l1 ++ y :: l2 := by
  subst hn
  induction l1 with
  | nil => rfl
  | cons a l1 ih => simp

theorem Write_buffer {Elem : Type} [Inhabited Elem] (k : Nat) (pre : List (Elem × Bool))
    (v : Elem) (f : Bool) (hlen : pre.length < 2 ^ k) :
    WriteCursor.Write
        ({ buffer_ := pre.map slotOf ++ List.replicate (2 ^ k - pre.length) Sequence.init } :
          RingBuffer Elem (2 ^ k))
        pre.length v f =
      { buffer_ := (pre ++ [(v, f)]).map slotOf ++
          List.replicate (2 ^ k - (pre ++ [(v, f)]).length) Sequence.init } := by
  have hrep : List.replicate (2 ^ k - pre.length) (Sequence.init : Sequence Elem) =
      Sequence.init :: List.replicate (2 ^ k - (pre.length + 1)) Sequence.init := by
    rw [← List.replicate_succ]
    congr 1
    omega
  have hidx := GetBufferIDx_of_lt k pre.length hlen
  have hm : pre.length = (pre.map (slotOf : Elem × Bool → Sequence Elem)).length := by simp
  unfold WriteCursor.Write RingBuffer.set_at RingBuffer.at
  simp only [hidx]
  rw [hrep, getD_append_cons _ _ _ _ _ hm, set_append_cons _ _ _ _ _ hm]
  cases f
  · simp [slotOf, Sequence.init]
  · simp only [if_true]
    rw [getD_append_cons _ _ _ _ _ hm, set_append_cons _ _ _ _ _ hm]
    simp [slotOf, Sequence.init, Sequence.set_eof]

theorem Write_written {Elem : Type} [Inhabited Elem] (k : Nat) (WP RP : PublishPolicy)
    (fuel : Nat) (pre : List (Elem × Bool)) (v : Elem) (f : Bool)
    (hk : 2 ^ k < SIZE_MOD) (hlen : pre.length < 2 ^ k) :
    ReaderWriter.Write (fuel + 1) (writtenState (2 ^ k) WP RP pre) v f =
      some (false, writtenState (2 ^ k) WP RP (pre ++ [(v, f)])) := by
  unfold ReaderWriter.Write
  simp only [writtenState, Reserve_engineAt WP RP fuel (2 ^ k) pre.length hk hlen,
    Publish_engineAt, Write_buffer k pre v f hlen]
  simp

theorem WriteAll_written {Elem : Type} [Inhabited Elem] (k : Nat) (WP RP : PublishPolicy)
    (fuel : Nat) (hk : 2 ^ k < SIZE_MOD) (vs : List (Elem × Bool)) :
    ∀ pre : List (Elem × Bool), pre.length + vs.length ≤ 2 ^ k →
      ReaderWriter.WriteAll (fuel + 1) (writtenState (2 ^ k) WP RP pre) vs =
        some (List.replicate vs.length false, writtenState (2 ^ k) WP RP (pre ++ vs)) := by
  induction vs with
  | nil => intro pre _; simp [ReaderWriter.WriteAll]
  | cons x vs ih =>
    intro pre hlen
    obtain ⟨v, f⟩ := x
    simp only [List.length_cons] at hlen
    unfold ReaderWriter.WriteAll
    rw [Write_written k WP RP fuel pre v f hk (by omega)]
    simp only
    rw [ih (pre ++ [(v, f)]) (by simp only [List.length_append, List.length_singleton]; omega)]
    simp [List.replicate_succ]

theorem ReadCursor_Reserve_granted (fuel : Nat) (rc wc : Cursor) (k : Nat)
    (hw : wc.GetCursor < SIZE_MOD) (hew : rc.claim_sequence_ < wc.GetCursor) :
    ReadCursor.Reserve (fuel + 1) rc wc k =
      some ({ pos_begin := rc.claim_sequence_,
              pos_end := rc.claim_sequence_ + min (wc.GetCursor - rc.claim_sequence_) k,
              err := false },
        { rc with claim_sequence_ :=
            (rc.claim_sequence_ + min (wc.GetCursor - rc.claim_sequence_) k) }) := by
  unfold ReadCursor.Reserve
  rw [ReadCursor_ReservePass_granted _ _ k hw hew]

theorem ReaderWriter_Read_granted {Elem : Type} {N : Nat} (fuel : Nat)
    (rw : ReaderWriter Elem N) (k : Nat)
    (hw : rw.write_cursor_.GetCursor < SIZE_MOD)
    (hew : rw.read_cursor_.claim_sequence_ < rw.write_cursor_.GetCursor) :
    ReaderWriter.Read (fuel + 1) rw k =
      some (ReadCursor.Read rw.buffer_ rw.read_cursor_.claim_sequence_
          (rw.read_cursor_.claim_sequence_ +
            min (rw.write_cursor_.GetCursor - rw.read_cursor_.claim_sequence_) k),
        { rw with read_cursor_ := { rw.read_cursor_ with claim_sequence_ :=
            (rw.read_cursor_.claim_sequence_ +
              min (rw.write_cursor_.GetCursor - rw.read_cursor_.claim_sequence_) k) } }) := by
  unfold ReaderWriter.Read
  rw [ReadCursor_Reserve_granted fuel _ _ k hw hew]
  rfl

theorem writtenState_GetCursor {Elem : Type} [Inhabited Elem] (N : Nat) (WP RP : PublishPolicy)
    (vs : List (Elem × Bool)) :
    (writtenState N WP RP vs).write_cursor_.GetCursor = vs.length := by
  simp only [writtenState, Cursor.GetCursor, engineAt_cursor]

theorem writtenState_read_claim {Elem : Type} [Inhabited Elem] (N : Nat) (WP RP : PublishPolicy)
    (vs : List (Elem × Bool)) :
    (writtenState N WP RP vs).read_cursor_.claim_sequence_ = 0 := rfl

theorem at_written {Elem : Type} [Inhabited Elem] (k : Nat) (WP RP : PublishPolicy)
    (vs : List (Elem × Bool)) (hn : vs.length ≤ 2 ^ k) (i : Nat) (hi : i < vs.length) :
    (writtenState (2 ^ k) WP RP vs).buffer_.at i = slotOf (vs.get ⟨i, hi⟩) := by
  unfold RingBuffer.at
  rw [GetBufferIDx_of_lt k i (by omega)]
  simp only [writtenState]
  rw [List.getD_append _ _ _ _ (by simpa using hi), List.getD_eq_getElem _ _ (by simpa using hi)]
  simp

/-- C4 (no fabricated data, EOF transparency, single-threaded run). On a
freshly made disruptor of any two policies, whose ring capacity `N` passes the
`static_assert` of `RingBuffer`, let `vs` be a list of `n` values with their
EOF flags, `1 ≤ n ≤ N`. The `n` calls `Write (v_i, f_i)` all return false; the
call `Read n` that follows returns `err = false` for the range `[0, n)`, with
the iterator pair of that range; and for every `i < n` the slot `at i` holds
payload `v_i` and has `is_eof = f_i`. -/
theorem no_fabricated_data (Elem : Type) [Inhabited Elem] (N : Nat) (WP RP : PublishPolicy)
    (fuel : Nat) (vs : List (Elem × Bool))
    (hN : RingBuffer.static_assert N = true) (hN64 : N < SIZE_MOD)
    (hn1 : 1 ≤ vs.length) (hn : vs.length ≤ N) :
    ∃ (rw1 rw2 : ReaderWriter Elem N) (res : ReadResult),
      ReaderWriter.WriteAll (fuel + 1) (MakeSingleDisruptor Elem N WP RP) vs =
        some (List.replicate vs.length false, rw1) ∧
      ReaderWriter.Read (fuel + 1) rw1 vs.length = some (res, rw2) ∧
      res.err = false ∧ res.start_ = 0 ∧ res.end_ = vs.length ∧
      res.begin_iter = rw1.buffer_.GetIterator 0 ∧
      res.end_iter = rw1.buffer_.GetIterator vs.length ∧
      ∀ (i : Nat) (hi : i < vs.length),
        (rw2.buffer_.at i).data = (vs.get ⟨i, hi⟩).1 ∧
        (rw2.buffer_.at i).is_eof = (vs.get ⟨i, hi⟩).2 := by
  obtain ⟨k, rfl⟩ := (static_assert_iff N).mp hN
  have hW := WriteAll_written k WP RP fuel hN64 vs [] (by simpa using hn)
  rw [← writtenState_nil, List.nil_append] at hW
  have hR := ReaderWriter_Read_granted fuel (writtenState (2 ^ k) WP RP vs) vs.length
    (by rw [writtenState_GetCursor]; omega)
    (by rw [writtenState_GetCursor, writtenState_read_claim]; omega)
  rw [writtenState_GetCursor, writtenState_read_claim] at hR
  have hm : 0 + min (vs.length - 0) vs.length = vs.length := by omega
  rw [hm] at hR
  refine ⟨_, _, _, hW, hR, rfl, rfl, rfl, rfl, rfl, ?_⟩
  intro i hi
  have h := at_written k WP RP vs hn i hi
  exact ⟨congrArg Sequence.data h, congrArg Sequence.is_eof h⟩

/-- Witness of C4 (scenario S6): two values written with `is_eof = false` and
one with `is_eof = true` on a Block/Buffered disruptor of 512 slots are read
back in order, only the third with its EOF flag set. -/
theorem no_fabricated_data_witness :
    ∃ (rw1 rw2 : ReaderWriter Nat 512) (res : ReadResult),
      ReaderWriter.WriteAll (0 + 1)
          (MakeSingleDisruptor Nat 512 PublishPolicy.BLOCK PublishPolicy.BUFFERED)
          [(10, false), (11, false), (12, true)] =
        some (List.replicate [((10 : Nat), false), (11, false), (12, true)].length false, rw1) ∧
      ReaderWriter.Read (0 + 1) rw1 [((10 : Nat), false), (11, false), (12, true)].length =
        some (res, rw2) ∧
      res.err = false ∧ res.start_ = 0 ∧
      res.end_ = [((10 : Nat), false), (11, false), (12, true)].length ∧
      res.begin_iter = rw1.buffer_.GetIterator 0 ∧
      res.end_iter =
        rw1.buffer_.GetIterator [((10 : Nat), false), (11, false), (12, true)].length ∧
      ∀ (i : Nat) (hi : i < [((10 : Nat), false), (11, false), (12, true)].length),
        (rw2.buffer_.at i).data =
          ([((10 : Nat), false), (11, false), (12, true)].get ⟨i, hi⟩).1 ∧
        (rw2.buffer_.at i).is_eof =
          ([((10 : Nat), false), (11, false), (12, true)].get ⟨i, hi⟩).2 :=
  no_fabricated_data Nat 512 PublishPolicy.BLOCK PublishPolicy.BUFFERED 0
    [(10, false), (11, false), (12, true)] (by decide) (by decide) (by decide) (by decide)

/-- C10 (reservation validity) evaluated at a request for zero slots, in
states that satisfy the cursor invariants. `ReadCursor::Reserve` with read
claim 0 and write-visible cursor 1, and `WriteCursor::Reserve` with claim 0,
read-visible cursor 0 and `N = 512`, both return `(0, 0, err = false)`: the
range is empty although `err` is false, and the condition
`new_sequence > expected` asserted before the return is false. Through the
public surface: after one `Write`, `Read 0` returns a result with
`err = false` for the empty range `[0, 0)`. -/
theorem reservation_validity_zero_slots :
    ReadCursor.ReservePass 0 1 0 0 =
      PassResult.reserved { pos_begin := 0, pos_end := 0, err := false } 0 ∧
    WriteCursor.ReservePass 512 0 0 0 0 =
      PassResult.reserved { pos_begin := 0, pos_end := 0, err := false } 0 ∧
    Reserve_assert { pos_begin := 0, pos_end := 0, err := false } = false ∧
    ∃ (rw1 rw2 : ReaderWriter Nat (2 ^ 9)) (res : ReadResult),
      ReaderWriter.Write 1
          (MakeSingleDisruptor Nat (2 ^ 9) PublishPolicy.BLOCK PublishPolicy.BUFFERED)
          7 false = some (false, rw1) ∧
      ReaderWriter.Read 1 rw1 0 = some (res, rw2) ∧
      res.err = false ∧ res.start_ = 0 ∧ res.end_ = 0 := by
  refine ⟨by decide, by decide, by decide, ?_⟩
  have hW := Write_written 9 PublishPolicy.BLOCK PublishPolicy.BUFFERED 0
    ([] : List (Nat × Bool)) 7 false (by decide) (by decide)
  rw [← writtenState_nil, List.nil_append] at hW
  have hR := ReaderWriter_Read_granted 0
    (writtenState (2 ^ 9) PublishPolicy.BLOCK PublishPolicy.BUFFERED [((7 : Nat), false)]) 0
    (by rw [writtenState_GetCursor]; decide)
    (by rw [writtenState_GetCursor, writtenState_read_claim]; decide)
  rw [writtenState_GetCursor, writtenState_read_claim] at hR
  exact ⟨_, _, _, hW, hR, rfl, rfl, rfl⟩

end disruptor

namespace disruptor

/-! ## Stale publishes and cursor monotonicity -/

theorem tableValid_iff (tbl : List Reservation) :
    tableValid tbl ↔ ∀ x ∈ pendingEntries tbl, x.1 < x.2 := by
  unfold tableValid pendingEntries
  constructor
  · intro h x hx
    simp only [Multiset.mem_coe, List.mem_map, List.mem_filter] at hx
    obtain ⟨r, ⟨hr, hi⟩, rfl⟩ := hx
    exact h r hr hi
  · intro h r hr hi
    exact h (r.pos_begin, r.pos_end)
      (by simp only [Multiset.mem_coe, List.mem_map, List.mem_filter]; exact ⟨r, ⟨hr, hi⟩, rfl⟩)

theorem UpdateCursor_stale (s : BufferedHelper) (b e : Nat) (hec : e ≤ s.cursor_) :
    s.UpdateCursor b e = (PublishUpdateStatus.ERROR, s) := by
  simp [BufferedHelper.UpdateCursor, hec]

theorem UpdateCursor_merge_ge (s : BufferedHelper) (e : Nat)
    (hv : tableValid s.unprocessed_reservations_) (he : s.cursor_ < e) :
    (s.UpdateCursor s.cursor_ e).1 = PublishUpdateStatus.SUCCESS ∧
      e ≤ (s.UpdateCursor s.cursor_ e).2.cursor_ := by
  obtain ⟨a1, _⟩ := mergeLoop_valid (s.unprocessed_reservations_.length + 1)
    s.unprocessed_reservations_ e ((tableValid_iff _).mp hv)
  unfold BufferedHelper.UpdateCursor
  simp only [Nat.not_le.mpr he, if_false, if_true]
  exact ⟨trivial, a1⟩

theorem UpdateCursor_cursor_le (s : BufferedHelper) (b e : Nat) (hbe : b < e)
    (hv : tableValid s.unprocessed_reservations_) :
    s.cursor_ ≤ (s.UpdateCursor b e).2.cursor_ ∧
      tableValid (s.UpdateCursor b e).2.unprocessed_reservations_ := by
  refine ⟨?_, (tableValid_iff _).mpr (UpdateCursor_valid s b e hbe ((tableValid_iff _).mp hv)).2⟩
  by_cases h1 : e ≤ s.cursor_
  · rw [UpdateCursor_stale s b e h1]
  · by_cases h2 : b = s.cursor_
    · subst h2
      have := (UpdateCursor_merge_ge s e hv (by omega)).2
      omega
    · unfold BufferedHelper.UpdateCursor
      simp only [h1, h2, if_false]
      cases storeFirstFree b e s.unprocessed_reservations_ <;> exact le_refl _

/-- C12 (Buffered stale-publish guard). For every Buffered engine state and
every range whose `pos_end` is at most the cursor (in particular with
`pos_begin < pos_end ≤ cursor`), `UpdateCursor` returns `ERROR` and the state
it leaves, cursor and pending table, is the state it found. In particular,
from a state whose initialised entries are ranges with `pos_begin < pos_end`,
the publish of a range that begins at the cursor returns `SUCCESS` and makes
the range visible, and the same publish repeated at once returns `ERROR` and
changes nothing. -/
theorem buffered_stale_publish_guard (s : BufferedHelper) (b e : Nat)
    (hec : e ≤ s.cursor) :
    s.UpdateCursor b e = (PublishUpdateStatus.ERROR, s) ∧
    (∀ (s0 : BufferedHelper) (e0 : Nat),
      tableValid s0.unprocessed_reservations_ → s0.cursor < e0 →
      (s0.UpdateCursor s0.cursor e0).1 = PublishUpdateStatus.SUCCESS ∧
      e0 ≤ (s0.UpdateCursor s0.cursor e0).2.cursor ∧
      (s0.UpdateCursor s0.cursor e0).2.UpdateCursor s0.cursor e0 =
        (PublishUpdateStatus.ERROR, (s0.UpdateCursor s0.cursor e0).2)) := by
  refine ⟨UpdateCursor_stale s b e hec, ?_⟩
  intro s0 e0 hv he
  obtain ⟨a1, a2⟩ := UpdateCursor_merge_ge s0 e0 hv he
  exact ⟨a1, a2, UpdateCursor_stale _ _ _ a2⟩

/-- Witness of C12: on a fresh engine the publish of `(0, 3)` moves the cursor
to 3; repeated, it finds `pos_end = 3 ≤ cursor` and returns `ERROR`. -/
theorem buffered_stale_publish_guard_witness :
    (({} : BufferedHelper).UpdateCursor 0 3).2.UpdateCursor 0 3 =
      (PublishUpdateStatus.ERROR, (({} : BufferedHelper).UpdateCursor 0 3).2) :=
  (buffered_stale_publish_guard (({} : BufferedHelper).UpdateCursor 0 3).2 0 3 (by decide)).1

end disruptor

namespace disruptor

/-! ## The Block engine -/

theorem UpdateCursorPass_eq (s : BlockHelper) (b e : Nat) (h : s.cursor_ = b) :
    s.UpdateCursorPass b e = some { cursor_ := e } := by
  simp [BlockHelper.UpdateCursorPass, compare_exchange, h]

theorem UpdateCursorPass_ne (s : BlockHelper) (b e : Nat) (h : s.cursor_ ≠ b) :
    s.UpdateCursorPass b e = none := by
  simp [BlockHelper.UpdateCursorPass, compare_exchange, h]

theorem Block_UpdateCursor_eq (fuel : Nat) (s : BlockHelper) (b e : Nat) (h : s.cursor_ = b) :
    BlockHelper.UpdateCursor (fuel + 1) s b e =
      some (PublishUpdateStatus.SUCCESS, { cursor_ := e }) := by
  unfold BlockHelper.UpdateCursor
  rw [UpdateCursorPass_eq s b e h]

theorem Block_UpdateCursor_ne (fuel : Nat) (s : BlockHelper) (b e : Nat) (h : s.cursor_ ≠ b) :
    BlockHelper.UpdateCursor fuel s b e = none := by
  induction fuel with
  | zero => rfl
  | succ fuel ih =>
    unfold BlockHelper.UpdateCursor
    rw [UpdateCursorPass_ne s b e h]
    exact ih

theorem Block_UpdateCursor_some (fuel : Nat) (s : BlockHelper) (b e : Nat)
    (st : PublishUpdateStatus) (s2 : BlockHelper)
    (h : BlockHelper.UpdateCursor fuel s b e = some (st, s2)) :
    s.cursor_ = b ∧ s2.cursor_ = e ∧ st = PublishUpdateStatus.SUCCESS := by
  by_cases hc : s.cursor_ = b
  · cases fuel with
    | zero => simp [BlockHelper.UpdateCursor] at h
    | succ fuel =>
      rw [Block_UpdateCursor_eq fuel s b e hc] at h
      simp only [Option.some.injEq, Prod.mk.injEq] at h
      exact ⟨hc, by rw [← h.2], h.1.symm⟩
  · rw [Block_UpdateCursor_ne fuel s b e hc] at h
    exact absurd h (by simp)

/-- C13 as stated fails: with the Block cursor at 5, the already-visible range
`(2, 4)` makes the compare-and-swap of `UpdateCursor` fail, and no amount of
passes of a call on that state returns `ERROR`. -/
theorem block_stale_publish_counterexample :
    ({ cursor_ := 5 } : BlockHelper).UpdateCursorPass 2 4 = none ∧
    ¬ ∃ (fuel : Nat) (s2 : BlockHelper),
      BlockHelper.UpdateCursor fuel { cursor_ := 5 } 2 4 =
        some (PublishUpdateStatus.ERROR, s2) := by
  refine ⟨by decide, ?_⟩
  rintro ⟨fuel, s2, h⟩
  rw [Block_UpdateCursor_ne fuel { cursor_ := 5 } 2 4 (by decide)] at h
  exact absurd h (by simp)

/-- C13 as amended. Under the Block strategy, for every engine state and every
range with `pos_begin < pos_end ≤ cursor`, a pass of `UpdateCursor` fails its
compare-and-swap and stores nothing, so that the call is still spinning after
any number of passes on that state; and a Block `UpdateCursor` that returns,
from whatever state and for whatever range, returns `SUCCESS`, never `ERROR`
or `NO_SPACE`. -/
theorem block_stale_publish_spins (s : BlockHelper) (b e : Nat)
    (hbe : b < e) (hec : e ≤ s.cursor) :
    s.UpdateCursorPass b e = none ∧
    (∀ fuel : Nat, BlockHelper.UpdateCursor fuel s b e = none) ∧
    (∀ (fuel : Nat) (s0 : BlockHelper) (b0 e0 : Nat) (st : PublishUpdateStatus)
        (s1 : BlockHelper),
      BlockHelper.UpdateCursor fuel s0 b0 e0 = some (st, s1) →
      st = PublishUpdateStatus.SUCCESS) := by
  have hne : s.cursor_ ≠ b := by
    have : e ≤ s.cursor_ := hec
    omega
  exact ⟨UpdateCursorPass_ne s b e hne, fun fuel => Block_UpdateCursor_ne fuel s b e hne,
    fun fuel s0 b0 e0 st s1 h => (Block_UpdateCursor_some fuel s0 b0 e0 st s1 h).2.2⟩

/-- Witness of the amended C13: cursor 5, range `(2, 4)`. -/
theorem block_stale_publish_spins_witness :
    ({ cursor_ := 5 } : BlockHelper).UpdateCursorPass 2 4 = none ∧
    ∀ fuel : Nat, BlockHelper.UpdateCursor fuel { cursor_ := 5 } 2 4 = none :=
  ⟨(block_stale_publish_spins { cursor_ := 5 } 2 4 (by decide) (by decide)).1,
    (block_stale_publish_spins { cursor_ := 5 } 2 4 (by decide) (by decide)).2.1⟩

/-! ## Cursor monotonicity -/

end disruptor

namespace disruptor

/-! ## Block publishers in any attempted order -/

theorem PublishRun_nil (p : Nat → Nat) (s : BlockHelper) (done : List Nat) :
    BlockHelper.PublishRun p s done [] = ([], s) := by
  unfold BlockHelper.PublishRun
  rfl

theorem PublishRun_skip (p : Nat → Nat) (s : BlockHelper) (done : List Nat) (i : Nat)
    (rest : List Nat) (h : i ∈ done ∨ s.cursor_ ≠ p i) :
    BlockHelper.PublishRun p s done (i :: rest) = BlockHelper.PublishRun p s done rest := by
  conv_lhs => unfold BlockHelper.PublishRun
  by_cases hd : i ∈ done
  · simp [hd]
  · rcases h with h | h
    · exact absurd h hd
    · simp [hd, UpdateCursorPass_ne s (p i) (p (i + 1)) h]

theorem PublishRun_take (p : Nat → Nat) (s : BlockHelper) (done : List Nat) (i : Nat)
    (rest : List Nat) (hd : i ∉ done) (h : s.cursor_ = p i) :
    BlockHelper.PublishRun p s done (i :: rest) =
      ((i, p (i + 1)) :: (BlockHelper.PublishRun p { cursor_ := p (i + 1) } (i :: done) rest).1,
        (BlockHelper.PublishRun p { cursor_ := p (i + 1) } (i :: done) rest).2) := by
  conv_lhs => unfold BlockHelper.PublishRun
  simp [hd, UpdateCursorPass_eq s (p i) (p (i + 1)) h]

/-- One stretch of a schedule: from cursor `p m` with exactly the publishers
below `m` done, the stretch completes publishers `m, ..., m + k - 1` in that
order and whatever follows it continues from cursor `p (m + k)`. -/
theorem PublishRun_stretch (n : Nat) (p : Nat → Nat)
    (hmono : ∀ i j, i < j → j ≤ n → p i < p j) (schedule : List Nat) :
    ∀ (m : Nat) (done : List Nat), m ≤ n → (∀ i, i ∈ done ↔ i < m) →
      (∀ i ∈ schedule, i < n) →
      ∃ (k : Nat) (done2 : List Nat), m + k ≤ n ∧ (∀ i, i ∈ done2 ↔ i < m + k) ∧
        (m < n → m ∈ schedule → 1 ≤ k) ∧
        ∀ rest : List Nat,
          BlockHelper.PublishRun p { cursor_ := p m } done (schedule ++ rest) =
            ((List.range' m k).map (fun i => (i, p (i + 1))) ++
                (BlockHelper.PublishRun p { cursor_ := p (m + k) } done2 rest).1,
              (BlockHelper.PublishRun p { cursor_ := p (m + k) } done2 rest).2) := by
  induction schedule with
  | nil =>
    intro m done hm hdone _
    exact ⟨0, done, by omega, by simpa using hdone, fun _ h => absurd h (List.not_mem_nil m),
      fun rest => by simp⟩
  | cons i schedule ih =>
    intro m done hm hdone hs
    have hin : i < n := hs i (List.mem_cons_self _ _)
    have hs2 : ∀ j ∈ schedule, j < n := fun j hj => hs j (List.mem_cons_of_mem _ hj)
    by_cases him : i = m
    · subst him
      have hnd : i ∉ done := fun h => absurd ((hdone i).mp h) (by omega)
      obtain ⟨k, done2, a1, a2, _, a4⟩ := ih (i + 1) (i :: done) (by omega)
        (fun j => by
          rw [List.mem_cons, hdone j]
          omega) hs2
      refine ⟨k + 1, done2, by omega, fun j => by rw [a2 j]; omega, fun _ _ => by omega, ?_⟩
      intro rest
      rw [List.cons_append, PublishRun_take p _ done i _ hnd rfl, a4 rest]
      simp only [List.range'_succ, List.map_cons, List.cons_append,
        show i + (k + 1) = i + 1 + k by omega]
    · have hskip : i ∈ done ∨ ({ cursor_ := p m } : BlockHelper).cursor_ ≠ p i := by
        rcases Nat.lt_or_ge i m with h | h
        · exact Or.inl ((hdone i).mpr h)
        · right
          have : p m < p i := hmono m i (by omega) (by omega)
          show p m ≠ p i
          omega
      obtain ⟨k, done2, a1, a2, a3, a4⟩ := ih m done hm hdone hs2
      refine ⟨k, done2, a1, a2, ?_, ?_⟩
      · intro h1 h2
        rcases List.mem_cons.mp h2 with h | h
        · exact absurd h.symm him
        · exact a3 h1 h
      · intro rest
        rw [List.cons_append, PublishRun_skip p _ done i _ hskip, a4 rest]

theorem PublishRun_rounds (n : Nat) (p : Nat → Nat)
    (hmono : ∀ i j, i < j → j ≤ n → p i < p j) (order : List Nat)
    (hperm : order.Perm (List.range n)) (r : Nat) :
    ∀ (m : Nat) (done : List Nat), m ≤ n → (∀ i, i ∈ done ↔ i < m) →
      ∃ k : Nat, m + k ≤ n ∧ min r (n - m) ≤ k ∧
        BlockHelper.PublishRun p { cursor_ := p m } done (List.flatten (List.replicate r order)) =
          ((List.range' m k).map (fun i => (i, p (i + 1))), { cursor_ := p (m + k) }) := by
  have hmem : ∀ i, i ∈ order ↔ i < n := fun i => by rw [hperm.mem_iff, List.mem_range]
  induction r with
  | zero =>
    intro m done hm _
    exact ⟨0, by omega, by simp, by simp [PublishRun_nil]⟩
  | succ r ih =>
    intro m done hm hdone
    obtain ⟨k1, done2, a1, a2, a3, a4⟩ := PublishRun_stretch n p hmono order m done hm hdone
      (fun i hi => (hmem i).mp hi)
    obtain ⟨k2, b1, b2, b3⟩ := ih (m + k1) done2 a1 a2
    refine ⟨k1 + k2, by omega, ?_, ?_⟩
    · have hk1 : m < n → 1 ≤ k1 := fun h => a3 h ((hmem m).mpr h)
      omega
    · rw [List.replicate_succ, List.flatten_cons, a4, b3]
      simp only [← List.map_append, Nat.add_assoc]
      congr 2
      rw [List.range'_append_1, Nat.add_comm k2 k1]

/-- C15 (Block strict ordering). A pass of the Block `UpdateCursor` stores a
new cursor exactly when the cursor equals `pos_begin`, and then the cursor
equals `pos_end`; a call that returns has found the cursor at `pos_begin`,
leaves it at `pos_end` and returns `SUCCESS`, and from a state with the cursor
at `pos_begin` the call returns on its first pass. Consequently, for
`p 0 < p 1 < ... < p n` and `n` publishers, publisher `i` holding
`[p i, p (i+1))`, starting from cursor `p 0`: in every schedule of their
compare-and-swap attempts the completions are the publishers `0, 1, ..., m-1`
in this order for some `m ≤ n`, the cursor taking the values
`p 1, ..., p m` in turn; and when the attempts are made in `n` rounds of any
order of the `n` publishers, all of them complete (`m = n`). -/
theorem block_strict_ordering (n : Nat) (p : Nat → Nat)
    (hp : ∀ i, i < n → p i < p (i + 1)) :
    (∀ (s s2 : BlockHelper) (b e : Nat),
      s.UpdateCursorPass b e = some s2 ↔ (s.cursor = b ∧ s2 = { cursor_ := e })) ∧
    (∀ (fuel : Nat) (s s2 : BlockHelper) (b e : Nat) (st : PublishUpdateStatus),
      BlockHelper.UpdateCursor fuel s b e = some (st, s2) →
      s.cursor = b ∧ s2.cursor = e ∧ st = PublishUpdateStatus.SUCCESS) ∧
    (∀ (fuel : Nat) (s : BlockHelper) (b e : Nat), s.cursor = b →
      BlockHelper.UpdateCursor (fuel + 1) s b e =
        some (PublishUpdateStatus.SUCCESS, { cursor_ := e })) ∧
    (∀ schedule : List Nat, (∀ i ∈ schedule, i < n) →
      ∃ m : Nat, m ≤ n ∧
        BlockHelper.PublishRun p { cursor_ := p 0 } [] schedule =
          ((List.range m).map (fun i => (i, p (i + 1))), { cursor_ := p m })) ∧
    (∀ order : List Nat, order.Perm (List.range n) →
      BlockHelper.PublishRun p { cursor_ := p 0 } [] (List.flatten (List.replicate n order)) =
        ((List.range n).map (fun i => (i, p (i + 1))), { cursor_ := p n })) := by
  have hmono := strict_of_step n p hp
  refine ⟨?_, ?_, ?_, ?_, ?_⟩
  · intro s s2 b e
    constructor
    · intro h
      by_cases hc : s.cursor_ = b
      · rw [UpdateCursorPass_eq s b e hc] at h
        exact ⟨hc, (Option.some.inj h).symm⟩
      · rw [UpdateCursorPass_ne s b e hc] at h
        exact absurd h (by simp)
    · rintro ⟨h1, h2⟩
      rw [h2]
      exact UpdateCursorPass_eq s b e h1
  · intro fuel s s2 b e st h
    exact Block_UpdateCursor_some fuel s b e st s2 h
  · intro fuel s b e h
    exact Block_UpdateCursor_eq fuel s b e h
  · intro schedule hs
    obtain ⟨k, done2, a1, _, _, a4⟩ := PublishRun_stretch n p hmono schedule 0 [] (by omega)
      (fun i => by simp) hs
    have h := a4 []
    rw [List.append_nil, PublishRun_nil] at h
    refine ⟨k, by omega, ?_⟩
    rw [h, List.range_eq_range']
    simp
  · intro order hperm
    obtain ⟨k, b1, b2, b3⟩ := PublishRun_rounds n p hmono order hperm n 0 [] (by omega)
      (fun i => by simp)
    have hk : k = n := by
      rw [Nat.sub_zero, Nat.min_self] at b2
      omega
    subst hk
    rw [b3, List.range_eq_range']
    simp

/-- Witness of C15: three publishers of `[0,1)`, `[1,2)`, `[2,3)` attempting
in reverse order, three rounds: they complete in the order 0, 1, 2 and the
cursor goes 1, 2, 3. -/
theorem block_strict_ordering_witness :
    BlockHelper.PublishRun (fun i => i) { cursor_ := 0 } []
        (List.flatten (List.replicate 3 [2, 1, 0])) =
      ([(0, 1), (1, 2), (2, 3)], { cursor_ := 3 }) :=
  (block_strict_ordering 3 (fun i => i) (fun i _ => Nat.lt_succ_self i)).2.2.2.2 [2, 1, 0]
    (by decide)

end disruptor

namespace disruptor

/-! ## Reservations granted to one role -/

theorem WriteCursor_PassGrants (N : Nat) : PassGrants (Role.writer N).pass := by
  intro st cell info c2 h
  simp only [Role.pass, WriteCursor.ReservePass, WriteCursor.wait_for_available_space] at h
  by_cases h1 : st.claim_at_load < st.other_cursor_seq
  · simp [h1] at h
  · by_cases h2 : size_sub N (size_sub st.claim_at_load st.other_cursor_seq) = 0
    · simp [h1, h2] at h
    · by_cases h3 : cell = st.claim_at_load
      · simp only [h1, h2, h3, compare_exchange, if_false, if_true, beq_iff_eq,
          PassResult.reserved.injEq] at h
        refine ⟨h3.symm, min (size_sub N (size_sub st.claim_at_load st.other_cursor_seq))
          st.no_of_slots, Nat.min_le_right _ _, fun hk => Nat.le_min.mpr ⟨by omega, hk⟩, ?_, ?_⟩
        · rw [h3, ← h.1]
        · rw [h3, ← h.2]
      · simp [h1, h2, h3, compare_exchange] at h

theorem ReadCursor_PassGrants : PassGrants Role.reader.pass := by
  intro st cell info c2 h
  simp only [Role.pass, ReadCursor.ReservePass, ReadCursor.is_no_available_data] at h
  by_cases h2 : size_sub st.other_cursor_seq st.claim_at_load = 0
  · simp [h2] at h
  · by_cases h3 : cell = st.claim_at_load
    · simp only [h2, h3, compare_exchange, if_false, if_true, beq_iff_eq,
        PassResult.reserved.injEq] at h
      refine ⟨h3.symm, min (size_sub st.other_cursor_seq st.claim_at_load)
        st.no_of_slots, Nat.min_le_right _ _, fun hk => Nat.le_min.mpr ⟨by omega, hk⟩, ?_, ?_⟩
      · rw [h3, ← h.1]
      · rw [h3, ← h.2]
    · simp [h2, h3, compare_exchange] at h

theorem ReserveRun_cons_reserved (pass : ReserveStep → Nat → PassResult) (claim : Nat)
    (st : ReserveStep) (rest : List ReserveStep) (info : ReservationInfo) (c : Nat)
    (h : pass st claim = PassResult.reserved info c) :
    ReserveRun pass claim (st :: rest) =
      (info :: (ReserveRun pass c rest).1, (ReserveRun pass c rest).2) := by
  conv_lhs => unfold ReserveRun
  simp only [h]

theorem ReserveRun_cons_other (pass : ReserveStep → Nat → PassResult) (claim : Nat)
    (st : ReserveStep) (rest : List ReserveStep)
    (h : ∀ info c, pass st claim ≠ PassResult.reserved info c) :
    ReserveRun pass claim (st :: rest) = ReserveRun pass claim rest := by
  conv_lhs => unfold ReserveRun
  cases hp : pass st claim with
  | reserved info c => exact absurd hp (h info c)
  | ret_error info => rfl
  | spin => rfl
  | cas_failed => rfl

/-- The granted ranges of a run are consecutive from the initial claim, all
have `err = false`, and the cell ends at the last `pos_end`. -/
theorem ReserveRun_contiguous (pass : ReserveStep → Nat → PassResult) (hp : PassGrants pass)
    (steps : List ReserveStep) :
    ∀ claim : Nat,
      contiguousFrom claim (ReserveRun pass claim steps).1 ∧
      (∀ info ∈ (ReserveRun pass claim steps).1, info.err = false) ∧
      (ReserveRun pass claim steps).2 =
        (((ReserveRun pass claim steps).1.getLast?).map (fun i => i.pos_end)).getD claim := by
  induction steps with
  | nil => intro claim; simp [ReserveRun, contiguousFrom]
  | cons st rest ih =>
    intro claim
    cases hpass : pass st claim with
    | reserved info c =>
      obtain ⟨_, m, _, _, hinfo, hc⟩ := hp st claim info c hpass
      obtain ⟨a1, a2, a3⟩ := ih c
      rw [ReserveRun_cons_reserved pass claim st rest info c hpass]
      have hend : info.pos_end = c := by rw [hinfo, hc]
      refine ⟨⟨by rw [hinfo], by rw [hend]; exact a1⟩, ?_, ?_⟩
      · intro x hx
        rcases List.mem_cons.mp hx with rfl | hx
        · rw [hinfo]
        · exact a2 x hx
      · simp only
        rw [a3]
        cases hl : (ReserveRun pass c rest).1 with
        | nil => simp [hend]
        | cons y ys =>
          rw [List.getLast?_cons_cons, List.getLast?_eq_getLast _ (List.cons_ne_nil y ys)]
          rfl
    | ret_error info =>
      rw [ReserveRun_cons_other pass claim st rest (by rw [hpass]; intro _ _ h; cases h)]
      exact ih claim
    | spin =>
      rw [ReserveRun_cons_other pass claim st rest (by rw [hpass]; intro _ _ h; cases h)]
      exact ih claim
    | cas_failed =>
      rw [ReserveRun_cons_other pass claim st rest (by rw [hpass]; intro _ _ h; cases h)]
      exact ih claim

/-- Without wrap of `size_t`, the granted ranges of a run lie at or above the
initial claim, each with `pos_begin ≤ pos_end` (strictly when every request
is for at least one slot), each ending at or below the beginning of every
later one. -/
theorem ReserveRun_ordered (pass : ReserveStep → Nat → PassResult) (hp : PassGrants pass)
    (steps : List ReserveStep) :
    ∀ claim : Nat,
      (∀ st ∈ steps, st.claim_at_load + st.no_of_slots < SIZE_MOD) →
      (∀ a ∈ (ReserveRun pass claim steps).1, claim ≤ a.pos_begin ∧ a.pos_begin ≤ a.pos_end) ∧
      List.Pairwise (fun a b => a.pos_end ≤ b.pos_begin) (ReserveRun pass claim steps).1 ∧
      ((∀ st ∈ steps, 1 ≤ st.no_of_slots) →
        ∀ a ∈ (ReserveRun pass claim steps).1, a.pos_begin < a.pos_end) := by
  induction steps with
  | nil => intro claim _; simp [ReserveRun]
  | cons st rest ih =>
    intro claim hw
    have hw2 : ∀ x ∈ rest, x.claim_at_load + x.no_of_slots < SIZE_MOD :=
      fun x hx => hw x (List.mem_cons_of_mem _ hx)
    cases hpass : pass st claim with
    | reserved info c =>
      obtain ⟨hload, m, hm1, hm2, hinfo, hc⟩ := hp st claim info c hpass
      have hst := hw st (List.mem_cons_self _ _)
      have hadd : size_add claim m = claim + m := size_add_of_lt _ _ (by omega)
      rw [hadd] at hinfo hc
      obtain ⟨a1, a2, a3⟩ := ih c hw2
      rw [ReserveRun_cons_reserved pass claim st rest info c hpass]
      have hb : info.pos_begin = claim := by rw [hinfo]
      have he : info.pos_end = claim + m := by rw [hinfo]
      refine ⟨?_, ?_, ?_⟩
      · intro x hx
        rcases List.mem_cons.mp hx with rfl | hx
        · rw [hb, he]; omega
        · have := a1 x hx; omega
      · refine List.Pairwise.cons ?_ a2
        intro x hx
        have := a1 x hx
        rw [he]; omega
      · intro hk x hx
        rcases List.mem_cons.mp hx with rfl | hx
        · have := hm2 (hk st (List.mem_cons_self _ _))
          rw [hb, he]; omega
        · exact a3 (fun y hy => hk y (List.mem_cons_of_mem _ hy)) x hx
    | ret_error info =>
      rw [ReserveRun_cons_other pass claim st rest (by rw [hpass]; intro _ _ h; cases h)]
      obtain ⟨a1, a2, a3⟩ := ih claim hw2
      exact ⟨a1, a2, fun hk => a3 (fun y hy => hk y (List.mem_cons_of_mem _ hy))⟩
    | spin =>
      rw [ReserveRun_cons_other pass claim st rest (by rw [hpass]; intro _ _ h; cases h)]
      obtain ⟨a1, a2, a3⟩ := ih claim hw2
      exact ⟨a1, a2, fun hk => a3 (fun y hy => hk y (List.mem_cons_of_mem _ hy))⟩
    | cas_failed =>
      rw [ReserveRun_cons_other pass claim st rest (by rw [hpass]; intro _ _ h; cases h)]
      obtain ⟨a1, a2, a3⟩ := ih claim hw2
      exact ⟨a1, a2, fun hk => a3 (fun y hy => hk y (List.mem_cons_of_mem _ hy))⟩

end disruptor

namespace disruptor

theorem Role_PassGrants (role : Role) : PassGrants role.pass := by
  cases role with
  | writer N => exact WriteCursor_PassGrants N
  | reader => exact ReadCursor_PassGrants

/-- C11 (reservation disjointness within a role). Take any passes of the
`Reserve` of one role (write or read) by any threads, with whatever each pass
had loaded, every compare-and-swap on the claim sequence being one atomic
step, starting from the claim `claim` (0 after construction or `Reset`). The
reservations granted, in the order of their compare-and-swaps, are
consecutive: the first begins at `claim` and each other one begins at the
`pos_end` of the one before; all have `err = false`; the claim ends at the
last `pos_end`. As long as `size_t` does not wrap, every granted range has
`pos_begin ≤ pos_end` and ends at or below the beginning of every later one,
so the ranges are pairwise disjoint and ordered; and when every request is
for at least one slot the ranges are not empty and their `pos_begin` strictly
increase. -/
theorem reservation_disjointness (role : Role) (steps : List ReserveStep) (claim : Nat) :
    contiguousFrom claim (role.ReserveRun claim steps).1 ∧
    (∀ info ∈ (role.ReserveRun claim steps).1, info.err = false) ∧
    (role.ReserveRun claim steps).2 =
      (((role.ReserveRun claim steps).1.getLast?).map (fun i => i.pos_end)).getD claim ∧
    ((∀ st ∈ steps, st.claim_at_load + st.no_of_slots < SIZE_MOD) →
      (∀ a ∈ (role.ReserveRun claim steps).1, claim ≤ a.pos_begin ∧ a.pos_begin ≤ a.pos_end) ∧
      List.Pairwise (fun a b => a.pos_end ≤ b.pos_begin) (role.ReserveRun claim steps).1 ∧
      ((∀ st ∈ steps, 1 ≤ st.no_of_slots) →
        (∀ a ∈ (role.ReserveRun claim steps).1, a.pos_begin < a.pos_end) ∧
        List.Pairwise (fun a b => a.pos_begin < b.pos_begin)
          (role.ReserveRun claim steps).1)) := by
  obtain ⟨a1, a2, a3⟩ := ReserveRun_contiguous role.pass (Role_PassGrants role) steps claim
  refine ⟨a1, a2, a3, ?_⟩
  intro hw
  obtain ⟨b1, b2, b3⟩ := ReserveRun_ordered role.pass (Role_PassGrants role) steps claim hw
  refine ⟨b1, b2, ?_⟩
  intro hk
  refine ⟨b3 hk, ?_⟩
  refine List.Pairwise.imp_of_mem ?_ b2
  intro a b ha _ hab
  have := b3 hk a ha
  omega

/-- Witness of C11: three passes of writers on a ring of 512 slots, the
second one with a stale load of the claim: the grants are `[0, 1)` and
`[1, 3)`. -/
theorem reservation_disjointness_witness :
    contiguousFrom 0
      ((Role.writer 512).ReserveRun 0
        [{ claim_at_load := 0, other_cursor_seq := 0, no_of_slots := 1 },
         { claim_at_load := 0, other_cursor_seq := 0, no_of_slots := 1 },
         { claim_at_load := 1, other_cursor_seq := 0, no_of_slots := 2 }]).1 ∧
    List.Pairwise (fun a b => a.pos_begin < b.pos_begin)
      ((Role.writer 512).ReserveRun 0
        [{ claim_at_load := 0, other_cursor_seq := 0, no_of_slots := 1 },
         { claim_at_load := 0, other_cursor_seq := 0, no_of_slots := 1 },
         { claim_at_load := 1, other_cursor_seq := 0, no_of_slots := 2 }]).1 :=
  ⟨(reservation_disjointness (Role.writer 512)
      [{ claim_at_load := 0, other_cursor_seq := 0, no_of_slots := 1 },
       { claim_at_load := 0, other_cursor_seq := 0, no_of_slots := 1 },
       { claim_at_load := 1, other_cursor_seq := 0, no_of_slots := 2 }] 0).1,
    (((reservation_disjointness (Role.writer 512)
      [{ claim_at_load := 0, other_cursor_seq := 0, no_of_slots := 1 },
       { claim_at_load := 0, other_cursor_seq := 0, no_of_slots := 1 },
       { claim_at_load := 1, other_cursor_seq := 0, no_of_slots := 2 }] 0).2.2.2
        (by decide)).2.2 (by decide)).2⟩

/-- The run of the witness of C11 evaluated. -/
theorem reservation_run_example :
    (Role.writer 512).ReserveRun 0
        [{ claim_at_load := 0, other_cursor_seq := 0, no_of_slots := 1 },
         { claim_at_load := 0, other_cursor_seq := 0, no_of_slots := 1 },
         { claim_at_load := 1, other_cursor_seq := 0, no_of_slots := 2 }] =
      ([{ pos_begin := 0, pos_end := 1, err := false },
        { pos_begin := 1, pos_end := 3, err := false }], 3) := by
  decide

end disruptor

namespace disruptor

/-! ## What `ReaderWriter::Write` does -/

theorem WriteCursor_ReservePass_ret_error (N e r k c : Nat) (info : ReservationInfo)
    (h : WriteCursor.ReservePass N e r k c = PassResult.ret_error info) :
    info = { pos_begin := 0, pos_end := 0, err := true } := by
  simp only [WriteCursor.ReservePass, WriteCursor.wait_for_available_space] at h
  by_cases h1 : e < r
  · simp only [h1, if_true, PassResult.ret_error.injEq] at h
    exact h.symm
  · by_cases h2 : size_sub N (size_sub e r) = 0
    · simp [h1, h2] at h
    · by_cases h3 : c = e
      · simp [h1, h2, h3, compare_exchange] at h
      · simp [h1, h2, h3, compare_exchange] at h

/-- A returned `WriteCursor::Reserve`: either the error reservation with the
cursor untouched, or a grant of between one (when one was asked for) and
`no_of_slots` slots from the claim, which is raised to `pos_end`. -/
theorem WriteCursor_Reserve_some (fuel N : Nat) (wc rc : Cursor) (k : Nat)
    (info : ReservationInfo) (wc2 : Cursor)
    (h : WriteCursor.Reserve fuel N wc rc k = some (info, wc2)) :
    (info = { pos_begin := 0, pos_end := 0, err := true } ∧ wc2 = wc ∧
      wc.claim_sequence_ < rc.GetCursor) ∨
    (∃ m, m ≤ k ∧ (1 ≤ k → 1 ≤ m) ∧
      info = { pos_begin := wc.claim_sequence_,
               pos_end := size_add wc.claim_sequence_ m, err := false } ∧
      wc2 = { wc with claim_sequence_ := size_add wc.claim_sequence_ m }) := by
  induction fuel with
  | zero => simp [WriteCursor.Reserve] at h
  | succ fuel ih =>
    unfold WriteCursor.Reserve at h
    cases hp : WriteCursor.ReservePass N wc.claim_sequence_ rc.GetCursor k
        wc.claim_sequence_ with
    | ret_error i2 =>
      rw [hp] at h
      simp only [Option.some.injEq, Prod.mk.injEq] at h
      have hi := WriteCursor_ReservePass_ret_error N _ _ k _ i2 hp
      left
      refine ⟨by rw [← h.1, hi], h.2.symm, ?_⟩
      by_contra hlt
      have hge : rc.GetCursor ≤ wc.claim_sequence_ := Nat.le_of_not_lt hlt
      simp only [WriteCursor.ReservePass, WriteCursor.wait_for_available_space,
        Nat.not_lt.mpr hge, if_false] at hp
      by_cases h2 : size_sub N (size_sub wc.claim_sequence_ rc.GetCursor) = 0
      · simp [h2] at hp
      · simp [h2, compare_exchange] at hp
    | spin => rw [hp] at h; exact ih h
    | cas_failed => rw [hp] at h; exact ih h
    | reserved i2 c =>
      rw [hp] at h
      simp only [Option.some.injEq, Prod.mk.injEq] at h
      obtain ⟨_, m, hm1, hm2, hinfo, hc⟩ := WriteCursor_PassGrants N
        { claim_at_load := wc.claim_sequence_, other_cursor_seq := rc.GetCursor,
          no_of_slots := k } wc.claim_sequence_ i2 c hp
      right
      exact ⟨m, hm1, hm2, by rw [← h.1, hinfo], by rw [← h.2, hc]⟩

theorem WriteCursor_Reserve_overrun (fuel N : Nat) (wc rc : Cursor) (k : Nat)
    (h : wc.claim_sequence_ < rc.GetCursor) :
    WriteCursor.Reserve (fuel + 1) N wc rc k =
      some ({ pos_begin := 0, pos_end := 0, err := true }, wc) := by
  unfold WriteCursor.Reserve
  rw [WriteCursor_ReservePass_overrun N _ _ k _ h]

theorem Write_data_at {Elem : Type} [Inhabited Elem] (k : Nat) (b : RingBuffer Elem (2 ^ k))
    (hlen : b.buffer_.length = 2 ^ k) (slot : Nat) (data : Elem) (is_eof : Bool) :
    ((WriteCursor.Write b slot data is_eof).at slot).data = data ∧
    (is_eof = true → ((WriteCursor.Write b slot data is_eof).at slot).is_eof = true) := by
  have hidx : RingBuffer.GetBufferIDx (2 ^ k) slot < b.buffer_.length := by
    unfold RingBuffer.GetBufferIDx
    rw [Nat.and_pow_two_sub_one_eq_mod, hlen]
    exact Nat.mod_lt _ (Nat.pos_pow_of_pos k (by decide))
  cases is_eof <;>
    simp [WriteCursor.Write, RingBuffer.at, RingBuffer.set_at, Sequence.data, Sequence.is_eof,
      Sequence.set_eof, List.getD_eq_getElem?_getD, List.getElem?_set, hidx]

end disruptor

namespace disruptor

/-- C16 (what `ReaderWriter::Write` returns). Whenever a call of `Write`
returns, the single-slot write reservation has returned, and the flag is true
exactly when that reservation has `err = true`. In that case the pair (ring,
claim sequences, engines) is left as it was. Otherwise the flag is false, the
reservation is `[pos_begin, pos_begin + 1)` (in `size_t` arithmetic) from the
write claim, the ring is the ring after `WriteCursor::Write` at `pos_begin`,
the write cursor is the one left by `Publish` of exactly that range, and the
read cursor is untouched; on a ring that passes the `static_assert` the slot
`at pos_begin` then holds the value. A call that finds the write claim below
the read-visible cursor returns true on its first pass; a call made by a
single thread on a pair that has taken fewer than `N` writes and no read
returns false on its first pass. -/
theorem write_returns_error_flag (Elem : Type) [Inhabited Elem] (N fuel : Nat)
    (rw : ReaderWriter Elem N) (data : Elem) (is_eof : Bool) :
    (∀ (flag : Bool) (rw2 : ReaderWriter Elem N),
      ReaderWriter.Write fuel rw data is_eof = some (flag, rw2) →
      ∃ (info : ReservationInfo) (wc : Cursor),
        WriteCursor.Reserve fuel N rw.write_cursor_ rw.read_cursor_ 1 = some (info, wc) ∧
        flag = info.err ∧
        (info.err = true → rw2 = rw) ∧
        (info.err = false →
          info.pos_begin = rw.write_cursor_.claim_sequence_ ∧
          info.pos_end = size_add info.pos_begin 1 ∧
          wc = { rw.write_cursor_ with claim_sequence_ := info.pos_end } ∧
          rw2.buffer_ = WriteCursor.Write rw.buffer_ info.pos_begin data is_eof ∧
          Cursor.Publish fuel wc info.pos_begin info.pos_end = some rw2.write_cursor_ ∧
          rw2.read_cursor_ = rw.read_cursor_ ∧
          (RingBuffer.static_assert N = true → rw.buffer_.buffer_.length = N →
            (rw2.buffer_.at info.pos_begin).data = data))) ∧
    (rw.write_cursor_.claim_sequence_ < rw.read_cursor_.GetCursor →
      ReaderWriter.Write (fuel + 1) rw data is_eof = some (true, rw)) ∧
    (∀ (k : Nat) (WP RP : PublishPolicy) (pre : List (Elem × Bool)),
      2 ^ k < SIZE_MOD → pre.length < 2 ^ k →
      ReaderWriter.Write (fuel + 1) (writtenState (2 ^ k) WP RP pre) data is_eof =
        some (false, writtenState (2 ^ k) WP RP (pre ++ [(data, is_eof)]))) := by
  refine ⟨?_, ?_, fun k WP RP pre hk hlen => Write_written k WP RP fuel pre data is_eof hk hlen⟩
  · intro flag rw2 h
    unfold ReaderWriter.Write at h
    cases hr : WriteCursor.Reserve fuel N rw.write_cursor_ rw.read_cursor_ 1 with
    | none => rw [hr] at h; exact absurd h (by simp)
    | some v =>
      obtain ⟨info, wc⟩ := v
      rw [hr] at h
      refine ⟨info, wc, rfl, ?_⟩
      rcases WriteCursor_Reserve_some fuel N _ _ 1 info wc hr with ⟨hi, hwc, _⟩ | ⟨m, hm1, hm2, hi, hwc⟩
      · subst hi hwc
        simp only [if_true, Option.some.injEq, Prod.mk.injEq] at h
        refine ⟨h.1.symm, fun _ => h.2.symm, fun hf => absurd hf (by simp)⟩
      · have hm : m = 1 := by have := hm2 (le_refl 1); omega
        subst hm
        subst hi
        simp only [Bool.false_eq_true, if_false] at h
        cases hpub : Cursor.Publish fuel wc rw.write_cursor_.claim_sequence_
            (size_add rw.write_cursor_.claim_sequence_ 1) with
        | none => rw [hpub] at h; exact absurd h (by simp)
        | some wc3 =>
          rw [hpub] at h
          simp only [Option.some.injEq, Prod.mk.injEq] at h
          obtain ⟨h1, h2⟩ := h
          subst h2
          refine ⟨h1.symm, fun hf => absurd hf (by simp), fun _ => ⟨rfl, rfl, hwc, rfl, rfl, rfl, ?_⟩⟩
          intro hN hlen
          obtain ⟨k, rfl⟩ := (static_assert_iff N).mp hN
          exact (Write_data_at k rw.buffer_ hlen _ data is_eof).1
  · intro hlt
    unfold ReaderWriter.Write
    rw [WriteCursor_Reserve_overrun fuel N _ _ 1 hlt]
    rfl

/-- Witness of C16: on a pair whose write claim 3 is below the read-visible
cursor 5 the call returns true and leaves the pair as it was. -/
theorem write_returns_error_flag_witness :
    ReaderWriter.Write (0 + 1)
        ({ buffer_ := RingBuffer.init 8,
           write_cursor_ := { cursor_updater_ := CursorUpdateHelper.BLOCK { cursor_ := 3 },
                              claim_sequence_ := 3 },
           read_cursor_ := { cursor_updater_ := CursorUpdateHelper.BLOCK { cursor_ := 5 },
                             claim_sequence_ := 5 } } : ReaderWriter Nat 8) 7 false =
      some (true,
        { buffer_ := RingBuffer.init 8,
          write_cursor_ := { cursor_updater_ := CursorUpdateHelper.BLOCK { cursor_ := 3 },
                             claim_sequence_ := 3 },
          read_cursor_ := { cursor_updater_ := CursorUpdateHelper.BLOCK { cursor_ := 5 },
                            claim_sequence_ := 5 } }) :=
  (write_returns_error_flag Nat 8 0
    { buffer_ := RingBuffer.init 8,
      write_cursor_ := { cursor_updater_ := CursorUpdateHelper.BLOCK { cursor_ := 3 },
                         claim_sequence_ := 3 },
      read_cursor_ := { cursor_updater_ := CursorUpdateHelper.BLOCK { cursor_ := 5 },
                        claim_sequence_ := 5 } } 7 false).2.1 (by decide)

end disruptor

namespace disruptor

/-! ## Reset -/

theorem BufferedHelper_Reset_eq (h : BufferedHelper)
    (hlen : h.unprocessed_reservations_.length = LIM) : h.Reset = {} := by
  unfold BufferedHelper.Reset
  congr 1
  rw [← hlen]
  exact List.map_const' _ _

theorem Cursor_Reset_eq_init (c : Cursor) (h : c.cursor_updater_.table_size_ok) :
    c.Reset = Cursor.init c.cursor_updater_.policy := by
  obtain ⟨u, cl⟩ := c
  cases u with
  | BUFFERED hb =>
    have := BufferedHelper_Reset_eq hb h
    simp only [Cursor.Reset, CursorUpdateHelper.Reset, Cursor.init, CursorUpdateHelper.init,
      CursorUpdateHelper.policy, this]
  | BLOCK hb => rfl

theorem init_eq_engineAt (P : PublishPolicy) :
    Cursor.init P = { cursor_updater_ := engineAt P 0, claim_sequence_ := 0 } := by
  cases P <;> rfl

/-- A `Write` on a pair whose write cursor stands at `i` with nothing pending
and whose read cursor is untouched, whatever the ring holds. -/
theorem Write_engineAt {Elem : Type} [Inhabited Elem] (N : Nat) (WP RP : PublishPolicy)
    (fuel i : Nat) (b : RingBuffer Elem N) (v : Elem) (f : Bool)
    (hN : N < SIZE_MOD) (hi : i < N) :
    ReaderWriter.Write (fuel + 1)
        { buffer_ := b,
          write_cursor_ := { cursor_updater_ := engineAt WP i, claim_sequence_ := i },
          read_cursor_ := Cursor.init RP } v f =
      some (false,
        { buffer_ := WriteCursor.Write b i v f,
          write_cursor_ := { cursor_updater_ := engineAt WP (i + 1), claim_sequence_ := i + 1 },
          read_cursor_ := Cursor.init RP }) := by
  unfold ReaderWriter.Write
  simp only [Reserve_engineAt WP RP fuel N i hN hi, Publish_engineAt]
  simp

theorem WriteAll_engineAt {Elem : Type} [Inhabited Elem] (N : Nat) (WP RP : PublishPolicy)
    (fuel : Nat) (hN : N < SIZE_MOD) (vs : List (Elem × Bool)) :
    ∀ (i : Nat) (b : RingBuffer Elem N), i + vs.length ≤ N →
      ∃ b2 : RingBuffer Elem N,
        ReaderWriter.WriteAll (fuel + 1)
            { buffer_ := b,
              write_cursor_ := { cursor_updater_ := engineAt WP i, claim_sequence_ := i },
              read_cursor_ := Cursor.init RP } vs =
          some (List.replicate vs.length false,
            { buffer_ := b2,
              write_cursor_ := { cursor_updater_ := engineAt WP (i + vs.length),
                                 claim_sequence_ := (i + vs.length) },
              read_cursor_ := Cursor.init RP }) := by
  induction vs with
  | nil => intro i b _; exact ⟨b, by simp [ReaderWriter.WriteAll]⟩
  | cons x vs ih =>
    intro i b hlen
    obtain ⟨v, f⟩ := x
    simp only [List.length_cons] at hlen
    obtain ⟨b2, hb2⟩ := ih (i + 1) (WriteCursor.Write b i v f) (by omega)
    refine ⟨b2, ?_⟩
    unfold ReaderWriter.WriteAll
    rw [Write_engineAt N WP RP fuel i b v f hN (by omega)]
    simp only
    rw [hb2]
    simp only [List.length_cons, List.replicate_succ,
      show i + 1 + vs.length = i + (vs.length + 1) by omega]

end disruptor

namespace disruptor

theorem UpdateCursorAll_unit_any_order (n : Nat) (hn : n ≤ LIM) (order : List Nat)
    (hperm : order.Perm (List.range n)) :
    (({} : BufferedHelper).UpdateCursorAll (order.map fun i => (i, i + 1))).1 =
        List.replicate n PublishUpdateStatus.SUCCESS ∧
      (({} : BufferedHelper).UpdateCursorAll (order.map fun i => (i, i + 1))).2.cursor_ = n := by
  have hmono : ∀ i j, i < j → j ≤ n → (fun x : Nat => x) i < (fun x : Nat => x) j :=
    fun i j h _ => h
  have hmem : ∀ i, i ∈ order ↔ i < n := fun i => by rw [hperm.mem_iff, List.mem_range]
  have hP : pendingEntries ({} : BufferedHelper).unprocessed_reservations_ =
      ((Finset.range n).filter (fun i => 0 < i ∧ i ∉ order)).val.map
        (fun i => ((fun x : Nat => x) i, (fun x : Nat => x) (i + 1))) := by
    rw [(pendingEntries_eq_zero_iff _).mpr fresh_uninit]
    have : (Finset.range n).filter (fun i => 0 < i ∧ i ∉ order) = ∅ := by
      apply Finset.filter_false_of_mem
      intro i hi h
      exact h.2 ((hmem i).mpr (Finset.mem_range.mp hi))
    rw [this]
    rfl
  obtain ⟨b1, b2, _⟩ := UpdateCursorAll_any_order n (fun x => x) hn hmono order {} 0
    (by omega) rfl (by simp) (hperm.nodup_iff.mpr (List.nodup_range n))
    (fun i hi => ⟨by omega, (hmem i).mp hi⟩) (fun h => (hmem 0).mpr h) hP
  refine ⟨?_, b2⟩
  rw [hperm.length_eq, List.length_range] at b1
  exact b1

/-- C17 (`Reset` returns to the initial condition). From every state of the
pair (the pending table of a Buffered engine having its `LIM` entries), after
`ReaderWriter::Reset` each cursor equals the freshly constructed cursor of
its policy: both visible cursors are 0, both claim sequences are 0 and every
pending-table entry is uninitialised; the ring is not touched. So `n ≤ N`
single-slot writes by one thread after the reset all return false and leave
the write-visible cursor at `n`; and when `n` writers have reserved the
ranges `[i, i+1)`, their publishes on the reset write engine end with the
cursor at `n` in whatever order they are applied (Buffered, `n ≤ LIM`) or
attempted (Block, `n` rounds of attempts). -/
theorem reset_returns_to_initial (Elem : Type) [Inhabited Elem] (N : Nat)
    (rw : ReaderWriter Elem N)
    (hw : rw.write_cursor_.cursor_updater_.table_size_ok)
    (hr : rw.read_cursor_.cursor_updater_.table_size_ok) :
    rw.Reset.write_cursor_ = Cursor.init rw.write_cursor_.cursor_updater_.policy ∧
    rw.Reset.read_cursor_ = Cursor.init rw.read_cursor_.cursor_updater_.policy ∧
    rw.Reset.buffer_ = rw.buffer_ ∧
    rw.Reset.write_cursor_.GetCursor = 0 ∧ rw.Reset.read_cursor_.GetCursor = 0 ∧
    rw.Reset.write_cursor_.claim_sequence_ = 0 ∧ rw.Reset.read_cursor_.claim_sequence_ = 0 ∧
    (∀ h : BufferedHelper,
      (rw.Reset.write_cursor_.cursor_updater_ = CursorUpdateHelper.BUFFERED h ∨
        rw.Reset.read_cursor_.cursor_updater_ = CursorUpdateHelper.BUFFERED h) →
      h = {} ∧ ∀ r ∈ h.unprocessed_reservations_, r.is_initialised = false) ∧
    (N < SIZE_MOD → ∀ (fuel : Nat) (vs : List (Elem × Bool)), vs.length ≤ N →
      ∃ rw2 : ReaderWriter Elem N,
        ReaderWriter.WriteAll (fuel + 1) rw.Reset vs =
          some (List.replicate vs.length false, rw2) ∧
        rw2.GetWriteCursor = vs.length) ∧
    (∀ h : BufferedHelper,
      rw.Reset.write_cursor_.cursor_updater_ = CursorUpdateHelper.BUFFERED h →
      ∀ (n : Nat) (order : List Nat), n ≤ LIM → order.Perm (List.range n) →
        (h.UpdateCursorAll (order.map fun i => (i, i + 1))).1 =
          List.replicate n PublishUpdateStatus.SUCCESS ∧
        (h.UpdateCursorAll (order.map fun i => (i, i + 1))).2.cursor = n) ∧
    (∀ h : BlockHelper,
      rw.Reset.write_cursor_.cursor_updater_ = CursorUpdateHelper.BLOCK h →
      ∀ (n : Nat) (order : List Nat), order.Perm (List.range n) →
        (BlockHelper.PublishRun (fun i => i) h []
          (List.flatten (List.replicate n order))).2.cursor = n) := by
  have h1 : rw.Reset.write_cursor_ = Cursor.init rw.write_cursor_.cursor_updater_.policy :=
    Cursor_Reset_eq_init rw.write_cursor_ hw
  have h2 : rw.Reset.read_cursor_ = Cursor.init rw.read_cursor_.cursor_updater_.policy :=
    Cursor_Reset_eq_init rw.read_cursor_ hr
  have hbuf : ∀ (P : PublishPolicy) (h : BufferedHelper),
      (Cursor.init P).cursor_updater_ = CursorUpdateHelper.BUFFERED h → h = {} := by
    intro P h hh
    cases P with
    | BUFFERED =>
      simp only [Cursor.init, CursorUpdateHelper.init, CursorUpdateHelper.BUFFERED.injEq] at hh
      exact hh.symm
    | BLOCK => simp [Cursor.init, CursorUpdateHelper.init] at hh
  have hblk : ∀ (P : PublishPolicy) (h : BlockHelper),
      (Cursor.init P).cursor_updater_ = CursorUpdateHelper.BLOCK h → h = { cursor_ := 0 } := by
    intro P h hh
    cases P with
    | BUFFERED => simp [Cursor.init, CursorUpdateHelper.init] at hh
    | BLOCK =>
      simp only [Cursor.init, CursorUpdateHelper.init, CursorUpdateHelper.BLOCK.injEq] at hh
      exact hh.symm
  refine ⟨h1, h2, rfl, by rw [h1, init_GetCursor], by rw [h2, init_GetCursor],
    by rw [h1]; rfl, by rw [h2]; rfl, ?_, ?_, ?_, ?_⟩
  · intro h hh
    have he : h = {} := by
      rcases hh with hh | hh
      · rw [h1] at hh; exact hbuf _ h hh
      · rw [h2] at hh; exact hbuf _ h hh
    subst he
    exact ⟨rfl, fresh_uninit⟩
  · intro hN fuel vs hlen
    obtain ⟨b2, hb2⟩ := WriteAll_engineAt N rw.write_cursor_.cursor_updater_.policy
      rw.read_cursor_.cursor_updater_.policy fuel hN vs 0 rw.buffer_ (by omega)
    have hst : rw.Reset =
        ReaderWriter.mk rw.buffer_
          (Cursor.mk (engineAt rw.write_cursor_.cursor_updater_.policy 0) 0)
          (Cursor.init rw.read_cursor_.cursor_updater_.policy) := by
      show ReaderWriter.mk rw.buffer_ rw.write_cursor_.Reset rw.read_cursor_.Reset = _
      rw [Cursor_Reset_eq_init _ hw, Cursor_Reset_eq_init _ hr,
        init_eq_engineAt rw.write_cursor_.cursor_updater_.policy]
    rw [hst, hb2]
    refine ⟨_, rfl, ?_⟩
    simp only [ReaderWriter.GetWriteCursor, Cursor.GetCursor, engineAt_cursor]
    omega
  · intro h hh n order hn hperm
    rw [h1] at hh
    have he := hbuf _ h hh
    subst he
    exact UpdateCursorAll_unit_any_order n hn order hperm
  · intro h hh n order hperm
    rw [h1] at hh
    have he := hblk _ h hh
    subst he
    obtain ⟨k, b1, b2, b3⟩ := PublishRun_rounds n (fun i => i) (fun i j h _ => h) order hperm n
      0 [] (by omega) (fun i => by simp)
    have hk : k = n := by
      rw [Nat.sub_zero, Nat.min_self] at b2
      omega
    subst hk
    have hb : BlockHelper.PublishRun (fun i => i) { cursor_ := 0 } []
        (List.flatten (List.replicate k order)) =
        (List.map (fun i => (i, i + 1)) (List.range' 0 k), { cursor_ := 0 + k }) := b3
    rw [hb]
    show 0 + k = k
    omega

end disruptor

namespace disruptor

/-- Witness of C17 (the test `Writer Performance Tests`): after the reset of
a used pair the write cursor is the freshly constructed one, and five writes
leave the write-visible cursor at 5. -/
theorem reset_returns_to_initial_witness :
    usedPair.Reset.write_cursor_ = Cursor.init usedPair.write_cursor_.cursor_updater_.policy ∧
    ∃ rw2 : ReaderWriter Nat 512,
      ReaderWriter.WriteAll (0 + 1) usedPair.Reset
          [(10, false), (11, false), (12, false), (13, false), (14, false)] =
        some (List.replicate
          [((10 : Nat), false), (11, false), (12, false), (13, false), (14, false)].length
          false, rw2) ∧
      rw2.GetWriteCursor =
        [((10 : Nat), false), (11, false), (12, false), (13, false), (14, false)].length :=
  ⟨(reset_returns_to_initial Nat 512 usedPair (by show List.length _ = LIM; decide)
      (by show List.length _ = LIM; decide)).1,
    (reset_returns_to_initial Nat 512 usedPair (by show List.length _ = LIM; decide)
      (by show List.length _ = LIM; decide)).2.2.2.2.2.2.2.2.1
      (by decide) 0 [(10, false), (11, false), (12, false), (13, false), (14, false)]
      (by decide)⟩

end disruptor

namespace disruptor

/-! ## Slot addressing and the iterator pair -/

theorem GetBufferIDx_eq_mod (k seq : Nat) : RingBuffer.GetBufferIDx (2 ^ k) seq = seq % 2 ^ k := by
  unfold RingBuffer.GetBufferIDx
  exact Nat.and_pow_two_sub_one_eq_mod seq k

/-- C18 (slot addressing). For every ring capacity `N` accepted by the
`static_assert` (the non-zero powers of two) and every sequence number `seq`,
`GetBufferIDx seq` is `seq AND (N-1)`, equals `seq mod N` and is strictly
less than `N`; and `at seq` is the slot record stored at that index of the
array of `N` records. -/
theorem slot_addressing (Elem : Type) [Inhabited Elem] (N : Nat)
    (hN : RingBuffer.static_assert N = true) (seq : Nat) (b : RingBuffer Elem N) :
    RingBuffer.GetBufferIDx N seq = seq &&& (N - 1) ∧
    RingBuffer.GetBufferIDx N seq = seq % N ∧
    RingBuffer.GetBufferIDx N seq < N ∧
    (b.buffer_.length = N →
      ∃ h : RingBuffer.GetBufferIDx N seq < b.buffer_.length,
        b.at seq = b.buffer_.get ⟨RingBuffer.GetBufferIDx N seq, h⟩) := by
  obtain ⟨k, rfl⟩ := (static_assert_iff N).mp hN
  have hpos : 0 < 2 ^ k := Nat.pos_pow_of_pos k (by decide)
  have hlt : RingBuffer.GetBufferIDx (2 ^ k) seq < 2 ^ k := by
    rw [GetBufferIDx_eq_mod]
    exact Nat.mod_lt _ hpos
  refine ⟨rfl, GetBufferIDx_eq_mod k seq, hlt, ?_⟩
  intro hlen
  refine ⟨by rw [hlen]; exact hlt, ?_⟩
  unfold RingBuffer.at
  rw [List.getD_eq_getElem _ _ (by rw [hlen]; exact hlt)]
  rfl

/-- Witness of C18: capacity 512, sequence 1000 is slot 488. -/
theorem slot_addressing_witness :
    RingBuffer.GetBufferIDx 512 1000 = 1000 % 512 ∧ RingBuffer.GetBufferIDx 512 1000 < 512 :=
  ⟨(slot_addressing Nat 512 (by decide) 1000 (RingBuffer.init 512)).2.1,
    (slot_addressing Nat 512 (by decide) 1000 (RingBuffer.init 512)).2.2.1⟩

theorem GetIterator_next {Elem : Type} (k : Nat) (hk : 2 ^ k < SIZE_MOD)
    (b : RingBuffer Elem (2 ^ k)) (pos : Nat) :
    (b.GetIterator pos).next (2 ^ k) = b.GetIterator (pos + 1) := by
  have hpos : 0 < 2 ^ k := Nat.pos_pow_of_pos k (by decide)
  have hlt : pos % 2 ^ k < 2 ^ k := Nat.mod_lt _ hpos
  simp only [RingBuffer.GetIterator, RingIterator.next, GetBufferIDx_eq_mod]
  rw [size_add_of_lt _ _ (by omega), Nat.mod_add_mod]

theorem mod_add_ne (N r d : Nat) (hr : r < N) (hd1 : 0 < d) (hd2 : d < N) :
    r ≠ (r + d) % N := by
  intro h
  rcases Nat.lt_or_ge (r + d) N with h2 | h2
  · rw [Nat.mod_eq_of_lt h2] at h
    omega
  · rw [Nat.mod_eq_sub_mod h2, Nat.mod_eq_of_lt (by omega)] at h
    omega

theorem GetIterator_ne {Elem : Type} (k : Nat) (b : RingBuffer Elem (2 ^ k)) (pos d : Nat)
    (hd1 : 0 < d) (hd2 : d < 2 ^ k) : b.GetIterator pos ≠ b.GetIterator (pos + d) := by
  intro h
  simp only [RingBuffer.GetIterator, GetBufferIDx_eq_mod, RingIterator.mk.injEq, true_and] at h
  rw [← Nat.mod_add_mod pos (2 ^ k) d] at h
  exact mod_add_ne (2 ^ k) (pos % 2 ^ k) d (Nat.mod_lt _ (Nat.pos_pow_of_pos k (by decide)))
    hd1 hd2 h

/-- A range shorter than the ring: the loop over its iterator pair visits the
slots of its sequences in order. -/
theorem walk_covers {Elem : Type} (k : Nat) (hk : 2 ^ k < SIZE_MOD)
    (b : RingBuffer Elem (2 ^ k)) (len : Nat) :
    ∀ (pos fuel : Nat), len < 2 ^ k → len < fuel →
      RingIterator.walk (2 ^ k) fuel (b.GetIterator pos) (b.GetIterator (pos + len)) =
        some ((List.range len).map (fun i => RingBuffer.GetBufferIDx (2 ^ k) (pos + i))) := by
  induction len with
  | zero =>
    intro pos fuel _ hf
    cases fuel with
    | zero => omega
    | succ fuel => simp [RingIterator.walk]
  | succ len ih =>
    intro pos fuel hlen hf
    cases fuel with
    | zero => omega
    | succ fuel =>
      unfold RingIterator.walk
      rw [if_neg (GetIterator_ne k b pos (len + 1) (by omega) hlen), GetIterator_next k hk]
      have := ih (pos + 1) fuel (by omega) (by omega)
      rw [show pos + 1 + len = pos + (len + 1) by omega] at this
      rw [this]
      simp only [List.range_succ_eq_map, List.map_cons, List.map_map, Nat.add_zero]
      congr 2
      apply List.map_congr_left
      intro i _
      simp only [Function.comp]
      congr 1
      omega

/-- A range as long as the ring: the two iterators of the pair are equal and
the loop visits no slot. -/
theorem walk_full_ring {Elem : Type} (k : Nat) (b : RingBuffer Elem (2 ^ k)) (pos fuel : Nat) :
    b.GetIterator pos = b.GetIterator (pos + 2 ^ k) ∧
    RingIterator.walk (2 ^ k) (fuel + 1) (b.GetIterator pos) (b.GetIterator (pos + 2 ^ k)) =
      some [] := by
  have h : b.GetIterator pos = b.GetIterator (pos + 2 ^ k) := by
    simp only [RingBuffer.GetIterator, GetBufferIDx_eq_mod, Nat.add_mod_right]
  refine ⟨h, ?_⟩
  unfold RingIterator.walk
  rw [if_pos h]

end disruptor

namespace disruptor

/-- C19 evaluated on a range as long as the ring. On a fresh disruptor of 512
slots, 512 writes fill the ring; `Read 512` then returns `err = false` for
the range `[0, 512)`, but the two iterators of the result are equal, and the
reader's loop over the pair visits no slot instead of the 512 reserved
ones. -/
theorem iterator_pair_full_ring :
    ∃ (rw1 rw2 : ReaderWriter Nat (2 ^ 9)) (res : ReadResult),
      ReaderWriter.WriteAll 1
          (MakeSingleDisruptor Nat (2 ^ 9) PublishPolicy.BLOCK PublishPolicy.BUFFERED)
          ((List.range 512).map fun i => (i, false)) =
        some (List.replicate 512 false, rw1) ∧
      ReaderWriter.Read 1 rw1 512 = some (res, rw2) ∧
      res.err = false ∧ res.start_ = 0 ∧ res.end_ = 512 ∧
      res.begin_iter = res.end_iter ∧
      ∀ fuel : Nat,
        RingIterator.walk (2 ^ 9) (fuel + 1) res.begin_iter res.end_iter = some [] := by
  have hlen : ((List.range 512).map fun i => (i, false)).length = 512 := by simp
  have hW := WriteAll_written 9 PublishPolicy.BLOCK PublishPolicy.BUFFERED 0 (by decide)
    ((List.range 512).map fun i => (i, false)) [] (by rw [hlen]; decide)
  rw [← writtenState_nil, List.nil_append, hlen] at hW
  have hR := ReaderWriter_Read_granted 0
    (writtenState (2 ^ 9) PublishPolicy.BLOCK PublishPolicy.BUFFERED
      ((List.range 512).map fun i => (i, false))) 512
    (by rw [writtenState_GetCursor, hlen]; decide)
    (by rw [writtenState_GetCursor, writtenState_read_claim, hlen]; decide)
  rw [writtenState_GetCursor, writtenState_read_claim, hlen] at hR
  have hm : 0 + min (512 - 0) 512 = 512 := by decide
  rw [hm] at hR
  have hfull := walk_full_ring 9
    (writtenState (2 ^ 9) PublishPolicy.BLOCK PublishPolicy.BUFFERED
      ((List.range 512).map fun i => (i, false))).buffer_ 0
  have h512 : 0 + 2 ^ 9 = 512 := by decide
  rw [h512] at hfull
  exact ⟨_, _, _, hW, hR, rfl, rfl, rfl, (hfull 0).1, fun fuel => (hfull fuel).2⟩

end disruptor

namespace barrier

/-! ## The rendezvous barrier -/

theorem init_generation_start (count : Nat) (hc : count < 2147483648) :
    (Barrier.init count).generation_start count := by
  refine ⟨?_, ?_, ?_⟩
  · show (-2147483648 : Int) ≤ 0
    omega
  · show (0 : Int) < 2147483648
    omega
  · show (count : Int) = int_wrap (0 + count)
    unfold int_wrap
    omega

/-- An arrival that finds `d + 2` parties still missing is not the last. -/
theorem Arrive_not_last (count : Nat) (g : Int) (d : Nat)
    (hd : d + 2 ≤ count) (hc : count < 2147483648) :
    Barrier.Arrive count { go_signal_ := g, current_ := int_wrap (g + ((d + 2 : Nat) : Int)) } =
      ({ current_seq := int_wrap (g + ((d + 1 : Nat) : Int)), last := false },
        { go_signal_ := g, current_ := int_wrap (g + ((d + 1 : Nat) : Int)) }) := by
  have h1 : int_wrap (int_wrap (g + ((d + 2 : Nat) : Int)) - 1) =
      int_wrap (g + ((d + 1 : Nat) : Int)) := by
    unfold int_wrap
    push_cast
    omega
  have h2 : int_wrap (g + ((d + 1 : Nat) : Int)) ≠ g := by
    unfold int_wrap
    push_cast
    omega
  simp only [Barrier.Arrive, h1, h2, if_false]

/-- The arrival that finds one party missing is the last one and starts the
next generation. -/
theorem Arrive_last (count : Nat) (g : Int) (hg1 : -2147483648 ≤ g) (hg2 : g < 2147483648) :
    Barrier.Arrive count { go_signal_ := g, current_ := int_wrap (g + ((1 : Nat) : Int)) } =
      ({ current_seq := g, last := true },
        { go_signal_ := int_wrap (g + count), current_ := int_wrap (2 * count + g) }) := by
  have h1 : int_wrap (int_wrap (g + ((1 : Nat) : Int)) - 1) = g := by
    unfold int_wrap
    push_cast
    omega
  simp only [Barrier.Arrive, h1, if_true]

end barrier

namespace barrier

theorem int_wrap_of_range (g : Int) (hg1 : -2147483648 ≤ g) (hg2 : g < 2147483648) :
    int_wrap g = g := by
  unfold int_wrap
  omega

theorem int_wrap_range (x : Int) : -2147483648 ≤ int_wrap x ∧ int_wrap x < 2147483648 := by
  unfold int_wrap
  omega

theorem ArriveAll_succ (count n : Nat) (b : Barrier) :
    Barrier.ArriveAll count (n + 1) b =
      ((b.Arrive count).1 :: (Barrier.ArriveAll count n (b.Arrive count).2).1,
        (Barrier.ArriveAll count n (b.Arrive count).2).2) := rfl

/-- The arrivals of one generation, from the state in which `d + 1` parties
are still missing: the `i`-th of them obtains `g + (d - i)`, only the last
one takes the branch of the last arriver, and the next generation starts. -/
theorem ArriveAll_generation (count : Nat) (g : Int) (hg1 : -2147483648 ≤ g)
    (hg2 : g < 2147483648) (hc : count < 2147483648) (d : Nat) :
    d + 1 ≤ count →
    Barrier.ArriveAll count (d + 1)
        { go_signal_ := g, current_ := int_wrap (g + ((d + 1 : Nat) : Int)) } =
      ((List.range (d + 1)).map
          (fun i => ({ current_seq := int_wrap (g + ((d - i : Nat) : Int)),
                       last := decide (i = d) } : Arrival)),
        { go_signal_ := int_wrap (g + count), current_ := int_wrap (2 * count + g) }) := by
  induction d with
  | zero =>
    intro _
    rw [ArriveAll_succ, Arrive_last count g hg1 hg2]
    simp [Barrier.ArriveAll, int_wrap_of_range g hg1 hg2, List.range_succ]
  | succ d ih =>
    intro hd
    rw [ArriveAll_succ, Arrive_not_last count g d hd hc]
    simp only
    rw [ih (by omega), List.range_succ_eq_map (d + 1), List.map_cons, List.map_map]
    congr 1
    congr 1
    apply List.map_congr_left
    intro i _
    simp only [Function.comp, Nat.succ_eq_add_one, Nat.add_sub_add_right, Nat.add_right_cancel_iff]

theorem ArriveAll_add (count a n : Nat) :
    ∀ b : Barrier,
      Barrier.ArriveAll count (a + n) b =
        ((Barrier.ArriveAll count a b).1 ++
            (Barrier.ArriveAll count n (Barrier.ArriveAll count a b).2).1,
          (Barrier.ArriveAll count n (Barrier.ArriveAll count a b).2).2) := by
  induction a with
  | zero => intro b; simp [Barrier.ArriveAll]
  | succ a ih =>
    intro b
    rw [show a + 1 + n = (a + n) + 1 by omega, ArriveAll_succ, ArriveAll_succ, ih]
    simp

/-- One whole generation from a generation-start state. -/
theorem ArriveAll_count (count : Nat) (hc1 : 1 ≤ count) (hc2 : count < 2147483648)
    (b : Barrier) (hb : b.generation_start count) :
    Barrier.ArriveAll count count b =
      ((List.range count).map
          (fun i => ({ current_seq := int_wrap (b.go_signal_ + ((count - (i + 1) : Nat) : Int)),
                       last := decide (i + 1 = count) } : Arrival)),
        { go_signal_ := int_wrap (b.go_signal_ + count),
          current_ := int_wrap (2 * count + b.go_signal_) }) ∧
    Barrier.generation_start count
      { go_signal_ := int_wrap (b.go_signal_ + count),
        current_ := int_wrap (2 * count + b.go_signal_) } := by
  obtain ⟨hg1, hg2, hcur⟩ := hb
  obtain ⟨d, rfl⟩ : ∃ d, count = d + 1 := ⟨count - 1, by omega⟩
  have hbe : b = Barrier.mk b.go_signal_
      (int_wrap (b.go_signal_ + ((d + 1 : Nat) : Int))) := by
    cases b
    simp only at hcur
    simp only [Barrier.mk.injEq, true_and]
    exact hcur
  constructor
  · conv_lhs => rw [hbe]
    rw [ArriveAll_generation (d + 1) b.go_signal_ hg1 hg2 hc2 d (le_refl _)]
    congr 1
    apply List.map_congr_left
    intro i _
    simp only [Nat.add_sub_add_right, Nat.add_right_cancel_iff]
  · refine ⟨(int_wrap_range _).1, (int_wrap_range _).2, ?_⟩
    show int_wrap (2 * ((d + 1 : Nat) : Int) + b.go_signal_) =
      int_wrap (int_wrap (b.go_signal_ + ((d + 1 : Nat) : Int)) + ((d + 1 : Nat) : Int))
    unfold int_wrap
    push_cast
    omega

/-- The branch of the last arriver is taken once in the `count` arrivals of a
generation. -/
theorem filter_last_pattern (count : Nat) (hc1 : 1 ≤ count) (f : Nat → Int) :
    (((List.range count).map
      (fun i => ({ current_seq := f i, last := decide (i + 1 = count) } : Arrival))).filter
        (fun a => a.last)).length = 1 := by
  obtain ⟨d, rfl⟩ : ∃ d, count = d + 1 := ⟨count - 1, by omega⟩
  rw [List.range_succ, List.map_append, List.filter_append]
  have h1 : ((List.range d).map
      (fun i => ({ current_seq := f i, last := decide (i + 1 = d + 1) } : Arrival))).filter
        (fun a => a.last) = [] := by
    rw [List.filter_eq_nil_iff]
    intro a ha
    obtain ⟨i, hi, rfl⟩ := List.mem_map.mp ha
    have := List.mem_range.mp hi
    simp only [decide_eq_true_eq]
    omega
  rw [h1]
  simp

theorem ArriveAll_generations (count : Nat) (hc1 : 1 ≤ count) (hc2 : count < 2147483648)
    (m : Nat) :
    ∀ b : Barrier, b.generation_start count →
      (Barrier.ArriveAll count (m * count) b).1.map (fun a => a.last) =
        List.flatten (List.replicate m
          ((List.range count).map (fun i => decide (i + 1 = count)))) ∧
      (Barrier.ArriveAll count (m * count) b).2.generation_start count := by
  induction m with
  | zero => intro b hb; simp [Barrier.ArriveAll, hb]
  | succ m ih =>
    intro b hb
    obtain ⟨h1, h2⟩ := ArriveAll_count count hc1 hc2 b hb
    obtain ⟨a1, a2⟩ := ih _ h2
    rw [show (m + 1) * count = count + m * count by rw [Nat.succ_mul]; omega,
      ArriveAll_add, h1]
    refine ⟨?_, a2⟩
    simp only [List.map_append, a1, List.replicate_succ, List.flatten_cons, List.map_map]
    congr 1

end barrier

namespace barrier

theorem int_wrap_add_wrap (x y : Int) : int_wrap (int_wrap x + y) = int_wrap (x + y) := by
  unfold int_wrap
  omega

/-- The state after `m` whole generations. -/
theorem ArriveAll_generations_state (count : Nat) (hc1 : 1 ≤ count)
    (hc2 : count < 2147483648) (m : Nat) :
    ∀ b : Barrier, b.generation_start count →
      (Barrier.ArriveAll count (m * count) b).2 =
        Barrier.mk (int_wrap (b.go_signal_ + ((m * count : Nat) : Int)))
          (int_wrap (b.go_signal_ + ((m * count : Nat) : Int) + count)) := by
  induction m with
  | zero =>
    intro b hb
    obtain ⟨hg1, hg2, hcur⟩ := hb
    cases b
    simp only at hg1 hg2 hcur
    simp only [Nat.zero_mul, Barrier.ArriveAll, Nat.cast_zero, Int.add_zero,
      int_wrap_of_range _ hg1 hg2, hcur]
  | succ m ih =>
    intro b hb
    obtain ⟨h1, h2⟩ := ArriveAll_count count hc1 hc2 b hb
    rw [show (m + 1) * count = count + m * count by rw [Nat.succ_mul]; omega,
      ArriveAll_add, h1]
    simp only
    rw [ih _ h2]
    simp only [Barrier.mk.injEq]
    constructor
    · rw [int_wrap_add_wrap]
      congr 1
      push_cast
      omega
    · rw [Int.add_assoc (int_wrap _), int_wrap_add_wrap]
      congr 1
      push_cast
      omega

/-- C20 (barrier last-arriver uniqueness and reusability): from a
generation-start state of `Barrier<count>` with gate value `g`, taking the
arrival part of `Wait` as one atomic step, the `count` arrivals of the
generation obtain the post-decrement values `g + count - 1`, ..., `g + 1`, `g`
(as `int`s) in this order; an arrival obtains a value equal to `go_signal_`
exactly when it is the last one, so the branch with the callback is taken
exactly once; afterwards `go_signal_` holds `g + count` and the state is a
generation-start state again, so after any number `m` of generations the
branch has been taken by exactly the last arrival of each and the state is
the generation-start state with gate `g + m * count`. As long as
`g + 2 * count` (resp. `g + (m + 1) * count`) fits an `int` no wrap is
involved and these are equalities of integers. The constructor produces the
generation-start state with gate 0 and `current_ == count`. -/
theorem barrier_last_arriver (count : Nat) (hc1 : 1 ≤ count) (hc2 : count < 2147483648)
    (b : Barrier) (hb : b.generation_start count) :
    (Barrier.ArriveAll count count b).1 =
        (List.range count).map
          (fun i => ({ current_seq := int_wrap (b.go_signal_ + ((count - (i + 1) : Nat) : Int)),
                       last := decide (i + 1 = count) } : Arrival)) ∧
      (∀ a ∈ (Barrier.ArriveAll count count b).1,
        (a.current_seq = b.go_signal_ ↔ a.last = true)) ∧
      ((Barrier.ArriveAll count count b).1.filter (fun a => a.last)).length = 1 ∧
      (Barrier.ArriveAll count count b).2.go_signal_ = int_wrap (b.go_signal_ + count) ∧
      (Barrier.ArriveAll count count b).2.generation_start count ∧
      (b.go_signal_ + 2 * count < 2147483648 →
        b.current_ = b.go_signal_ + count ∧
        (Barrier.ArriveAll count count b).1 =
          (List.range count).map
            (fun i => ({ current_seq := b.go_signal_ + ((count - (i + 1) : Nat) : Int),
                         last := decide (i + 1 = count) } : Arrival)) ∧
        (Barrier.ArriveAll count count b).2.go_signal_ = b.go_signal_ + count ∧
        (Barrier.ArriveAll count count b).2.current_ =
          (Barrier.ArriveAll count count b).2.go_signal_ + count) ∧
      (∀ m : Nat,
        (Barrier.ArriveAll count (m * count) b).1.map (fun a => a.last) =
          List.flatten (List.replicate m
            ((List.range count).map (fun i => decide (i + 1 = count)))) ∧
        (Barrier.ArriveAll count (m * count) b).2.generation_start count ∧
        (Barrier.ArriveAll count (m * count) b).2.go_signal_ =
          int_wrap (b.go_signal_ + ((m * count : Nat) : Int)) ∧
        (b.go_signal_ + ((m * count : Nat) : Int) + count < 2147483648 →
          (Barrier.ArriveAll count (m * count) b).2.go_signal_ =
            b.go_signal_ + ((m * count : Nat) : Int) ∧
          (Barrier.ArriveAll count (m * count) b).2.current_ =
            (Barrier.ArriveAll count (m * count) b).2.go_signal_ + count)) ∧
      (Barrier.init count).generation_start count ∧
      (Barrier.init count).go_signal_ = 0 ∧ (Barrier.init count).current_ = count := by
  obtain ⟨h1, h2⟩ := ArriveAll_count count hc1 hc2 b hb
  obtain ⟨hg1, hg2, hcur⟩ := hb
  have hb2 : b.generation_start count := ⟨hg1, hg2, hcur⟩
  refine ⟨by rw [h1], ?_, ?_, by rw [h1], by rw [h1]; exact h2, ?_, ?_,
    init_generation_start count hc2, rfl, rfl⟩
  · intro a ha
    rw [h1] at ha
    obtain ⟨i, hi, rfl⟩ := List.mem_map.mp ha
    have hi2 := List.mem_range.mp hi
    simp only [decide_eq_true_eq]
    unfold int_wrap
    omega
  · rw [h1]
    exact filter_last_pattern count hc1 _
  · intro hno
    refine ⟨?_, ?_, ?_, ?_⟩
    · rw [hcur]
      unfold int_wrap
      omega
    · rw [h1]
      simp only
      apply List.map_congr_left
      intro i hi
      have hi2 := List.mem_range.mp hi
      congr 1
      unfold int_wrap
      omega
    · rw [h1]
      show int_wrap (b.go_signal_ + count) = _
      unfold int_wrap
      omega
    · rw [h1]
      show int_wrap (2 * count + b.go_signal_) = int_wrap (b.go_signal_ + count) + count
      unfold int_wrap
      omega
  · intro m
    obtain ⟨a1, a2⟩ := ArriveAll_generations count hc1 hc2 m b hb2
    have a3 := ArriveAll_generations_state count hc1 hc2 m b hb2
    refine ⟨a1, a2, by rw [a3], ?_⟩
    intro hno
    rw [a3]
    have hm : (0 : Int) ≤ ((m * count : Nat) : Int) := Int.ofNat_nonneg _
    constructor
    · show int_wrap (b.go_signal_ + ((m * count : Nat) : Int)) = _
      unfold int_wrap
      omega
    · show int_wrap (b.go_signal_ + ((m * count : Nat) : Int) + count) =
        int_wrap (b.go_signal_ + ((m * count : Nat) : Int)) + count
      unfold int_wrap
      omega

/-- Witness of C20: three generations of `Barrier<5>` from its constructor;
the callback branch is taken by the 5th, 10th and 15th arrival, and the
final state is the generation-start state with gate 15. -/
theorem barrier_last_arriver_witness :
    (Barrier.init 5).generation_start 5 ∧
      (Barrier.ArriveAll 5 (3 * 5) (Barrier.init 5)).1.map (fun a => a.last) =
        List.flatten (List.replicate 3
          ((List.range 5).map (fun i => decide (i + 1 = 5)))) ∧
      (Barrier.ArriveAll 5 (3 * 5) (Barrier.init 5)).2.generation_start 5 ∧
      (Barrier.ArriveAll 5 (3 * 5) (Barrier.init 5)).2.go_signal_ = int_wrap (0 + ((3 * 5 : Nat) : Int)) :=
  ⟨init_generation_start 5 (by decide),
    ((barrier_last_arriver 5 (by decide) (by decide) (Barrier.init 5)
      (init_generation_start 5 (by decide))).2.2.2.2.2.2.1 3).1,
    ((barrier_last_arriver 5 (by decide) (by decide) (Barrier.init 5)
      (init_generation_start 5 (by decide))).2.2.2.2.2.2.1 3).2.1,
    ((barrier_last_arriver 5 (by decide) (by decide) (Barrier.init 5)
      (init_generation_start 5 (by decide))).2.2.2.2.2.2.1 3).2.2.1⟩

end barrier

namespace barrier

/-- Before the last arrival of a generation the gate is not moved: after `k`
arrivals with `d + 1` parties still missing the state is `g` with
`current_ == g + d + 1`. -/
theorem ArriveAll_prefix (count : Nat) (g : Int) (hc : count < 2147483648) (k : Nat) :
    ∀ d : Nat, d + k + 1 ≤ count →
      (Barrier.ArriveAll count k
          { go_signal_ := g, current_ := int_wrap (g + ((d + k + 1 : Nat) : Int)) }).2 =
        { go_signal_ := g, current_ := int_wrap (g + ((d + 1 : Nat) : Int)) } := by
  induction k with
  | zero => intro d _; rfl
  | succ k ih =>
    intro d hd
    rw [ArriveAll_succ]
    simp only
    have e1 : d + (k + 1) + 1 = (d + k) + 2 := by omega
    rw [e1, Arrive_not_last count g (d + k) (by omega) hc]
    exact ih d (by omega)

theorem WaitLoop_held (count : Nat) (g c : Int)
    (h : Barrier.spin_condition count g g c = true) (k : Nat) :
    ∀ rest : List (Int × Int),
      Barrier.WaitLoop count c (List.replicate k (g, g) ++ rest) =
        (Barrier.WaitLoop count c rest).map (fun n => n + k) := by
  induction k with
  | zero =>
    intro rest
    cases h0 : Barrier.WaitLoop count c rest <;> simp [h0]
  | succ k ih =>
    intro rest
    rw [List.replicate_succ, List.cons_append]
    simp only [Barrier.WaitLoop, h, if_true, ih rest]
    cases Barrier.WaitLoop count c rest with
    | none => rfl
    | some n => simp only [Option.map_some']; congr 1

/-- Waiters are held until release and only until release, as long as the
generation stays inside the range of `int`. In a generation with gate value
`g` in which nothing overflows (`g` and `g + count` are values of `int`), for
every post-decrement value `c` with
`g < c < g + count`: the condition of the waiting loop is true when it loads
`g` from `go_signal_`, and false when its first load returns `g + count`; so
the loop of such a caller is still running after any number of evaluations
that load `g`, and is left at the first evaluation whose first load returns
`g + count` (an evaluation that loads `g` first and `g + count` second is
still true, and the next one leaves the loop). For the arrivals of a
generation that starts with gate `g`: every caller that is not the last
arriver has such a value `c`, the gate is `g` after each of the first
`count - 1` arrivals, and it is `g + count` after the last one. -/
theorem barrier_waiters_held (count : Nat) (g c : Int) (hc : count < 2147483648)
    (hg : -2147483648 ≤ g) (hgN : g + count < 2147483648) (h1 : g < c) (h2 : c < g + count) :
    Barrier.spin_condition count g g c = true ∧
      Barrier.spin_condition count g (g + count) c = true ∧
      (∀ load2 : Int, Barrier.spin_condition count (g + count) load2 c = false) ∧
      (∀ k : Nat, Barrier.WaitLoop count c (List.replicate k (g, g)) = none) ∧
      (∀ (k : Nat) (load2 : Int) (rest : List (Int × Int)),
        Barrier.WaitLoop count c (List.replicate k (g, g) ++ (g + count, load2) :: rest) =
          some k) ∧
      (∀ (k : Nat) (load2 : Int) (rest : List (Int × Int)),
        Barrier.WaitLoop count c
            (List.replicate k (g, g) ++ (g, g + count) :: (g + count, load2) :: rest) =
          some (k + 1)) ∧
      (∀ b : Barrier, b.generation_start count → b.go_signal_ = g →
        (∀ a ∈ (Barrier.ArriveAll count count b).1, a.last = false →
          g < a.current_seq ∧ a.current_seq < g + count) ∧
        (∀ k : Nat, k < count → (Barrier.ArriveAll count k b).2.go_signal_ = g) ∧
        (Barrier.ArriveAll count count b).2.go_signal_ = g + count) := by
  have s1 : Barrier.spin_condition count g g c = true := by
    simp only [Barrier.spin_condition, Bool.and_eq_true, decide_eq_true_eq]
    refine ⟨h1, ?_⟩
    unfold int_wrap
    omega
  have s2 : Barrier.spin_condition count g (g + count) c = true := by
    simp only [Barrier.spin_condition, Bool.and_eq_true, decide_eq_true_eq]
    refine ⟨h1, ?_⟩
    unfold int_wrap
    omega
  have s3 : ∀ load2 : Int, Barrier.spin_condition count (g + count) load2 c = false := by
    intro load2
    have : ¬ (g + count < c) := by omega
    simp [Barrier.spin_condition, this]
  refine ⟨s1, s2, s3, ?_, ?_, ?_, ?_⟩
  · intro k
    have := WaitLoop_held count g c s1 k []
    rw [List.append_nil] at this
    rw [this]
    rfl
  · intro k load2 rest
    rw [WaitLoop_held count g c s1 k]
    simp [Barrier.WaitLoop, s3 load2]
  · intro k load2 rest
    rw [WaitLoop_held count g c s1 k]
    simp [Barrier.WaitLoop, s2, s3 load2, Nat.add_comm]
  · intro b hb hbg
    have hc1 : 1 ≤ count := by omega
    obtain ⟨a1, _⟩ := ArriveAll_count count hc1 hc b hb
    obtain ⟨_, _, hcur⟩ := hb
    refine ⟨?_, ?_, ?_⟩
    · intro a ha hl
      rw [a1] at ha
      obtain ⟨i, hi, rfl⟩ := List.mem_map.mp ha
      have hi2 := List.mem_range.mp hi
      simp only [decide_eq_false_iff_not] at hl
      simp only [hbg]
      unfold int_wrap
      omega
    · intro k hk
      have hbe : b = Barrier.mk g (int_wrap (g + (((count - k - 1) + k + 1 : Nat) : Int))) := by
        cases b
        simp only at hcur hbg
        simp only [Barrier.mk.injEq]
        refine ⟨hbg, ?_⟩
        rw [hcur, hbg]
        congr 2
        omega
      rw [hbe, ArriveAll_prefix count g hc k (count - k - 1) (by omega)]
    · rw [a1]
      show int_wrap (b.go_signal_ + count) = g + count
      rw [hbg]
      unfold int_wrap
      omega

/-- An instance of `barrier_waiters_held`: `Barrier<4>` in its first
generation (gate 0), a caller with post-decrement value 2: it is held through three evaluations that load
0 and leaves the loop at the evaluation that loads 4. -/
theorem barrier_waiters_held_witness :
    Barrier.WaitLoop 4 2 (List.replicate 3 (0, 0)) = none ∧
      Barrier.WaitLoop 4 2 (List.replicate 3 (0, 0) ++ [(0 + ((4 : Nat) : Int), 4)]) = some 3 :=
  ⟨(barrier_waiters_held 4 0 2 (by decide) (by decide) (by decide) (by decide)
      (by decide)).2.2.2.1 3,
    (barrier_waiters_held 4 0 2 (by decide) (by decide) (by decide) (by decide)
      (by decide)).2.2.2.2.1 3 4 []⟩

end barrier

namespace disruptor

/-! ## Merge and parking against the words of the specification -/

/-- One `find_if` with the merging lambda is the step of the specification:
it takes the first initialised entry that begins at the target. -/
theorem mergeScan_eq_spec (t : Nat) (tbl : List Reservation) :
    mergeScan t tbl =
      (spec_first_match t tbl).map
        (fun i => ((tbl.getD i {}).pos_end,
          tbl.set i { (tbl.getD i {}) with is_initialised := false })) := by
  induction tbl with
  | nil => rfl
  | cons r rs ih =>
    unfold mergeScan spec_first_match
    rw [List.findIdx?_cons]
    by_cases hp : (r.is_initialised && r.pos_begin == t) = true
    · simp only [hp, if_true, Option.map_some', List.getD_cons_zero, List.set_cons_zero]
    · simp only [hp, if_false, Bool.false_eq_true]
      rw [ih, List.findIdx?_succ]
      unfold spec_first_match
      cases List.findIdx? (fun r => r.is_initialised && r.pos_begin == t) rs with
      | none => rfl
      | some i => simp only [Option.map_some', List.getD_cons_succ, List.set_cons_succ]

theorem spec_first_match_some (t : Nat) (tbl : List Reservation) (i : Nat)
    (h : spec_first_match t tbl = some i) :
    ∃ x, tbl[i]? = some x ∧ tbl.getD i {} = x ∧ x.is_initialised = true ∧ x.pos_begin = t := by
  unfold spec_first_match at h
  obtain ⟨hi, hp, _⟩ := List.findIdx?_eq_some_iff_getElem.mp h
  simp only [Bool.and_eq_true, beq_iff_eq] at hp
  refine ⟨tbl[i], List.getElem?_eq_getElem hi, ?_, hp.1, hp.2⟩
  rw [List.getD_eq_getElem?_getD, List.getElem?_eq_getElem hi]
  rfl

end disruptor

namespace disruptor

/-- The chain of the example: from target 2 entry 1 `(2, 4)` is taken, then
entry 0 `(4, 6)`; the final target is 6. -/
theorem mergeExample_chain :
    spec_merge_chain (mergeExample.unprocessed_reservations_.length + 1)
        mergeExample.unprocessed_reservations_ 2 =
      (List.replicate LIM {} |>.set 0 { pos_begin := 4, pos_end := 6, is_initialised := false }
        |>.set 1 { pos_begin := 2, pos_end := 4, is_initialised := false }, 6, [1, 0]) := by
  decide

end disruptor

namespace disruptor

/-- The `find_if` of the `else` branch and the assignment through its
iterator: the lowest-index uninitialised entry is overwritten. -/
theorem storeFirstFree_eq_spec (b e : Nat) (tbl : List Reservation) :
    storeFirstFree b e tbl =
      (spec_first_free tbl).map (fun i => tbl.set i (Reservation.mk2 b e)) := by
  induction tbl with
  | nil => rfl
  | cons r rs ih =>
    unfold storeFirstFree spec_first_free
    rw [List.findIdx?_cons]
    by_cases hp : (!r.is_initialised) = true
    · simp only [hp, if_true, Option.map_some', List.set_cons_zero]
    · simp only [hp, if_false, Bool.false_eq_true]
      rw [ih, List.findIdx?_succ]
      unfold spec_first_free
      cases List.findIdx? (fun r => !r.is_initialised) rs with
      | none => rfl
      | some i => simp only [Option.map_some', List.set_cons_succ]

theorem spec_first_free_some (tbl : List Reservation)
    (h : ∃ r ∈ tbl, r.is_initialised = false) :
    ∃ i x, spec_first_free tbl = some i ∧ tbl[i]? = some x ∧ x.is_initialised = false ∧
      ∀ j y, j < i → tbl[j]? = some y → y.is_initialised = true := by
  unfold spec_first_free
  cases hf : List.findIdx? (fun r => !r.is_initialised) tbl with
  | none =>
    obtain ⟨r, hr, hi⟩ := h
    have := List.findIdx?_eq_none_iff.mp hf r hr
    simp [hi] at this
  | some i =>
    obtain ⟨hi, hp, hlt⟩ := List.findIdx?_eq_some_iff_getElem.mp hf
    refine ⟨i, tbl[i], rfl, List.getElem?_eq_getElem hi, by simpa using hp, ?_⟩
    intro j y hj hy
    have hjl : j < tbl.length := by omega
    rw [List.getElem?_eq_getElem hjl] at hy
    have := hlt j hj
    rw [Option.some.inj hy] at this
    simpa using this

theorem spec_first_free_none (tbl : List Reservation)
    (h : ∀ r ∈ tbl, r.is_initialised = true) : spec_first_free tbl = none := by
  unfold spec_first_free
  rw [List.findIdx?_eq_none_iff]
  intro x hx
  simp [h x hx]

/-- The `else` branch of the Buffered `UpdateCursor`: taken when neither
`pos_end ≤ cursor` nor `pos_begin = cursor`. -/
theorem UpdateCursor_else (s : BufferedHelper) (b e : Nat) (h1 : s.cursor_ < e)
    (h2 : b ≠ s.cursor_) :
    s.UpdateCursor b e =
      match spec_first_free s.unprocessed_reservations_ with
      | some i =>
        (PublishUpdateStatus.SUCCESS,
          { unprocessed_reservations_ := s.unprocessed_reservations_.set i (Reservation.mk2 b e),
            cursor_ := s.cursor_ })
      | none => (PublishUpdateStatus.NO_SPACE, s) := by
  unfold BufferedHelper.UpdateCursor
  simp only [Nat.not_le.mpr h1, h2, if_false]
  rw [storeFirstFree_eq_spec]
  cases spec_first_free s.unprocessed_reservations_ <;> rfl

/-- C23 (a Buffered out-of-order report is parked without touching anything
else). For every Buffered engine state with cursor `c`, every report with
`c < pos_begin < pos_end`, and a pending table with at least one
uninitialised entry: with `i` the lowest index of an uninitialised entry,
`UpdateCursor` returns `SUCCESS`, the cursor is still `c`, entry `i` is
`(pos_begin, pos_end, initialised)`, and every other entry of the table is
unchanged (the table is the old one with entry `i` replaced). -/
theorem buffered_out_of_order_parked (s : BufferedHelper) (b e : Nat)
    (hcb : s.cursor < b) (hbe : b < e)
    (hfree : ∃ r ∈ s.unprocessed_reservations_, r.is_initialised = false) :
    ∃ (i : Nat) (x : Reservation),
      spec_first_free s.unprocessed_reservations_ = some i ∧
      s.unprocessed_reservations_[i]? = some x ∧ x.is_initialised = false ∧
      (∀ j y, j < i → s.unprocessed_reservations_[j]? = some y → y.is_initialised = true) ∧
      s.UpdateCursor b e =
        (PublishUpdateStatus.SUCCESS,
          { unprocessed_reservations_ := s.unprocessed_reservations_.set i (Reservation.mk2 b e),
            cursor_ := s.cursor_ }) ∧
      (s.UpdateCursor b e).2.cursor = s.cursor ∧
      (s.UpdateCursor b e).2.unprocessed_reservations_[i]? =
        some { pos_begin := b, pos_end := e, is_initialised := true } ∧
      (∀ j, j ≠ i →
        (s.UpdateCursor b e).2.unprocessed_reservations_[j]? =
          s.unprocessed_reservations_[j]?) ∧
      (s.UpdateCursor b e).2.unprocessed_reservations_.length =
        s.unprocessed_reservations_.length := by
  have hcb2 : s.cursor_ < b := hcb
  obtain ⟨i, x, h1, h2, h3, h4⟩ := spec_first_free_some s.unprocessed_reservations_ hfree
  have hU := UpdateCursor_else s b e (by omega) (by omega)
  rw [h1] at hU
  simp only at hU
  have hil : i < s.unprocessed_reservations_.length := by
    rcases Nat.lt_or_ge i s.unprocessed_reservations_.length with h | h
    · exact h
    · rw [List.getElem?_eq_none h] at h2
      exact absurd h2 (by simp)
  refine ⟨i, x, h1, h2, h3, h4, hU, by rw [hU]; rfl, ?_, ?_, ?_⟩
  · rw [hU]
    simp only [List.getElem?_set, hil, if_true]
    rfl
  · intro j hj
    rw [hU]
    exact List.getElem?_set_ne (Ne.symm hj)
  · rw [hU]
    exact List.length_set _ _ _

/-- Witness of C23: on the example engine (entries 0 and 1 initialised,
cursor 0) the report `(8, 9)` is parked in entry 2. -/
theorem buffered_out_of_order_parked_witness :
    ∃ (i : Nat) (x : Reservation),
      spec_first_free mergeExample.unprocessed_reservations_ = some i ∧
      mergeExample.unprocessed_reservations_[i]? = some x ∧ x.is_initialised = false ∧
      (∀ j y, j < i → mergeExample.unprocessed_reservations_[j]? = some y →
        y.is_initialised = true) ∧
      mergeExample.UpdateCursor 8 9 =
        (PublishUpdateStatus.SUCCESS,
          { unprocessed_reservations_ :=
              mergeExample.unprocessed_reservations_.set i (Reservation.mk2 8 9),
            cursor_ := mergeExample.cursor_ }) ∧
      (mergeExample.UpdateCursor 8 9).2.cursor = mergeExample.cursor ∧
      (mergeExample.UpdateCursor 8 9).2.unprocessed_reservations_[i]? =
        some { pos_begin := 8, pos_end := 9, is_initialised := true } ∧
      (∀ j, j ≠ i →
        (mergeExample.UpdateCursor 8 9).2.unprocessed_reservations_[j]? =
          mergeExample.unprocessed_reservations_[j]?) ∧
      (mergeExample.UpdateCursor 8 9).2.unprocessed_reservations_.length =
        mergeExample.unprocessed_reservations_.length :=
  buffered_out_of_order_parked mergeExample 8 9 (by decide) (by decide)
    ⟨{}, by decide, rfl⟩

/-- The parking of the example evaluated: entry 2 is the lowest free one. -/
theorem mergeExample_parked :
    spec_first_free mergeExample.unprocessed_reservations_ = some 2 ∧
      (mergeExample.UpdateCursor 8 9).2.unprocessed_reservations_ =
        Reservation.mk2 4 6 :: Reservation.mk2 2 4 :: Reservation.mk2 8 9 ::
          List.replicate (LIM - 3) {} := by
  decide

/-- C24 (Buffered table-full is reported atomically). For every Buffered
engine state in which every pending-table entry is initialised (in
particular all `LIM = 20` of them) and every report with
`cursor < pos_begin < pos_end`, `UpdateCursor` returns `NO_SPACE` and leaves
the state, cursor and table, as it found it. So the same call made again
finds the same state and returns the same; a run of calls that begins with
this call ends in the state of the run without it; `Cursor::Publish` run by a
single thread on that state is still repeating the call after any number of
rounds; and once an entry is free the same call returns `SUCCESS`. -/
theorem buffered_table_full (s : BufferedHelper) (b e : Nat)
    (hfull : ∀ r ∈ s.unprocessed_reservations_, r.is_initialised = true)
    (hcb : s.cursor < b) (hbe : b < e) :
    s.UpdateCursor b e = (PublishUpdateStatus.NO_SPACE, s) ∧
      (s.UpdateCursor b e).2.UpdateCursor b e = (PublishUpdateStatus.NO_SPACE, s) ∧
      (∀ reports : List (Nat × Nat),
        (s.UpdateCursorAll ((b, e) :: reports)).2 = (s.UpdateCursorAll reports).2) ∧
      (∀ fuel claim : Nat,
        Cursor.Publish fuel
          { cursor_updater_ := CursorUpdateHelper.BUFFERED s, claim_sequence_ := claim } b e =
            none) ∧
      (∀ s2 : BufferedHelper, s2.cursor < b →
        (∃ r ∈ s2.unprocessed_reservations_, r.is_initialised = false) →
        (s2.UpdateCursor b e).1 = PublishUpdateStatus.SUCCESS) := by
  have hcb2 : s.cursor_ < b := hcb
  have hU : s.UpdateCursor b e = (PublishUpdateStatus.NO_SPACE, s) := by
    rw [UpdateCursor_else s b e (by omega) (by omega),
      spec_first_free_none s.unprocessed_reservations_ hfull]
  refine ⟨hU, by rw [hU]; exact hU, ?_, ?_, ?_⟩
  · intro reports
    rw [UpdateCursorAll_cons, hU]
  · intro fuel claim
    induction fuel with
    | zero => rfl
    | succ fuel ih =>
      unfold Cursor.Publish
      simp only [CursorUpdateHelper.UpdateCursor, hU]
      exact ih
  · intro s2 h1 h2
    have h1b : s2.cursor_ < b := h1
    obtain ⟨i, x, h3, _⟩ := spec_first_free_some s2.unprocessed_reservations_ h2
    rw [UpdateCursor_else s2 b e (by omega) (by omega), h3]

/-- Witness of C24: the example engine with 20 initialised entries and cursor
0 answers the report `(5, 6)` with `NO_SPACE` and is unchanged. -/
theorem buffered_table_full_witness :
    fullExample.unprocessed_reservations_.length = LIM ∧
      fullExample.UpdateCursor 5 6 = (PublishUpdateStatus.NO_SPACE, fullExample) :=
  ⟨by decide, (buffered_table_full fullExample 5 6 (by decide) (by decide) (by decide)).1⟩

end disruptor

namespace disruptor

/-! ## Uniqueness of `pos_begin` in the pending table -/

theorem mem_pendingEntries (tbl : List Reservation) (r : Reservation) (hr : r ∈ tbl)
    (hi : r.is_initialised = true) : (r.pos_begin, r.pos_end) ∈ pendingEntries tbl := by
  unfold pendingEntries
  rw [Multiset.mem_coe, List.mem_map]
  exact ⟨r, List.mem_filter.mpr ⟨hr, hi⟩, rfl⟩

theorem tableUnique_of_nodup (tbl : List Reservation)
    (h : ((pendingEntries tbl).map Prod.fst).Nodup) : tableUnique tbl := by
  induction tbl with
  | nil => exact List.Pairwise.nil
  | cons r rs ih =>
    unfold tableUnique
    rw [List.pairwise_cons]
    cases hi : r.is_initialised with
    | false =>
      rw [pendingEntries_cons_uninit r rs hi] at h
      exact ⟨fun r2 _ hc => absurd hc.1 (by simp), ih h⟩
    | true =>
      rw [pendingEntries_cons_init r rs hi, Multiset.map_cons, Multiset.nodup_cons] at h
      refine ⟨?_, ih h.2⟩
      intro r2 hr2 hc
      apply h.1
      rw [Multiset.mem_map]
      exact ⟨(r2.pos_begin, r2.pos_end), mem_pendingEntries rs r2 hr2 hc.2.1, hc.2.2.symm⟩

/-- The merge loop only removes entries from the set of initialised ones. -/
theorem mergeLoop_le (fuel : Nat) :
    ∀ (tbl : List Reservation) (t : Nat),
      pendingEntries (mergeLoop fuel tbl t).1 ≤ pendingEntries tbl := by
  induction fuel with
  | zero => intro tbl t; exact le_refl _
  | succ fuel ih =>
    intro tbl t
    unfold mergeLoop
    cases hm : mergeScan t tbl with
    | none => exact le_refl _
    | some v =>
      obtain ⟨t2, tbl2⟩ := v
      simp only
      have h1 := (mergeScan_some t tbl t2 tbl2 hm).1
      exact le_trans (ih tbl2 t2) (by rw [h1]; exact Multiset.le_cons_self _ _)

/-- What a call of the Buffered `UpdateCursor` does to the set of initialised
entries: it leaves a part of it, or adds the report. -/
theorem UpdateCursor_pending (s : BufferedHelper) (b e : Nat) :
    pendingEntries (s.UpdateCursor b e).2.unprocessed_reservations_ ≤
        pendingEntries s.unprocessed_reservations_ ∨
      pendingEntries (s.UpdateCursor b e).2.unprocessed_reservations_ =
        (b, e) ::ₘ pendingEntries s.unprocessed_reservations_ := by
  unfold BufferedHelper.UpdateCursor
  by_cases h1 : e ≤ s.cursor_
  · simp only [h1, if_true]
    exact Or.inl (le_refl _)
  · by_cases h2 : b = s.cursor_
    · simp only [h1, h2, if_false, if_true]
      exact Or.inl (mergeLoop_le _ _ _)
    · simp only [h1, h2, if_false]
      cases hm : storeFirstFree b e s.unprocessed_reservations_ with
      | none => exact Or.inl (le_refl _)
      | some tbl2 => exact Or.inr (storeFirstFree_some b e _ tbl2 hm).1

theorem UpdateCursorAll_nodup (reports : List (Nat × Nat)) :
    ∀ s : BufferedHelper,
      ((pendingEntries s.unprocessed_reservations_).map Prod.fst).Nodup →
      (reports.map Prod.fst).Nodup →
      (∀ x ∈ pendingEntries s.unprocessed_reservations_, x.1 ∉ reports.map Prod.fst) →
      ((pendingEntries (s.UpdateCursorAll reports).2.unprocessed_reservations_).map
        Prod.fst).Nodup := by
  induction reports with
  | nil => intro s h _ _; exact h
  | cons x rest ih =>
    intro s h1 h2 h3
    obtain ⟨b, e⟩ := x
    rw [UpdateCursorAll_cons]
    simp only [List.map_cons, List.nodup_cons, List.mem_cons, not_or] at h2 h3
    apply ih _ ?_ h2.2 ?_
    · rcases UpdateCursor_pending s b e with hle | heq
      · exact Multiset.nodup_of_le (Multiset.map_le_map hle) h1
      · rw [heq, Multiset.map_cons, Multiset.nodup_cons]
        refine ⟨?_, h1⟩
        intro hb
        obtain ⟨y, hy, hyb⟩ := Multiset.mem_map.mp hb
        exact (h3 y hy).1 hyb
    · intro y hy
      rcases UpdateCursor_pending s b e with hle | heq
      · exact (h3 y (Multiset.mem_of_le hle hy)).2
      · rw [heq] at hy
        rcases Multiset.mem_cons.mp hy with rfl | hy
        · exact h2.1
        · exact (h3 y hy).2

theorem UpdateCursorAll_unique (s : BufferedHelper)
    (hs : ∀ r ∈ s.unprocessed_reservations_, r.is_initialised = false)
    (reports : List (Nat × Nat)) (hnd : (reports.map Prod.fst).Nodup) :
    tableUnique (s.UpdateCursorAll reports).2.unprocessed_reservations_ := by
  apply tableUnique_of_nodup
  have h0 := (pendingEntries_eq_zero_iff s.unprocessed_reservations_).mpr hs
  apply UpdateCursorAll_nodup reports s ?_ hnd ?_
  · rw [h0]
    exact Multiset.nodup_zero
  · rw [h0]
    intro x hx
    exact absurd hx (Multiset.not_mem_zero x)

end disruptor

namespace disruptor

/-- C25 as stated fails: on a freshly constructed Buffered engine the report
`(5, 6)` made twice (each time `pos_begin < pos_end`) is parked twice:
entries 0 and 1 are both initialised with `pos_begin = 5`. -/
theorem pending_table_unique_counterexample :
    (({} : BufferedHelper).UpdateCursorAll [(5, 6), (5, 6)]).1 =
        [PublishUpdateStatus.SUCCESS, PublishUpdateStatus.SUCCESS] ∧
      (({} : BufferedHelper).UpdateCursorAll [(5, 6), (5, 6)]).2.unprocessed_reservations_[0]? =
        some { pos_begin := 5, pos_end := 6, is_initialised := true } ∧
      (({} : BufferedHelper).UpdateCursorAll [(5, 6), (5, 6)]).2.unprocessed_reservations_[1]? =
        some { pos_begin := 5, pos_end := 6, is_initialised := true } ∧
      ¬ tableUnique
        (({} : BufferedHelper).UpdateCursorAll [(5, 6), (5, 6)]).2.unprocessed_reservations_ := by
  refine ⟨by decide, by decide, by decide, ?_⟩
  have h : (({} : BufferedHelper).UpdateCursorAll [(5, 6), (5, 6)]).2.unprocessed_reservations_ =
      Reservation.mk2 5 6 :: Reservation.mk2 5 6 :: List.replicate (LIM - 2) {} := by
    decide
  rw [h]
  unfold tableUnique
  rw [List.pairwise_cons]
  intro hp
  exact hp.1 (Reservation.mk2 5 6) (List.mem_cons_self _ _) ⟨rfl, rfl, rfl⟩

/-- C25 as amended. Starting from a freshly constructed or `Reset` Buffered
engine (or any one without initialised entries), after every sequence of
`UpdateCursor` calls whose `pos_begin` values are pairwise distinct, no two
initialised entries of the pending table have the same `pos_begin`. -/
theorem pending_table_unique (reports : List (Nat × Nat))
    (hnd : (reports.map Prod.fst).Nodup) :
    tableUnique (({} : BufferedHelper).UpdateCursorAll reports).2.unprocessed_reservations_ ∧
      (∀ s0 : BufferedHelper,
        tableUnique (s0.Reset.UpdateCursorAll reports).2.unprocessed_reservations_) ∧
      (∀ s : BufferedHelper, (∀ r ∈ s.unprocessed_reservations_, r.is_initialised = false) →
        tableUnique (s.UpdateCursorAll reports).2.unprocessed_reservations_) :=
  ⟨UpdateCursorAll_unique {} fresh_uninit reports hnd,
    fun s0 => UpdateCursorAll_unique s0.Reset (Reset_uninit s0) reports hnd,
    fun s hs => UpdateCursorAll_unique s hs reports hnd⟩

/-- Witness of the amended C25: the reports `(5, 6)`, `(3, 4)`, `(0, 3)`,
`(7, 9)` on a fresh engine. -/
theorem pending_table_unique_witness :
    ([((5 : Nat), (6 : Nat)), (3, 4), (0, 3), (7, 9)].map Prod.fst).Nodup ∧
      tableUnique
        (({} : BufferedHelper).UpdateCursorAll
          [(5, 6), (3, 4), (0, 3), (7, 9)]).2.unprocessed_reservations_ :=
  ⟨by decide, (pending_table_unique [(5, 6), (3, 4), (0, 3), (7, 9)] (by decide)).1⟩

end disruptor

namespace disruptor

/-! ## The visible cursor and the claim -/

theorem mergeLoop_bound (fuel : Nat) :
    ∀ (tbl : List Reservation) (t bound : Nat), t ≤ bound →
      (∀ x ∈ pendingEntries tbl, x.2 ≤ bound) → (mergeLoop fuel tbl t).2 ≤ bound := by
  induction fuel with
  | zero => intro tbl t bound h _; exact h
  | succ fuel ih =>
    intro tbl t bound h1 h2
    unfold mergeLoop
    cases hm : mergeScan t tbl with
    | none => exact h1
    | some v =>
      obtain ⟨t2, tbl2⟩ := v
      simp only
      have hp := (mergeScan_some t tbl t2 tbl2 hm).1
      apply ih tbl2 t2 bound
      · exact h2 (t, t2) (by rw [hp]; exact Multiset.mem_cons_self _ _)
      · intro x hx
        exact h2 x (by rw [hp]; exact Multiset.mem_cons_of_mem hx)

theorem Buffered_UpdateCursor_bound (s : BufferedHelper) (b e bound : Nat)
    (hc : s.cursor_ ≤ bound) (he : e ≤ bound)
    (hp : ∀ x ∈ pendingEntries s.unprocessed_reservations_, x.2 ≤ bound) :
    (s.UpdateCursor b e).2.cursor_ ≤ bound ∧
      ∀ x ∈ pendingEntries (s.UpdateCursor b e).2.unprocessed_reservations_, x.2 ≤ bound := by
  constructor
  · unfold BufferedHelper.UpdateCursor
    by_cases h1 : e ≤ s.cursor_
    · simp only [h1, if_true]
      exact hc
    · by_cases h2 : b = s.cursor_
      · simp only [h1, h2, if_false, if_true]
        exact mergeLoop_bound _ _ _ _ he hp
      · simp only [h1, h2, if_false]
        cases storeFirstFree b e s.unprocessed_reservations_ <;> exact hc
  · intro x hx
    rcases UpdateCursor_pending s b e with hle | heq
    · exact hp x (Multiset.mem_of_le hle hx)
    · rw [heq] at hx
      rcases Multiset.mem_cons.mp hx with rfl | hx
      · exact he
      · exact hp x hx

theorem bounded_mono (u : CursorUpdateHelper) (b1 b2 : Nat) (h : u.bounded b1)
    (hb : b1 ≤ b2) : u.bounded b2 := by
  cases u with
  | BUFFERED h0 => exact ⟨le_trans h.1 hb, fun x hx => le_trans (h.2 x hx) hb⟩
  | BLOCK h0 => exact le_trans h hb

theorem bounded_cursor (u : CursorUpdateHelper) (bound : Nat) (h : u.bounded bound) :
    u.cursor ≤ bound := by
  cases u with
  | BUFFERED h0 => exact h.1
  | BLOCK h0 => exact h

theorem UpdateCursorPass_bounded (u u2 : CursorUpdateHelper) (b e bound : Nat)
    (st : PublishUpdateStatus) (h : u.bounded bound) (he : e ≤ bound)
    (hu : u.UpdateCursorPass b e = some (st, u2)) : u2.bounded bound := by
  cases u with
  | BUFFERED h0 =>
    simp only [CursorUpdateHelper.UpdateCursorPass, Option.some.injEq, Prod.mk.injEq] at hu
    rw [← hu.2]
    exact Buffered_UpdateCursor_bound h0 b e bound h.1 he h.2
  | BLOCK h0 =>
    simp only [CursorUpdateHelper.UpdateCursorPass] at hu
    by_cases hc : h0.cursor_ = b
    · rw [UpdateCursorPass_eq h0 b e hc] at hu
      simp only [Option.some.injEq, Prod.mk.injEq] at hu
      rw [← hu.2]
      exact he
    · rw [UpdateCursorPass_ne h0 b e hc] at hu
      exact absurd hu (by simp)

theorem init_bounded (P : PublishPolicy) :
    (CursorState.mk (Cursor.init P) []).bounded := by
  refine ⟨?_, fun x hx => absurd hx (by simp)⟩
  cases P with
  | BUFFERED =>
    refine ⟨le_refl _, ?_⟩
    intro x hx
    have h0 := (pendingEntries_eq_zero_iff ({} : BufferedHelper).unprocessed_reservations_).mpr
      fresh_uninit
    have hx2 : x ∈ pendingEntries ({} : BufferedHelper).unprocessed_reservations_ := hx
    rw [h0] at hx2
    exact absurd hx2 (Multiset.not_mem_zero x)
  | BLOCK => exact le_refl _

theorem step_bounded (role : Role) (s s2 : CursorState) (x : CursorStep)
    (hw : ∀ st, x = CursorStep.reserve st → st.claim_at_load + st.no_of_slots < SIZE_MOD)
    (hb : s.bounded) (hs : s.step role x = some s2) : s2.bounded := by
  obtain ⟨hb1, hb2⟩ := hb
  cases x with
  | reserve st =>
    simp only [CursorState.step] at hs
    cases hp : role.pass st s.cursor.claim_sequence_ with
    | reserved info c =>
      rw [hp] at hs
      simp only [Option.some.injEq] at hs
      obtain ⟨h1, m, hm1, _, hm3, hm4⟩ := Role_PassGrants role st _ info c hp
      have hno := hw st rfl
      have hc : c = s.cursor.claim_sequence_ + m := by
        rw [hm4, size_add_of_lt _ _ (by omega)]
      rw [← hs]
      refine ⟨bounded_mono _ _ _ hb1 (by simp only; omega), ?_⟩
      intro y hy
      simp only [List.mem_cons] at hy
      rcases hy with rfl | hy
      · simp only [hm3, hm4]
        exact le_refl _
      · have := hb2 y hy
        simp only
        omega
    | ret_error info => rw [hp] at hs; simp only [Option.some.injEq] at hs; rw [← hs]; exact ⟨hb1, hb2⟩
    | spin => rw [hp] at hs; simp only [Option.some.injEq] at hs; rw [← hs]; exact ⟨hb1, hb2⟩
    | cas_failed => rw [hp] at hs; simp only [Option.some.injEq] at hs; rw [← hs]; exact ⟨hb1, hb2⟩
  | publish b e =>
    simp only [CursorState.step] at hs
    by_cases hm : (b, e) ∈ s.outstanding
    · rw [if_pos hm] at hs
      have he : e ≤ s.cursor.claim_sequence_ := hb2 (b, e) hm
      cases hu : s.cursor.cursor_updater_.UpdateCursorPass b e with
      | none =>
        rw [hu] at hs
        simp only [Option.some.injEq] at hs
        rw [← hs]
        exact ⟨hb1, hb2⟩
      | some v =>
        obtain ⟨st, u⟩ := v
        have hu2 := UpdateCursorPass_bounded _ u b e _ st hb1 he hu
        rw [hu] at hs
        cases st with
        | NO_SPACE =>
          simp only [Option.some.injEq] at hs
          rw [← hs]
          exact ⟨hu2, hb2⟩
        | SUCCESS =>
          simp only [Option.some.injEq] at hs
          rw [← hs]
          exact ⟨hu2, fun y hy => hb2 y (List.mem_of_mem_erase hy)⟩
        | ERROR =>
          simp only [Option.some.injEq] at hs
          rw [← hs]
          exact ⟨hu2, fun y hy => hb2 y (List.mem_of_mem_erase hy)⟩
    · rw [if_neg hm] at hs
      exact absurd hs (by simp)

theorem run_bounded (role : Role) (steps : List CursorStep) :
    ∀ s s2 : CursorState,
      (∀ st, CursorStep.reserve st ∈ steps → st.claim_at_load + st.no_of_slots < SIZE_MOD) →
      s.bounded → CursorState.run role s steps = some s2 → s2.bounded := by
  induction steps with
  | nil =>
    intro s s2 _ hb hr
    simp only [CursorState.run, Option.some.injEq] at hr
    rw [← hr]
    exact hb
  | cons x rest ih =>
    intro s s2 hw hb hr
    simp only [CursorState.run] at hr
    cases hs : s.step role x with
    | none => rw [hs] at hr; exact absurd hr (by simp)
    | some s1 =>
      rw [hs] at hr
      exact ih s1 s2 (fun st hst => hw st (List.mem_cons_of_mem _ hst))
        (step_bounded role s s1 x (fun st hst => hw st (by rw [hst]; exact List.mem_cons_self _ _))
          hb hs) hr

end disruptor

namespace disruptor

/-- C26 (the visible cursor never passes the claim). Take a fresh cursor of
either strategy (claim 0, visible cursor 0) and any sequence of steps by any
threads, each step a pass of the role's `Reserve` on that cursor or an
attempt to publish a range that such a pass has returned and whose publish
has not returned yet, with no `size_t` wrap in the reservations. In the state
reached the visible cursor is at most the claim sequence; also every
outstanding range and every entry of the pending table ends at or below the
claim. -/
theorem visible_never_passes_claim (role : Role) (P : PublishPolicy)
    (steps : List CursorStep) (s : CursorState)
    (hw : ∀ st, CursorStep.reserve st ∈ steps →
      st.claim_at_load + st.no_of_slots < SIZE_MOD)
    (hr : CursorState.run role { cursor := Cursor.init P, outstanding := [] } steps = some s) :
    s.cursor.GetCursor ≤ s.cursor.claim_sequence_ ∧
      (∀ x ∈ s.outstanding, x.2 ≤ s.cursor.claim_sequence_) ∧
      s.cursor.cursor_updater_.bounded s.cursor.claim_sequence_ := by
  have hb := run_bounded role steps _ s hw (init_bounded P) hr
  exact ⟨bounded_cursor _ _ hb.1, hb.2, hb.1⟩

/-- Witness of C26: the run of the example on a Buffered write cursor. After
the four steps the claim and the visible cursor are both 3. -/
theorem visible_never_passes_claim_witness :
    CursorState.run (Role.writer 8)
        { cursor := Cursor.init PublishPolicy.BUFFERED, outstanding := [] } runExample =
      some runExampleEnd ∧
      runExampleEnd.cursor.GetCursor ≤ runExampleEnd.cursor.claim_sequence_ :=
  ⟨by decide,
    (visible_never_passes_claim (Role.writer 8) PublishPolicy.BUFFERED runExample runExampleEnd
      (by
        intro st hst
        simp only [runExample, List.mem_cons, CursorStep.reserve.injEq, List.mem_singleton,
          reduceCtorEq, or_false, List.not_mem_nil] at hst
        rcases hst with rfl | rfl <;> decide)
      (by decide)).1⟩

end disruptor

namespace disruptor

/-! ## Slots inside a window of `N` sequences -/

theorem GetBufferIDx_ne (k a d : Nat) (hd1 : 0 < d) (hd2 : d < 2 ^ k) :
    RingBuffer.GetBufferIDx (2 ^ k) a ≠ RingBuffer.GetBufferIDx (2 ^ k) (a + d) := by
  rw [GetBufferIDx_eq_mod, GetBufferIDx_eq_mod, ← Nat.mod_add_mod a (2 ^ k) d]
  exact mod_add_ne (2 ^ k) (a % 2 ^ k) d (Nat.mod_lt _ (Nat.pos_pow_of_pos k (by decide)))
    hd1 hd2

theorem GetBufferIDx_window (k lo hi : Nat) (hw : hi ≤ lo + 2 ^ k) (x y : Nat)
    (hx : lo ≤ x) (hxy : x < y) (hy : y < hi) :
    RingBuffer.GetBufferIDx (2 ^ k) x ≠ RingBuffer.GetBufferIDx (2 ^ k) y := by
  have := GetBufferIDx_ne k x (y - x) (by omega) (by omega)
  rw [show x + (y - x) = y by omega] at this
  exact this

/-- C27 (no slot contention inside a window of `N`). For every ring capacity
`N` accepted by the `static_assert` (a non-zero power of two) and all
sequences `a < b` with `b - a < N`, `GetBufferIDx a ≠ GetBufferIDx b`. Hence
while `read.visible ≤ write.claim ≤ read.visible + N`, any two different
sequences in `[read.visible, write.claim)` address different slots (the
sequences of the window are mapped to slots without repetition); in
particular the slot of a sequence reserved by a writer is not the slot of a
lower sequence at or above the read-visible cursor. -/
theorem no_slot_contention (N : Nat) (hN : RingBuffer.static_assert N = true) (a b : Nat)
    (hab : a < b) (hd : b - a < N) :
    RingBuffer.GetBufferIDx N a ≠ RingBuffer.GetBufferIDx N b ∧
      (∀ read_visible write_claim : Nat, read_visible ≤ write_claim →
        write_claim ≤ read_visible + N →
        (∀ x y, read_visible ≤ x → x < write_claim → read_visible ≤ y → y < write_claim →
          x ≠ y → RingBuffer.GetBufferIDx N x ≠ RingBuffer.GetBufferIDx N y) ∧
        ((List.range' read_visible (write_claim - read_visible)).map
          (RingBuffer.GetBufferIDx N)).Nodup) := by
  obtain ⟨k, rfl⟩ := (static_assert_iff N).mp hN
  have hpair : ∀ read_visible write_claim : Nat, write_claim ≤ read_visible + 2 ^ k →
      ∀ x y, read_visible ≤ x → x < write_claim → read_visible ≤ y → y < write_claim →
        x ≠ y → RingBuffer.GetBufferIDx (2 ^ k) x ≠ RingBuffer.GetBufferIDx (2 ^ k) y := by
    intro rv wc hw x y hx1 hx2 hy1 hy2 hxy
    rcases Nat.lt_or_gt_of_ne hxy with h | h
    · exact GetBufferIDx_window k rv wc hw x y hx1 h hy2
    · exact (GetBufferIDx_window k rv wc hw y x hy1 h hx2).symm
  refine ⟨GetBufferIDx_window k a (b + 1) (by omega) a b (le_refl _) hab (by omega), ?_⟩
  intro rv wc h1 h2
  refine ⟨hpair rv wc h2, ?_⟩
  apply List.Nodup.map_on _ (List.nodup_range' _ _)
  intro x hx y hy hxy
  rw [List.mem_range'_1] at hx hy
  by_contra hne
  exact hpair rv wc h2 x y hx.1 (by omega) hy.1 (by omega) hne hxy

/-- Witness of C27: on 512 slots the sequences 5 and 516 address different
slots. -/
theorem no_slot_contention_witness :
    RingBuffer.GetBufferIDx 512 5 ≠ RingBuffer.GetBufferIDx 512 516 :=
  (no_slot_contention 512 (by decide) 5 516 (by decide) (by decide)).1

end disruptor

namespace disruptor

/-! ## What `WriteCursor::Write` changes in the ring -/

theorem at_set_at {Elem : Type} [Inhabited Elem] {N : Nat} (b : RingBuffer Elem N)
    (slot pos : Nat) (v : Sequence Elem) :
    (b.set_at slot v).at pos =
      if RingBuffer.GetBufferIDx N pos = RingBuffer.GetBufferIDx N slot ∧
          RingBuffer.GetBufferIDx N slot < b.buffer_.length then v
      else b.at pos := by
  unfold RingBuffer.at RingBuffer.set_at
  simp only [List.getD_eq_getElem?_getD, List.getElem?_set]
  by_cases h1 : RingBuffer.GetBufferIDx N slot = RingBuffer.GetBufferIDx N pos
  · by_cases h2 : RingBuffer.GetBufferIDx N slot < b.buffer_.length
    · simp [h1, h2, h1 ▸ h2]
    · have h3 : ¬ RingBuffer.GetBufferIDx N pos < b.buffer_.length := h1 ▸ h2
      simp [h1, h3, List.getElem?_eq_none (Nat.le_of_not_lt h3)]
  · have h1b : ¬ RingBuffer.GetBufferIDx N pos = RingBuffer.GetBufferIDx N slot :=
      fun h => h1 h.symm
    simp [h1, h1b]

theorem length_set_at {Elem : Type} {N : Nat} (b : RingBuffer Elem N)
    (slot : Nat) (v : Sequence Elem) :
    (b.set_at slot v).buffer_.length = b.buffer_.length := by
  unfold RingBuffer.set_at
  exact List.length_set _ _ _

/-- The slot record found at any sequence after a `Write`: at the sequences
of the written slot the payload is the new one and the flag is the old flag
or-ed with `is_eof`; everywhere else nothing changed. -/
theorem Write_at {Elem : Type} [Inhabited Elem] {N : Nat} (b : RingBuffer Elem N)
    (slot pos : Nat) (data : Elem) (is_eof : Bool) :
    (WriteCursor.Write b slot data is_eof).at pos =
      if RingBuffer.GetBufferIDx N pos = RingBuffer.GetBufferIDx N slot ∧
          RingBuffer.GetBufferIDx N slot < b.buffer_.length then
        { data_ := data, is_eof_ := is_eof || (b.at slot).is_eof_ }
      else b.at pos := by
  unfold WriteCursor.Write
  by_cases hc : RingBuffer.GetBufferIDx N pos = RingBuffer.GetBufferIDx N slot ∧
      RingBuffer.GetBufferIDx N slot < b.buffer_.length
  · cases is_eof with
    | false =>
      simp only [Bool.false_eq_true, if_false, at_set_at, hc, and_self, if_true,
        Bool.false_or]
    | true =>
      simp only [if_true, at_set_at, length_set_at, hc, and_self, Sequence.set_eof,
        Bool.true_or]
  · cases is_eof with
    | false => simp only [Bool.false_eq_true, if_false, at_set_at, hc]
    | true => simp only [if_true, at_set_at, length_set_at, hc, if_false]

/-- The array entries other than the one of the written slot are the same
before and after a `Write`. -/
theorem Write_frame {Elem : Type} [Inhabited Elem] {N : Nat} (b : RingBuffer Elem N)
    (slot : Nat) (data : Elem) (is_eof : Bool) (i : Nat)
    (hi : i ≠ RingBuffer.GetBufferIDx N slot) :
    (WriteCursor.Write b slot data is_eof).buffer_[i]? = b.buffer_[i]? ∧
      (WriteCursor.Write b slot data is_eof).buffer_.length = b.buffer_.length := by
  unfold WriteCursor.Write
  cases is_eof with
  | false =>
    simp only [Bool.false_eq_true, if_false, RingBuffer.set_at, List.length_set]
    exact ⟨List.getElem?_set_ne (Ne.symm hi), trivial⟩
  | true =>
    simp only [if_true, RingBuffer.set_at, List.length_set]
    refine ⟨?_, trivial⟩
    rw [List.getElem?_set_ne (Ne.symm hi), List.getElem?_set_ne (Ne.symm hi)]

end disruptor

namespace disruptor

theorem Write_length {Elem : Type} [Inhabited Elem] {N : Nat} (b : RingBuffer Elem N)
    (slot : Nat) (data : Elem) (is_eof : Bool) :
    (WriteCursor.Write b slot data is_eof).buffer_.length = b.buffer_.length := by
  unfold WriteCursor.Write
  cases is_eof <;> simp [RingBuffer.set_at]

theorem WriteList_length {Elem : Type} [Inhabited Elem] {N : Nat}
    (ws : List (Nat × Elem × Bool)) :
    ∀ b : RingBuffer Elem N, (WriteCursor.WriteList b ws).buffer_.length = b.buffer_.length := by
  induction ws with
  | nil => intro b; rfl
  | cons w rest ih =>
    intro b
    obtain ⟨slot, data, f⟩ := w
    unfold WriteCursor.WriteList
    rw [ih, Write_length]

/-- A flag that is set stays set through a `Write`. -/
theorem Write_eof_stays {Elem : Type} [Inhabited Elem] {N : Nat} (b : RingBuffer Elem N)
    (slot pos : Nat) (data : Elem) (is_eof : Bool) (h : (b.at pos).is_eof = true) :
    ((WriteCursor.Write b slot data is_eof).at pos).is_eof = true := by
  rw [Write_at]
  by_cases hc : RingBuffer.GetBufferIDx N pos = RingBuffer.GetBufferIDx N slot ∧
      RingBuffer.GetBufferIDx N slot < b.buffer_.length
  · rw [if_pos hc]
    have hat : b.at slot = b.at pos := by
      unfold RingBuffer.at
      rw [hc.1]
    have h2 : (b.at slot).is_eof_ = true := by rw [hat]; exact h
    simp [Sequence.is_eof, h2]
  · rw [if_neg hc]
    exact h

theorem WriteList_eof_stays {Elem : Type} [Inhabited Elem] {N : Nat}
    (ws : List (Nat × Elem × Bool)) (pos : Nat) :
    ∀ b : RingBuffer Elem N, (b.at pos).is_eof = true →
      ((WriteCursor.WriteList b ws).at pos).is_eof = true := by
  induction ws with
  | nil => intro b h; exact h
  | cons w rest ih =>
    intro b h
    obtain ⟨slot, data, f⟩ := w
    unfold WriteCursor.WriteList
    exact ih _ (Write_eof_stays b slot pos data f h)

theorem at_add_N {Elem : Type} [Inhabited Elem] (k : Nat) (b : RingBuffer Elem (2 ^ k))
    (pos : Nat) : b.at (pos + 2 ^ k) = b.at pos := by
  unfold RingBuffer.at
  rw [GetBufferIDx_eq_mod, GetBufferIDx_eq_mod, Nat.add_mod_right]

theorem GetBufferIDx_lt (N : Nat) (hN : RingBuffer.static_assert N = true) (pos : Nat) :
    RingBuffer.GetBufferIDx N pos < N := by
  obtain ⟨k, rfl⟩ := (static_assert_iff N).mp hN
  rw [GetBufferIDx_eq_mod]
  exact Nat.mod_lt _ (Nat.pos_pow_of_pos k (by decide))

/-- C28 (what `WriteCursor::Write` changes). On a ring of `N` slot records,
`N` accepted by the `static_assert`, `Write(slot, data, is_eof)` leaves in
the array entry at `GetBufferIDx(slot)`, which is what `at(slot)` returns,
the payload `data` and as flag the old flag or-ed with `is_eof`: when
`is_eof` is true the flag is true. Every other array entry, payload and flag,
is as before, so `at(pos)` is unchanged for every sequence `pos` that
addresses another slot; the array keeps its `N` entries. -/
theorem write_stores_payload (Elem : Type) [Inhabited Elem] (N : Nat)
    (hN : RingBuffer.static_assert N = true) (b : RingBuffer Elem N)
    (hlen : b.buffer_.length = N) (slot : Nat) (data : Elem) (is_eof : Bool) :
    ((WriteCursor.Write b slot data is_eof).at slot).data = data ∧
      (is_eof = true → ((WriteCursor.Write b slot data is_eof).at slot).is_eof = true) ∧
      (WriteCursor.Write b slot data is_eof).buffer_[RingBuffer.GetBufferIDx N slot]? =
        some { data_ := data, is_eof_ := is_eof || (b.at slot).is_eof_ } ∧
      (∀ i, i ≠ RingBuffer.GetBufferIDx N slot →
        (WriteCursor.Write b slot data is_eof).buffer_[i]? = b.buffer_[i]?) ∧
      (∀ pos, RingBuffer.GetBufferIDx N pos ≠ RingBuffer.GetBufferIDx N slot →
        (WriteCursor.Write b slot data is_eof).at pos = b.at pos) ∧
      (WriteCursor.Write b slot data is_eof).buffer_.length = N := by
  have hidx : RingBuffer.GetBufferIDx N slot < b.buffer_.length := by
    rw [hlen]
    exact GetBufferIDx_lt N hN slot
  have hat : (WriteCursor.Write b slot data is_eof).at slot =
      { data_ := data, is_eof_ := is_eof || (b.at slot).is_eof_ } := by
    rw [Write_at, if_pos ⟨rfl, hidx⟩]
  refine ⟨by rw [hat]; rfl, ?_, ?_, ?_, ?_, by rw [Write_length, hlen]⟩
  · intro h
    rw [hat, h]
    rfl
  · have hidx2 : RingBuffer.GetBufferIDx N slot <
        (WriteCursor.Write b slot data is_eof).buffer_.length := by
      rw [Write_length]
      exact hidx
    rw [← hat]
    unfold RingBuffer.at
    rw [List.getD_eq_getElem?_getD, List.getElem?_eq_getElem hidx2]
    rfl
  · intro i hi
    exact (Write_frame b slot data is_eof i hi).1
  · intro pos hpos
    rw [Write_at, if_neg (fun h => hpos h.1)]

/-- Witness of C28: on a fresh ring of 8 slots, `Write(11, 42, true)` puts
payload 42 and a set flag into the slot of sequence 11 (slot 3). -/
theorem write_stores_payload_witness :
    ((WriteCursor.Write (RingBuffer.init 8 : RingBuffer Nat 8) 11 42 true).at 11).data = 42 ∧
      ((WriteCursor.Write (RingBuffer.init 8 : RingBuffer Nat 8) 11 42 true).at 11).is_eof =
        true :=
  ⟨(write_stores_payload Nat 8 (by decide) (RingBuffer.init 8) (by decide) 11 42 true).1,
    (write_stores_payload Nat 8 (by decide) (RingBuffer.init 8) (by decide) 11 42 true).2.1
      rfl⟩

/-- C29 (a write with `is_eof == false` never clears the EOF flag).
`Write(slot, data, false)` leaves the flag of every slot, the written one
included, exactly as it was; no `Write` clears a flag that is set, so a set
flag survives every sequence of writes; `ReaderWriter::Reset`,
`ReaderWriter::Read` and `ReadResult::Release` do not touch the ring. So on a
ring of `N` slot records (`N` accepted by the `static_assert`), after a write
at sequence `slot` with `is_eof = true`, any writes, and a write at sequence
`slot + N` with `is_eof = false`, the record the reader of sequence
`slot + N` gets (`at`, and through its iterator) holds the new payload and
still reports `is_eof() == true`. -/
theorem write_never_clears_eof (Elem : Type) [Inhabited Elem] (N : Nat)
    (b : RingBuffer Elem N) (slot : Nat) (data : Elem) :
    (∀ pos, ((WriteCursor.Write b slot data false).at pos).is_eof = (b.at pos).is_eof) ∧
      (∀ (is_eof : Bool) (pos : Nat), (b.at pos).is_eof = true →
        ((WriteCursor.Write b slot data is_eof).at pos).is_eof = true) ∧
      (∀ (ws : List (Nat × Elem × Bool)) (pos : Nat), (b.at pos).is_eof = true →
        ((WriteCursor.WriteList b ws).at pos).is_eof = true) ∧
      (∀ rw : ReaderWriter Elem N, rw.Reset.buffer_ = rw.buffer_) ∧
      (∀ (fuel : Nat) (rw rw2 : ReaderWriter Elem N) (num : Nat) (res : ReadResult),
        ReaderWriter.Read fuel rw num = some (res, rw2) → rw2.buffer_ = rw.buffer_) ∧
      (∀ (fuel : Nat) (rw rw2 : ReaderWriter Elem N) (res : ReadResult),
        res.Release fuel rw = some rw2 → rw2.buffer_ = rw.buffer_) ∧
      (RingBuffer.static_assert N = true → b.buffer_.length = N →
        ∀ (d1 d2 : Elem) (ws : List (Nat × Elem × Bool)),
          ((WriteCursor.Write (WriteCursor.WriteList (WriteCursor.Write b slot d1 true) ws)
            (slot + N) d2 false).at (slot + N)).is_eof = true ∧
          ((WriteCursor.Write (WriteCursor.WriteList (WriteCursor.Write b slot d1 true) ws)
            (slot + N) d2 false).at (slot + N)).data = d2 ∧
          (RingIterator.deref
            (WriteCursor.Write (WriteCursor.WriteList (WriteCursor.Write b slot d1 true) ws)
              (slot + N) d2 false)
            ((WriteCursor.Write (WriteCursor.WriteList (WriteCursor.Write b slot d1 true) ws)
              (slot + N) d2 false).GetIterator (slot + N))).is_eof = true) := by
  refine ⟨?_, ?_, ?_, ?_, ?_, ?_, ?_⟩
  · intro pos
    rw [Write_at]
    by_cases hc : RingBuffer.GetBufferIDx N pos = RingBuffer.GetBufferIDx N slot ∧
        RingBuffer.GetBufferIDx N slot < b.buffer_.length
    · rw [if_pos hc]
      have hat : b.at slot = b.at pos := by
        unfold RingBuffer.at
        rw [hc.1]
      rw [← hat]
      simp [Sequence.is_eof]
    · rw [if_neg hc]
  · intro is_eof pos h
    exact Write_eof_stays b slot pos data is_eof h
  · intro ws pos h
    exact WriteList_eof_stays ws pos b h
  · intro rw
    rfl
  · intro fuel rw rw2 num res h
    unfold ReaderWriter.Read at h
    cases hr : ReadCursor.Reserve fuel rw.read_cursor_ rw.write_cursor_ num with
    | none => rw [hr] at h; exact absurd h (by simp)
    | some v =>
      obtain ⟨info, rc⟩ := v
      rw [hr] at h
      simp only at h
      split at h <;>
        (simp only [Option.some.injEq, Prod.mk.injEq] at h
         rw [← h.2])
  · intro fuel rw rw2 res h
    unfold ReadResult.Release at h
    split at h
    · cases hp : Cursor.Publish fuel rw.read_cursor_ res.start_ res.end_ with
      | none => rw [hp] at h; exact absurd h (by simp)
      | some rc =>
        rw [hp] at h
        simp only [Option.some.injEq] at h
        rw [← h]
    · simp only [Option.some.injEq] at h
      rw [h]
  · intro hN hlen d1 d2 ws
    obtain ⟨k, rfl⟩ := (static_assert_iff N).mp hN
    have hN2 : RingBuffer.static_assert (2 ^ k) = true := (static_assert_iff _).mpr ⟨k, rfl⟩
    have hidx : ∀ pos, RingBuffer.GetBufferIDx (2 ^ k) pos < b.buffer_.length := by
      intro pos
      rw [hlen]
      exact GetBufferIDx_lt _ hN2 pos
    have h1 : ((WriteCursor.Write b slot d1 true).at slot).is_eof = true := by
      rw [Write_at, if_pos ⟨rfl, hidx slot⟩]
      rfl
    have h2 := WriteList_eof_stays ws slot _ h1
    have h3 : ((WriteCursor.WriteList (WriteCursor.Write b slot d1 true) ws).at
        (slot + 2 ^ k)).is_eof = true := by
      rw [at_add_N]
      exact h2
    have h4 := Write_eof_stays _ (slot + 2 ^ k) (slot + 2 ^ k) d2 false h3
    refine ⟨h4, ?_, h4⟩
    rw [Write_at, if_pos ⟨rfl, by rw [WriteList_length, Write_length]; exact hidx _⟩]
    rfl

/-- Witness of C29: on a fresh ring of 8 slots, sequence 3 is written with
`is_eof = true` and sequence 11 (the same slot) with `is_eof = false`: the
reader of sequence 11 finds payload 8 and a set flag. -/
theorem write_never_clears_eof_witness :
    ((WriteCursor.Write
        (WriteCursor.WriteList (WriteCursor.Write (RingBuffer.init 8 : RingBuffer Nat 8) 3 7 true)
          [])
        (3 + 8) 8 false).at (3 + 8)).is_eof = true ∧
      ((WriteCursor.Write
        (WriteCursor.WriteList (WriteCursor.Write (RingBuffer.init 8 : RingBuffer Nat 8) 3 7 true)
          [])
        (3 + 8) 8 false).at (3 + 8)).data = 8 :=
  ⟨((write_never_clears_eof Nat 8 (RingBuffer.init 8) 3 0).2.2.2.2.2.2 (by decide) (by decide)
      7 8 []).1,
    ((write_never_clears_eof Nat 8 (RingBuffer.init 8) 3 0).2.2.2.2.2.2 (by decide) (by decide)
      7 8 []).2.1⟩

end disruptor

namespace disruptor

/-! ## Entries that begin below the cursor -/

theorem spec_first_free_spec (tbl : List Reservation) (j : Nat)
    (h : spec_first_free tbl = some j) :
    ∃ x, tbl[j]? = some x ∧ x.is_initialised = false := by
  unfold spec_first_free at h
  obtain ⟨hj, hp, _⟩ := List.findIdx?_eq_some_iff_getElem.mp h
  exact ⟨tbl[j], List.getElem?_eq_getElem hj, by simpa using hp⟩

theorem tableValid_set (tbl : List Reservation) (j : Nat) (v : Reservation)
    (hv : tableValid tbl) (h : v.is_initialised = true → v.pos_begin < v.pos_end) :
    tableValid (tbl.set j v) := by
  intro y hy
  rcases List.mem_or_eq_of_mem_set hy with h1 | h1
  · exact hv y h1
  · rw [h1]
    exact h

/-- The merge loop started above the `pos_begin` of an entry never changes
that entry, when the initialised entries are ranges with
`pos_begin < pos_end`. -/
theorem mergeLoop_keeps (i : Nat) (r : Reservation) (fuel : Nat) :
    ∀ (tbl : List Reservation) (t : Nat), tableValid tbl → tbl[i]? = some r →
      r.pos_begin < t → (mergeLoop fuel tbl t).1[i]? = some r := by
  induction fuel with
  | zero => intro tbl t _ h _; exact h
  | succ fuel ih =>
    intro tbl t hv hi ht
    unfold mergeLoop
    rw [mergeScan_eq_spec]
    cases hm : spec_first_match t tbl with
    | none => exact hi
    | some j =>
      obtain ⟨x, hx1, hx2, hx3, hx4⟩ := spec_first_match_some t tbl j hm
      simp only [Option.map_some', hx2]
      have hji : j ≠ i := by
        intro hji
        rw [hji, hi] at hx1
        have := Option.some.inj hx1
        rw [← this] at hx4
        omega
      have hxm : x ∈ tbl := List.getElem?_mem hx1
      have hxv := hv x hxm hx3
      apply ih
      · exact tableValid_set tbl j _ hv (fun h => absurd h (by simp))
      · rw [List.getElem?_set_ne hji]
        exact hi
      · omega

/-- A call of `UpdateCursor` leaves an initialised entry that begins below
the cursor as it is. -/
theorem UpdateCursor_keeps (s : BufferedHelper) (b e i : Nat) (r : Reservation)
    (hv : tableValid s.unprocessed_reservations_)
    (hi : s.unprocessed_reservations_[i]? = some r) (hr : r.is_initialised = true)
    (hrc : r.pos_begin < s.cursor_) :
    (s.UpdateCursor b e).2.unprocessed_reservations_[i]? = some r := by
  by_cases h1 : e ≤ s.cursor_
  · rw [UpdateCursor_stale s b e h1]
    exact hi
  · by_cases h2 : b = s.cursor_
    · unfold BufferedHelper.UpdateCursor
      simp only [h1, h2, if_false, if_true]
      exact mergeLoop_keeps i r _ _ _ hv hi (by omega)
    · rw [UpdateCursor_else s b e (by omega) h2]
      cases hf : spec_first_free s.unprocessed_reservations_ with
      | none => exact hi
      | some j =>
        obtain ⟨x, hx1, hx2⟩ := spec_first_free_spec _ j hf
        have hji : j ≠ i := by
          intro hji
          rw [hji, hi] at hx1
          have := Option.some.inj hx1
          rw [← this, hr] at hx2
          exact absurd hx2 (by simp)
        simp only
        rw [List.getElem?_set_ne hji]
        exact hi

theorem UpdateCursorAll_keeps (i : Nat) (r : Reservation) (hr : r.is_initialised = true)
    (reports : List (Nat × Nat)) :
    ∀ s : BufferedHelper, (∀ x ∈ reports, x.1 < x.2) →
      tableValid s.unprocessed_reservations_ →
      s.unprocessed_reservations_[i]? = some r → r.pos_begin < s.cursor_ →
      (s.UpdateCursorAll reports).2.unprocessed_reservations_[i]? = some r := by
  induction reports with
  | nil => intro s _ _ h _; exact h
  | cons x rest ih =>
    intro s hx hv hi hrc
    obtain ⟨b, e⟩ := x
    rw [UpdateCursorAll_cons]
    have hbe : b < e := hx (b, e) (List.mem_cons_self _ _)
    obtain ⟨c1, c2⟩ := UpdateCursor_cursor_le s b e hbe hv
    exact ih _ (fun y hy => hx y (List.mem_cons_of_mem _ hy)) c2
      (UpdateCursor_keeps s b e i r hv hi hr hrc) (by omega)

end disruptor

namespace barrier

/-- A generation-start state at the end of the range of `int`: with the gate
at `2^31 - 2` and `count = 4`, the first arrival of the generation obtains the wrapped value
`2^31 + 1 - 2^32`, which is below the gate, and the condition of its waiting
loop is false while the gate still holds the old value. -/
theorem spin_condition_at_wrap :
    (Barrier.Arrive 4 { go_signal_ := 2147483646, current_ := int_wrap (2147483646 + 4) }).1 =
        { current_seq := -2147483647, last := false } ∧
      Barrier.spin_condition 4 2147483646 2147483646 (-2147483647) = false := by
  decide

end barrier

namespace disruptor

/-- A table with a reversed entry: it holds the entry `(10, 3)`, which no report with `pos_begin < pos_end` stores. With the cursor
at 5 the report `(5, 10)` is merged with it and the cursor becomes 3. -/
theorem merge_reversed_entry_example :
    (BufferedHelper.mk (Reservation.mk2 10 3 :: List.replicate (LIM - 1) {}) 5).UpdateCursor
        5 10 =
      (PublishUpdateStatus.SUCCESS, BufferedHelper.mk (List.replicate LIM {} |>.set 0
        { pos_begin := 10, pos_end := 3, is_initialised := false }) 3) := by
  decide

end disruptor

namespace disruptor

/-! ## Termination of the merge loop -/

/-- A scan that finds a match marks one initialised entry uninitialised and
changes nothing else. -/
theorem mergeScan_marks (t : Nat) (tbl : List Reservation) (t2 : Nat)
    (tbl2 : List Reservation) (h : mergeScan t tbl = some (t2, tbl2)) :
    ∃ (j : Nat) (x : Reservation), tbl[j]? = some x ∧ x.is_initialised = true ∧
      x.pos_begin = t ∧ t2 = x.pos_end ∧
      tbl2 = tbl.set j { x with is_initialised := false } ∧
      countInit tbl2 + 1 = countInit tbl := by
  have hc := mergeScan_countInit t tbl t2 tbl2 h
  rw [mergeScan_eq_spec] at h
  cases hm : spec_first_match t tbl with
  | none => rw [hm] at h; exact absurd h (by simp)
  | some j =>
    obtain ⟨x, hx1, hx2, hx3, hx4⟩ := spec_first_match_some t tbl j hm
    rw [hm] at h
    simp only [Option.map_some', hx2, Option.some.injEq, Prod.mk.injEq] at h
    exact ⟨j, x, hx1, hx3, hx4, h.1.symm, h.2.symm, hc.symm⟩

/-- With more scans allowed than there are initialised entries the loop ends:
it makes `n` matching scans, `n` at most the number of initialised entries
and equal to the number of entries it marks uninitialised, and one scan
without a match; the result is that of `mergeLoop`. -/
theorem mergeLoopRun_eq (fuel : Nat) :
    ∀ (tbl : List Reservation) (t : Nat), countInit tbl < fuel →
      ∃ n, n ≤ countInit tbl ∧
        mergeLoopRun fuel tbl t =
          some ((mergeLoop fuel tbl t).1, (mergeLoop fuel tbl t).2, n) ∧
        countInit (mergeLoop fuel tbl t).1 + n = countInit tbl := by
  induction fuel with
  | zero => intro tbl t h; omega
  | succ fuel ih =>
    intro tbl t h
    unfold mergeLoopRun mergeLoop
    cases hm : mergeScan t tbl with
    | none => exact ⟨0, Nat.zero_le _, rfl, rfl⟩
    | some v =>
      obtain ⟨t2, tbl2⟩ := v
      have hc := mergeScan_countInit t tbl t2 tbl2 hm
      obtain ⟨n, hn1, hn2, hn3⟩ := ih tbl2 t2 (by omega)
      refine ⟨n + 1, by omega, ?_, by simp only; omega⟩
      simp only [hn2]

/-- The scans of the loop are exactly as many as its fuel allows no more:
with `n` matching scans, `n + 1` scans are enough and `n` are not. -/
theorem mergeLoopRun_scans (fuel : Nat) :
    ∀ (tbl tbl2 : List Reservation) (t t2 n : Nat),
      mergeLoopRun fuel tbl t = some (tbl2, t2, n) →
      n < fuel ∧ mergeLoopRun (n + 1) tbl t = some (tbl2, t2, n) ∧
        mergeLoopRun n tbl t = none := by
  induction fuel with
  | zero => intro tbl tbl2 t t2 n h; exact absurd h (by simp [mergeLoopRun])
  | succ fuel ih =>
    intro tbl tbl2 t t2 n h
    unfold mergeLoopRun at h
    cases hm : mergeScan t tbl with
    | none =>
      rw [hm] at h
      simp only [Option.some.injEq, Prod.mk.injEq] at h
      obtain ⟨h1, h2, h3⟩ := h
      subst h1 h2 h3
      exact ⟨Nat.succ_pos _, by simp [mergeLoopRun, hm], rfl⟩
    | some v =>
      obtain ⟨t3, tbl3⟩ := v
      rw [hm] at h
      simp only at h
      cases hr : mergeLoopRun fuel tbl3 t3 with
      | none => rw [hr] at h; exact absurd h (by simp)
      | some w =>
        obtain ⟨tbl4, t4, m⟩ := w
        rw [hr] at h
        simp only [Option.some.injEq, Prod.mk.injEq] at h
        obtain ⟨h1, h2, h3⟩ := h
        subst h1 h2 h3
        obtain ⟨a1, a2, a3⟩ := ih tbl3 tbl4 t3 t4 m hr
        refine ⟨by omega, ?_, ?_⟩
        · show mergeLoopRun (m + 1 + 1) tbl t = _
          conv_lhs => unfold mergeLoopRun
          simp only [hm, a2]
        · conv_lhs => unfold mergeLoopRun
          simp only [hm, a3]

theorem ScopedBarrier_ctor_free (fuel : Nat) :
    barrier.ScopedBarrier.ctor (fuel + 1) false = some true := by
  simp [barrier.ScopedBarrier.ctor]

theorem ScopedBarrier_ctor_held (fuel : Nat) :
    barrier.ScopedBarrier.ctor fuel true = none := by
  induction fuel with
  | zero => rfl
  | succ fuel ih => simp [barrier.ScopedBarrier.ctor, ih]

/-- Once the flag is free, the call with its lock and loop spelled out returns
what `UpdateCursor` returns, and has released the flag. -/
theorem UpdateCursorRun_eq (fuel : Nat) (s : BufferedHelper) (b e : Nat)
    (hf : countInit s.unprocessed_reservations_ < fuel) :
    BufferedHelper.UpdateCursorRun fuel false s b e =
      some ((s.UpdateCursor b e).1, (s.UpdateCursor b e).2, false) := by
  obtain ⟨f, rfl⟩ : ∃ f, fuel = f + 1 := ⟨fuel - 1, by omega⟩
  unfold BufferedHelper.UpdateCursorRun BufferedHelper.UpdateCursor
  rw [ScopedBarrier_ctor_free]
  simp only
  by_cases h1 : e ≤ s.cursor_
  · simp only [h1, if_true, barrier.ScopedBarrier.dtor]
  · by_cases h2 : b = s.cursor_
    · simp only [h1, h2, if_false, if_true]
      obtain ⟨n, _, hn, _⟩ := mergeLoopRun_eq (f + 1) s.unprocessed_reservations_ e hf
      rw [hn]
      simp only [barrier.ScopedBarrier.dtor]
      rw [mergeLoop_fuel_indep (f + 1) (s.unprocessed_reservations_.length + 1) _ _ hf
        (Nat.lt_succ_of_le (countInit_le_length _))]
    · simp only [h1, h2, if_false]
      cases storeFirstFree b e s.unprocessed_reservations_ <;>
        simp only [barrier.ScopedBarrier.dtor]

end disruptor

namespace disruptor

/-- C31 (the Buffered merge loop terminates). For every pending-table content
(entries with `pos_end ≤ pos_begin` included) and every mergeable report
`(cursor, pos_end)` with `cursor < pos_end`: a scan that finds a match marks
one initialised entry uninitialised and changes nothing else, so the number
of initialised entries goes down by one; the loop therefore makes exactly `n`
matching scans and one final scan without a match, where `n` is at most the
number `k` of initialised entries on entry (`n + 1` scans are enough, `n` are
not), the `n` entries it marked are the ones missing from the count
afterwards, and `k` is at most the length of the table, 20 for the array of
the source. So the call, with the lock and the loop spelled out, returns as
soon as it holds `sync_flag_`, with the result of `UpdateCursor`, and has
released the flag when it returns; the same holds for the other branches of
`UpdateCursor`. While another thread holds the flag the call waits in the
constructor of the `ScopedBarrier`. When the initialised entries are ranges
with `pos_begin < pos_end`, the conditions asserted in `UpdateCursor` hold,
so the call also returns in a build with `assert` active. -/
theorem merge_loop_terminates (s : BufferedHelper) (e : Nat) (he : s.cursor < e) :
    (∀ (t : Nat) (tbl : List Reservation) (t2 : Nat) (tbl2 : List Reservation),
      mergeScan t tbl = some (t2, tbl2) →
      ∃ (j : Nat) (x : Reservation), tbl[j]? = some x ∧ x.is_initialised = true ∧
        x.pos_begin = t ∧ t2 = x.pos_end ∧
        tbl2 = tbl.set j { x with is_initialised := false } ∧
        countInit tbl2 + 1 = countInit tbl) ∧
      (∃ n : Nat, n ≤ countInit s.unprocessed_reservations_ ∧
        (∀ fuel, countInit s.unprocessed_reservations_ < fuel →
          mergeLoopRun fuel s.unprocessed_reservations_ e =
            some ((s.UpdateCursor s.cursor e).2.unprocessed_reservations_,
              (s.UpdateCursor s.cursor e).2.cursor_, n)) ∧
        mergeLoopRun (n + 1) s.unprocessed_reservations_ e =
          some ((s.UpdateCursor s.cursor e).2.unprocessed_reservations_,
            (s.UpdateCursor s.cursor e).2.cursor_, n) ∧
        mergeLoopRun n s.unprocessed_reservations_ e = none ∧
        countInit (s.UpdateCursor s.cursor e).2.unprocessed_reservations_ + n =
          countInit s.unprocessed_reservations_ ∧
        mergeScan (s.UpdateCursor s.cursor e).2.cursor_
          (s.UpdateCursor s.cursor e).2.unprocessed_reservations_ = none) ∧
      countInit s.unprocessed_reservations_ ≤ s.unprocessed_reservations_.length ∧
      (s.unprocessed_reservations_.length = LIM →
        countInit s.unprocessed_reservations_ ≤ 20) ∧
      (∀ fuel, countInit s.unprocessed_reservations_ < fuel →
        BufferedHelper.UpdateCursorRun fuel false s s.cursor e =
          some (PublishUpdateStatus.SUCCESS, (s.UpdateCursor s.cursor e).2, false)) ∧
      (s.unprocessed_reservations_.length = LIM →
        BufferedHelper.UpdateCursorRun (LIM + 1) false s s.cursor e =
          some (PublishUpdateStatus.SUCCESS, (s.UpdateCursor s.cursor e).2, false)) ∧
      (∀ (fuel pos_begin pos_end : Nat), countInit s.unprocessed_reservations_ < fuel →
        BufferedHelper.UpdateCursorRun fuel false s pos_begin pos_end =
          some ((s.UpdateCursor pos_begin pos_end).1, (s.UpdateCursor pos_begin pos_end).2,
            false)) ∧
      (∀ (fuel pos_begin pos_end : Nat),
        BufferedHelper.UpdateCursorRun fuel true s pos_begin pos_end = none) ∧
      (tableValid s.unprocessed_reservations_ →
        s.UpdateCursor_assert s.cursor e = true) := by
  have he2 : s.cursor_ < e := he
  have hk := countInit_le_length s.unprocessed_reservations_
  have hU : s.UpdateCursor s.cursor e =
      (PublishUpdateStatus.SUCCESS,
        { unprocessed_reservations_ :=
            (mergeLoop (s.unprocessed_reservations_.length + 1)
              s.unprocessed_reservations_ e).1,
          cursor_ :=
            (mergeLoop (s.unprocessed_reservations_.length + 1)
              s.unprocessed_reservations_ e).2 }) := by
    unfold BufferedHelper.UpdateCursor BufferedHelper.cursor
    simp only [Nat.not_le.mpr he2, if_false, if_true]
  have hlt : countInit s.unprocessed_reservations_ < s.unprocessed_reservations_.length + 1 :=
    Nat.lt_succ_of_le hk
  obtain ⟨n, hn1, hn2, hn3⟩ := mergeLoopRun_eq (s.unprocessed_reservations_.length + 1)
    s.unprocessed_reservations_ e hlt
  obtain ⟨_, hs2, hs3⟩ := mergeLoopRun_scans _ _ _ _ _ _ hn2
  have hrun : ∀ fuel, countInit s.unprocessed_reservations_ < fuel →
      BufferedHelper.UpdateCursorRun fuel false s s.cursor e =
        some (PublishUpdateStatus.SUCCESS, (s.UpdateCursor s.cursor e).2, false) := by
    intro fuel hf
    rw [UpdateCursorRun_eq fuel s s.cursor e hf, hU]
  refine ⟨mergeScan_marks, ⟨n, hn1, ?_, ?_, hs3, ?_, ?_⟩, hk, ?_, hrun, ?_, ?_, ?_, ?_⟩
  · intro fuel hf
    obtain ⟨m, _, hm2, hm3⟩ := mergeLoopRun_eq fuel s.unprocessed_reservations_ e hf
    rw [mergeLoop_fuel_indep fuel (s.unprocessed_reservations_.length + 1) _ _ hf hlt]
      at hm2 hm3
    have hmn : m = n := by omega
    rw [hm2, hU, hmn]
  · rw [hU]
    exact hs2
  · rw [hU]
    exact hn3
  · rw [hU]
    exact mergeLoop_fuel _ _ _ hlt
  · intro hlen
    have : LIM = 20 := rfl
    omega
  · intro hlen
    exact hrun (LIM + 1) (by omega)
  · intro fuel b2 e2 hf
    exact UpdateCursorRun_eq fuel s b2 e2 hf
  · intro fuel b2 e2
    unfold BufferedHelper.UpdateCursorRun
    rw [ScopedBarrier_ctor_held]
  · intro hv
    exact (UpdateCursor_valid s s.cursor e he ((tableValid_iff _).mp hv)).1

/-- The loop of the example evaluated: from target 2 it makes two matching
scans (entries 1 and 0) and ends with target 6; two scans are not enough. -/
theorem mergeExample_scans :
    mergeLoopRun 3 mergeExample.unprocessed_reservations_ 2 =
        some (List.replicate LIM {} |>.set 0 { pos_begin := 4, pos_end := 6, is_initialised := false }
          |>.set 1 { pos_begin := 2, pos_end := 4, is_initialised := false }, 6, 2) ∧
      mergeLoopRun 2 mergeExample.unprocessed_reservations_ 2 = none ∧
      countInit mergeExample.unprocessed_reservations_ = 2 := by
  decide

/-- Witness of C31: the report `(0, 2)` on the example engine (two initialised
entries); with three scans allowed the call returns `SUCCESS` and has
released the flag. -/
theorem merge_loop_terminates_witness :
    mergeExample.cursor < 2 ∧
      BufferedHelper.UpdateCursorRun 3 false mergeExample mergeExample.cursor 2 =
        some (PublishUpdateStatus.SUCCESS, (mergeExample.UpdateCursor mergeExample.cursor 2).2,
          false) :=
  ⟨by decide, (merge_loop_terminates mergeExample 2 (by decide)).2.2.2.2.1 3 (by decide)⟩

end disruptor

namespace barrier

/-- C21 evaluated at the generations that cross the range of `int`.
`Barrier<5>` reaches the gate `2147483645` after 429496729 generations, with
`current_` wrapped to `-2147483646`. The first arrival of that generation is
not the last one; it obtains the wrapped value `-2147483647`, which is below
the gate, so the condition of its waiting loop is false at its first
evaluation and it leaves `Wait` while the gate still holds `2147483645` and
four parties are missing. `Barrier<4>` reaches the gate `2147483644` after
536870911 generations; the three waiters of that generation obtain
`2147483647`, `2147483646`, `2147483645` and are held, the last arrival moves
the gate to the wrapped value `-2147483648`, and from then on the condition
of every one of the three waiters is true at every evaluation: they are never
released. -/
theorem barrier_waiters_wrap :
    (Barrier.ArriveAll 5 (429496729 * 5) (Barrier.init 5)).2 =
        { go_signal_ := 2147483645, current_ := -2147483646 } ∧
      Barrier.Arrive 5 { go_signal_ := 2147483645, current_ := -2147483646 } =
        ({ current_seq := -2147483647, last := false },
          { go_signal_ := 2147483645, current_ := -2147483647 }) ∧
      Barrier.spin_condition 5 2147483645 2147483645 (-2147483647) = false ∧
      Barrier.WaitLoop 5 (-2147483647) [(2147483645, 2147483645)] = some 0 ∧
      (Barrier.ArriveAll 4 (536870911 * 4) (Barrier.init 4)).2 =
        { go_signal_ := 2147483644, current_ := -2147483648 } ∧
      Barrier.ArriveAll 4 4 { go_signal_ := 2147483644, current_ := -2147483648 } =
        ([{ current_seq := 2147483647, last := false },
          { current_seq := 2147483646, last := false },
          { current_seq := 2147483645, last := false },
          { current_seq := 2147483644, last := true }],
          { go_signal_ := -2147483648, current_ := -2147483644 }) ∧
      (∀ c : Int, 2147483644 < c → c ≤ 2147483647 →
        (∀ k : Nat, Barrier.WaitLoop 4 c (List.replicate k (2147483644, 2147483644)) = none) ∧
        Barrier.spin_condition 4 (-2147483648) (-2147483648) c = true ∧
        ∀ k : Nat,
          Barrier.WaitLoop 4 c (List.replicate k (-2147483648, -2147483648)) = none) := by
  refine ⟨?_, by decide, by decide, by decide, ?_, by decide, ?_⟩
  · rw [ArriveAll_generations_state 5 (by decide) (by decide) 429496729 (Barrier.init 5)
      (init_generation_start 5 (by decide))]
    decide
  · rw [ArriveAll_generations_state 4 (by decide) (by decide) 536870911 (Barrier.init 4)
      (init_generation_start 4 (by decide))]
    decide
  · intro c h1 h2
    have s1 : Barrier.spin_condition 4 2147483644 2147483644 c = true := by
      simp only [Barrier.spin_condition, Bool.and_eq_true, decide_eq_true_eq]
      refine ⟨h1, ?_⟩
      unfold int_wrap
      omega
    have s2 : Barrier.spin_condition 4 (-2147483648) (-2147483648) c = true := by
      simp only [Barrier.spin_condition, Bool.and_eq_true, decide_eq_true_eq]
      refine ⟨by omega, ?_⟩
      unfold int_wrap
      omega
    refine ⟨?_, s2, ?_⟩
    · intro k
      have := WaitLoop_held 4 2147483644 c s1 k []
      rw [List.append_nil] at this
      rw [this]
      rfl
    · intro k
      have := WaitLoop_held 4 (-2147483648) c s2 k []
      rw [List.append_nil] at this
      rw [this]
      rfl

end barrier

namespace disruptor

end disruptor
